import Mathlib

/-!
# werf: references to scan for the images cleanup

A shallow embedding of `pkg/cleaning/images_cleanup_reference_to_scan.go`
(the retention policy engine) and of the parts of
`pkg/config/raw_meta_cleanup.go` it consumes.

Modelling conventions.

* A Go pointer `*referenceToScan` is an address (`Ptr`); the records live in a
  `Heap`.  Pointer comparison `ref1 == ref2` is equality of addresses, and the
  assignment `ref.imagesCleanupKeepPolicy = ...` is a heap update.
* A Go slice of pointers is a `List Ptr`.  The source never reads a slice
  through an alias after appending to or sorting another view of it, so the
  lists are immutable values here.
* `time.Time` is an instant counted in nanoseconds (`Int`), `time.Duration`
  is an `int64` count of nanoseconds with wrap-around negation.
* A run-time panic (slice bounds out of range, index out of range) is the
  outcome `none` of an `Option`, or `Error.panic` inside `getReferencesToScan`.
* Library code (Go's `sort`, `regexp`, go-git) is not part of the repository:
  `sort.Slice` is a parameter of the model constrained by `SortSliceSpec`,
  a `*regexp.Regexp` is a syntax tree with the search semantics of
  `MatchString`, and the git repository is a record of its query functions.
-/

namespace Werf

/-! ## Time -/

/-- An instant (`time.Time`), in nanoseconds. -/
abbrev Time := Int

/-- A `time.Duration`: an `int64` number of nanoseconds. -/
abbrev Duration := Int

/-- The smallest `int64`. -/
def minInt64 : Int := -9223372036854775808

/-- The largest `int64`. -/
def maxInt64 : Int := 9223372036854775807

/-- Reduction of an integer to the `int64` range (two's complement). -/
def wrapInt64 (x : Int) : Int := (x + 9223372036854775808) % 18446744073709551616 - 9223372036854775808

/-- Go's unary minus on an `int64` (`-in`): it wraps at the smallest value. -/
def Duration.neg (d : Duration) : Duration := wrapInt64 (-d)

/-- Method `t.Add(d)` of `time.Time`. -/
def Time.Add (t : Time) (d : Duration) : Time := t + d

/-- Method `t.After(u)` of `time.Time`: `t` is strictly later than `u`. -/
def Time.After (t u : Time) : Bool := decide (u < t)

/-- The constant `time.Hour`. -/
def Hour : Duration := 3600000000000

/-! ## Regular expressions

The fragment of RE2 syntax that the source writes down itself (`.*` and
`^(master|staging|production)$`), with `MatchString`'s semantics: the
expression matches if it matches some substring of the text. -/

/-- Syntax tree of a regular expression. -/
inductive Regexp where
  | emptyMatch
  | lit (c : Char)
  | anyNotNL
  | beginText
  | endText
  | cat (a b : Regexp)
  | alt (a b : Regexp)
  | star (a : Regexp)
  deriving DecidableEq, Repr

/-- A position in the text: the number of characters before it and the characters after it. -/
abbrev TextPos := Nat × List Char

/-- Iteration of a one-step matcher: the positions reachable by zero or more
rounds, each of which consumes at least one character. -/
def starIter (f : TextPos → List TextPos) : Nat → TextPos → List TextPos
  | 0, p => [p]
  | n + 1, p => p :: ((f p).filter (fun q => decide (q.2.length < p.2.length))).flatMap (starIter f n)

/-- All positions at which a match of the expression that starts at the given position can end. -/
def Regexp.ends : Regexp → TextPos → List TextPos
  | .emptyMatch, p => [p]
  | .lit c, p =>
    match p.2 with
    | [] => []
    | d :: cs => if d = c then [(p.1 + 1, cs)] else []
  | .anyNotNL, p =>
    match p.2 with
    | [] => []
    | d :: cs => if d = '\n' then [] else [(p.1 + 1, cs)]
  | .beginText, p => if p.1 = 0 then [p] else []
  | .endText, p => if p.2.isEmpty then [p] else []
  | .cat a b, p => (a.ends p).flatMap b.ends
  | .alt a b, p => a.ends p ++ b.ends p
  | .star a, p => starIter a.ends (p.2.length + 1) p

/-- Search for a match that starts at the current position or at a later one. -/
def Regexp.searchFrom (re : Regexp) : Nat → List Char → Bool
  | i, [] => !(re.ends (i, [])).isEmpty
  | i, c :: cs => !(re.ends (i, c :: cs)).isEmpty || re.searchFrom (i + 1) cs

/-- Method `re.MatchString(s)`: the text contains a match of the expression. -/
def Regexp.MatchString (re : Regexp) (s : String) : Bool := re.searchFrom 0 s.toList

/-- The expression that matches exactly the given characters, one after the other. -/
def Regexp.ofLiteral : List Char → Regexp
  | [] => .emptyMatch
  | c :: cs => .cat (.lit c) (Regexp.ofLiteral cs)

/-- The value of `regexp.MustCompile(".*")`. -/
def regexpDotStar : Regexp := .star .anyNotNL

/-- The value of `regexp.MustCompile("^(master|staging|production)$")`. -/
def regexpMainBranches : Regexp :=
  .cat .beginText
    (.cat (.alt (Regexp.ofLiteral "master".toList)
            (.alt (Regexp.ofLiteral "staging".toList) (Regexp.ofLiteral "production".toList)))
      .endText)

/-! ## Policy model (`pkg/config`) -/

/-- Modelled from the spec: the declaration of `config.Operator` and of the
values `config.AndOperator` and `config.OrOperator` is not among the sources;
the spec gives an operator the two values AND and OR. -/
inductive Operator where
  | And
  | Or
  deriving DecidableEq, Repr

/-- Modelled from the spec: the declaration of `config.MetaCleanupKeepPolicyLimit`
is not among the sources; its optional fields are the ones that the sources
read or assign, a nil pointer being `none`: `Last *int`, `In *time.Duration`
and `Operator *Operator`, which `applyReferencesLimit` reads, and `CreatedIn`,
which `toMetaCleanupKeepPolicyLimit` assigns and nothing in the cleaning
package reads. -/
structure MetaCleanupKeepPolicyLimit where
  Last : Option Int
  In : Option Duration
  Operator : Option Operator
  CreatedIn : Option Duration := none
  deriving DecidableEq, Repr

/-- Modelled from the spec: `config.MetaCleanupKeepPolicyImagesPerReference`
embeds a `MetaCleanupKeepPolicyLimit` (see the default policies of
`getReferencesToScan`); `PublishedIn` is the field that
`toMetaCleanupKeepPolicyImagesPerReference` assigns. -/
structure MetaCleanupKeepPolicyImagesPerReference where
  MetaCleanupKeepPolicyLimit : MetaCleanupKeepPolicyLimit
  PublishedIn : Option Duration := none
  deriving DecidableEq, Repr

/-- Modelled from the spec: `config.MetaCleanupKeepPolicyReferences`, with the
fields that `getReferencesToScan` reads. -/
structure MetaCleanupKeepPolicyReferences where
  TagRegexp : Option Regexp
  BranchRegexp : Option Regexp
  Limit : Option MetaCleanupKeepPolicyLimit
  deriving DecidableEq, Repr

/-- Modelled from the spec: `config.MetaCleanupKeepPolicy`. -/
structure MetaCleanupKeepPolicy where
  References : MetaCleanupKeepPolicyReferences
  ImagesPerReference : MetaCleanupKeepPolicyImagesPerReference
  deriving DecidableEq, Repr

/-- The zero value of `MetaCleanupKeepPolicyLimit`. -/
def MetaCleanupKeepPolicyLimit.zero : MetaCleanupKeepPolicyLimit :=
  { Last := none, In := none, Operator := none }

/-- The zero value of `MetaCleanupKeepPolicyImagesPerReference`. -/
def MetaCleanupKeepPolicyImagesPerReference.zero : MetaCleanupKeepPolicyImagesPerReference :=
  { MetaCleanupKeepPolicyLimit := MetaCleanupKeepPolicyLimit.zero }

/-- The fields of `rawMetaCleanupKeepPolicyReferencesLimit` that are loaded from YAML. -/
structure rawMetaCleanupKeepPolicyReferencesLimit where
  Last : Option Int
  CreatedIn : Option Duration
  Operator : Option String
  UnsupportedAttributes : List String := []
  deriving DecidableEq, Repr

/-- Method `toMetaCleanupKeepPolicyLimit`: the result is never nil. The time
bound is assigned to the field `CreatedIn` (`limit.CreatedIn = c.CreatedIn`);
the field `In`, which the cleaning package reads, is left nil. -/
def rawMetaCleanupKeepPolicyReferencesLimit.toMetaCleanupKeepPolicyLimit
    (c : rawMetaCleanupKeepPolicyReferencesLimit) : MetaCleanupKeepPolicyLimit :=
  { Last := c.Last
    In := none
    CreatedIn := c.CreatedIn
    Operator :=
      match c.Operator with
      | none => none
      | some op => if op = "And" then some Operator.And else if op = "Or" then some Operator.Or else none }

/-! ## Git objects (go-git), seen through the methods the code calls -/

/-- A `plumbing.Hash`. -/
abbrev Hash := Nat

/-- The value `plumbing.ZeroHash`. -/
def ZeroHash : Hash := 0

/-- A `*plumbing.Reference`: the results of `Name().IsRemote()`, `Name().IsTag()`,
`Name().Short()` and `Hash()`. -/
structure Reference where
  IsRemote : Bool
  IsTag : Bool
  Short : String
  Hash : Hash
  deriving DecidableEq, Repr

/-- An `*object.Commit`: its hash and `Committer.When`. -/
structure Commit where
  Hash : Hash
  CommitterWhen : Time
  deriving DecidableEq, Repr

/-- An `*object.Tag`: `Tagger.When`. -/
structure Tag where
  TaggerWhen : Time
  deriving DecidableEq, Repr

/-- Errors of the git library; `ErrObjectNotFound` is `plumbing.ErrObjectNotFound`. -/
inductive GitError where
  | ErrObjectNotFound
  | other (msg : String)
  deriving DecidableEq, Repr

/-- A `*git.Repository`: the four queries that `getReferencesToScan` makes.
`ResolveRevision` is applied to the hexadecimal form of a hash, which stands
for the hash itself. -/
structure Repository where
  References : Except GitError (List Reference)
  CommitObject : Hash → Except GitError Commit
  ResolveRevision : Hash → Except GitError Hash
  TagObject : Hash → Except GitError Tag

/-! ## References to scan -/

/-- The struct `referenceScanOptions`. -/
structure referenceScanOptions where
  scanDepthLimit : Int
  imagesCleanupKeepPolicy : MetaCleanupKeepPolicyImagesPerReference
  deriving DecidableEq, Repr

/-- The struct `referenceToScan`. -/
structure referenceToScan where
  Reference : Reference
  CreatedAt : Time
  HeadCommit : Commit
  referenceScanOptions : referenceScanOptions
  deriving DecidableEq, Repr

/-- The address of a `referenceToScan`. -/
abbrev Ptr := Nat

/-- The memory that holds the `referenceToScan` records. -/
abbrev Heap := Ptr → referenceToScan

/-- The record stored at an address that was never allocated. -/
def referenceToScan.unallocated : referenceToScan :=
  { Reference := { IsRemote := false, IsTag := false, Short := "", Hash := ZeroHash }
    CreatedAt := 0
    HeadCommit := { Hash := ZeroHash, CommitterWhen := 0 }
    referenceScanOptions :=
      { scanDepthLimit := 0, imagesCleanupKeepPolicy := MetaCleanupKeepPolicyImagesPerReference.zero } }

/-- The assignment `ref.imagesCleanupKeepPolicy = imagesPerReference` through the pointer `ref`. -/
def Heap.setImagesCleanupKeepPolicy (h : Heap) (ref : Ptr)
    (imagesPerReference : MetaCleanupKeepPolicyImagesPerReference) : Heap :=
  fun q =>
    if q = ref then
      { h q with
        referenceScanOptions :=
          { (h q).referenceScanOptions with imagesCleanupKeepPolicy := imagesPerReference } }
    else h q

/-! ## `sort.Slice` -/

/-- The comparison that the source passes to `sort.Slice`:
`refs[i].CreatedAt.After(refs[j].CreatedAt)`. -/
def createdAtAfter (h : Heap) (a b : Ptr) : Bool := (h a).CreatedAt.After (h b).CreatedAt

/-- What `sort.Slice` guarantees for the comparison `createdAtAfter`: the
result is a rearrangement of the slice in which no element is followed by one
that the comparison puts before it. The order of elements with the same
`CreatedAt` is not determined (`sort.Slice` is not stable). -/
def SortSliceSpec (sortSlice : (Ptr → Ptr → Bool) → List Ptr → List Ptr) : Prop :=
  ∀ (h : Heap) (refs : List Ptr),
    (sortSlice (createdAtAfter h) refs).Perm refs ∧
    (sortSlice (createdAtAfter h) refs).Pairwise (fun a b => createdAtAfter h b a = false)

/-- Insertion of an element in front of a list that is sorted by `less`: it
moves behind the elements that `less` puts before it, and no further. -/
def insertSorted (less : Ptr → Ptr → Bool) (x : Ptr) : List Ptr → List Ptr
  | [] => [x]
  | y :: ys => if less y x then y :: insertSorted less x ys else x :: y :: ys

/-- Stable insertion sort: the result of Go's `sort.Slice` on slices of at most 12 elements
(`insertionSort_func`). -/
def insertionSortSlice (less : Ptr → Ptr → Bool) : List Ptr → List Ptr
  | [] => []
  | x :: xs => insertSorted less x (insertionSortSlice less xs)

/-! ## Strings -/

/-- The part of a text before its first `/` and the part after it, if it has a `/`. -/
def cutAtSlash : List Char → Option (List Char × List Char)
  | [] => none
  | c :: cs =>
    if c = '/' then some ([], cs)
    else
      match cutAtSlash cs with
      | none => none
      | some (a, b) => some (c :: a, b)

/-- The call `strings.SplitN(s, "/", 2)`: at most two pieces, cut at the first `/`. -/
def stringsSplitN2 (s : String) : List String :=
  match cutAtSlash s.toList with
  | none => [s]
  | some (a, b) => [String.mk a, String.mk b]

/-- The call `strings.HasPrefix(s, prefix)`. -/
def stringsHasPrefix (s pre : String) : Bool := pre.toList.isPrefixOf s.toList

/-! ## Selection, limits and merging (`pkg/cleaning`) -/

/-- Function `selectBranchReferencesByRegexp`; `none` is the panic of the
index expression `[1]` on a short name without `/`. -/
def selectBranchReferencesByRegexp (h : Heap) (branchesRefs : List Ptr) (regexp : Regexp) :
    Option (List Ptr) :=
  branchesRefs.foldlM
    (fun result branchRef =>
      match (stringsSplitN2 (h branchRef).Reference.Short)[1]? with
      | none => none
      | some refShortNameWithoutRemote =>
        if regexp.MatchString refShortNameWithoutRemote then some (result ++ [branchRef])
        else some result)
    []

/-- Function `selectTagReferencesByRegexp`. -/
def selectTagReferencesByRegexp (h : Heap) (tagsRefs : List Ptr) (regexp : Regexp) : List Ptr :=
  tagsRefs.foldl
    (fun result tagRef =>
      if regexp.MatchString (h tagRef).Reference.Short then result ++ [tagRef] else result)
    []

/-- Function `mergeReferences`: `refs2` followed by the elements of `refs1` that are not in `refs2`. -/
def mergeReferences (refs1 refs2 : List Ptr) : List Ptr :=
  refs1.foldl
    (fun result ref1 => if refs2.any (fun ref2 => ref1 == ref2) then result else result ++ [ref1])
    refs2

/-- Function `referencesOr`. -/
def referencesOr (refs1 refs2 : List Ptr) : List Ptr := mergeReferences refs1 refs2

/-- Function `referencesAnd`: the elements of `refs1` that are in `refs2`. -/
def referencesAnd (refs1 refs2 : List Ptr) : List Ptr :=
  refs1.foldl
    (fun result ref1 => if refs2.any (fun ref2 => ref1 == ref2) then result ++ [ref1] else result)
    []

/-- Function `filterReferencesByIn`. The source reads `time.Now()` anew in
every round of its loop: `clock k` is the reading in the round of the
reference number `k` of `refs`; the first component of the loop variable
counts the rounds. -/
def filterReferencesByInClock (clock : Nat → Time) (h : Heap) (refs : List Ptr) (d : Duration) :
    List Ptr :=
  (refs.foldl
    (fun (st : Nat × List Ptr) ref =>
      (st.1 + 1,
        if (h ref).CreatedAt.After ((clock st.1).Add d.neg) then st.2 ++ [ref] else st.2))
    (0, [])).2

/-- Function `filterReferencesByIn` in a call during which every reading of
`time.Now()` is the same instant `now`. -/
def filterReferencesByIn (now : Time) (h : Heap) (refs : List Ptr) (d : Duration) : List Ptr :=
  filterReferencesByInClock (fun _ => now) h refs d

/-- Function `filterReferencesByLast`; `none` is the panic of the slice
expression `refs[:last]` with a negative bound. -/
def filterReferencesByLast (sortSlice : (Ptr → Ptr → Bool) → List Ptr → List Ptr) (h : Heap)
    (refs : List Ptr) (last : Int) : Option (List Ptr) :=
  if last = -1 then some refs
  else
    let refs := sortSlice (createdAtAfter h) refs
    if (refs.length : Int) < last then some refs
    else if last < 0 then none
    else some (refs.take last.toNat)

/-- Function `applyReferencesLimit`. -/
def applyReferencesLimit (sortSlice : (Ptr → Ptr → Bool) → List Ptr → List Ptr) (now : Time)
    (h : Heap) (refs : List Ptr) (limit : Option MetaCleanupKeepPolicyLimit) : Option (List Ptr) :=
  match limit with
  | none => some refs
  | some limit =>
    let policyInRefs : List Ptr :=
      match limit.In with
      | some d => filterReferencesByIn now h refs d
      | none => []
    let policyLastRefs? : Option (List Ptr) :=
      match limit.Last with
      | some last => filterReferencesByLast sortSlice h refs last
      | none => some []
    match policyLastRefs? with
    | none => none
    | some policyLastRefs =>
      if limit.In.isNone then some policyLastRefs
      else if limit.Last.isNone then some policyInRefs
      else if limit.Operator = some Operator.Or then some (referencesOr policyInRefs policyLastRefs)
      else some (referencesAnd policyInRefs policyLastRefs)

/-- Function `applyImagesPerReference`. -/
def applyImagesPerReference (h : Heap) (policyBranchesRefs : List Ptr)
    (imagesPerReference : MetaCleanupKeepPolicyImagesPerReference) : Heap :=
  policyBranchesRefs.foldl (fun h ref => h.setImagesCleanupKeepPolicy ref imagesPerReference) h

/-- Function `applyCleanupKeepPolicy`: the heap after the assignments and the returned slice. -/
def applyCleanupKeepPolicy (sortSlice : (Ptr → Ptr → Bool) → List Ptr → List Ptr) (now : Time)
    (h : Heap) (refs : List Ptr) (policy : MetaCleanupKeepPolicy) : Option (Heap × List Ptr) :=
  match applyReferencesLimit sortSlice now h refs policy.References.Limit with
  | none => none
  | some refs => some (applyImagesPerReference h refs policy.ImagesPerReference, refs)

/-! ## `getReferencesToScan` -/

/-- The ways in which `getReferencesToScan` ends without a list: the four
error returns, and a run-time panic. -/
inductive Error where
  | getReferencesFailed (err : GitError)
  | commitObjectFailed (short : String) (hash : Hash) (err : GitError)
  | resolveRevisionFailed (short : String) (err : GitError)
  | tagObjectFailed (hash : Hash) (err : GitError)
  | panic
  deriving DecidableEq, Repr

/-- A freshly built `referenceToScan`: the sub-policy is the zero value. -/
def newReferenceToScan (reference : Reference) (modifiedAt : Time) (refCommit : Commit)
    (scanDepthLimit : Int) : referenceToScan :=
  { Reference := reference
    CreatedAt := modifiedAt
    HeadCommit := refCommit
    referenceScanOptions :=
      { scanDepthLimit := scanDepthLimit
        imagesCleanupKeepPolicy := MetaCleanupKeepPolicyImagesPerReference.zero } }

/-- The body of the callback given to `rs.ForEach`: `ok none` when the
reference is skipped, `ok (some r)` when `r` is appended to `refs`. -/
def classifyReference (gitRepository : Repository) (reference : Reference) :
    Except Error (Option referenceToScan) :=
  if !(reference.IsRemote || reference.IsTag) then .ok none
  else if reference.IsRemote && !stringsHasPrefix reference.Short "origin/" then .ok none
  else if !reference.IsTag then
    let refHash := reference.Hash
    if refHash = ZeroHash then .ok none
    else
      match gitRepository.CommitObject refHash with
      | .error err => .error (Error.commitObjectFailed reference.Short refHash err)
      | .ok refCommit => .ok (some (newReferenceToScan reference refCommit.CommitterWhen refCommit (-1)))
  else
    match gitRepository.ResolveRevision reference.Hash with
    | .error err => .error (Error.resolveRevisionFailed reference.Short err)
    | .ok revHash =>
      match gitRepository.CommitObject revHash with
      | .error err => .error (Error.commitObjectFailed reference.Short revHash err)
      | .ok refCommit =>
        match gitRepository.TagObject reference.Hash with
        | .ok tagObject => .ok (some (newReferenceToScan reference tagObject.TaggerWhen refCommit 1))
        | .error GitError.ErrObjectNotFound =>
          .ok (some (newReferenceToScan reference refCommit.CommitterWhen refCommit 1))
        | .error err => .error (Error.tagObjectFailed reference.Hash err)

/-- The loop `rs.ForEach(...)`: the records appended to `refs`, or the first error. -/
def classifyReferences (gitRepository : Repository) (rs : List Reference) :
    Except Error (List referenceToScan) :=
  rs.foldlM
    (fun refs reference =>
      match classifyReference gitRepository reference with
      | .error err => .error err
      | .ok none => .ok refs
      | .ok (some r) => .ok (refs ++ [r]))
    []

/-- The heap after the records of `refs` were allocated: the record number `p` is at address `p`. -/
def allocate (refs : List referenceToScan) : Heap := fun p => refs.getD p referenceToScan.unallocated

/-- The loop that splits `refs` into `branchesRefs` and `tagsRefs` (returned in this order). -/
def splitReferences (h : Heap) (refs : List Ptr) : List Ptr × List Ptr :=
  refs.foldl
    (fun acc ref =>
      if (h ref).Reference.IsTag then (acc.1, acc.2 ++ [ref]) else (acc.1 ++ [ref], acc.2))
    ([], [])

/-- The policies that `getReferencesToScan` builds when it is given none. -/
def defaultKeepPolicies : List MetaCleanupKeepPolicy :=
  [ { References :=
        { TagRegexp := some regexpDotStar
          BranchRegexp := none
          Limit := some { Last := some 10, In := none, Operator := none } }
      ImagesPerReference := MetaCleanupKeepPolicyImagesPerReference.zero },
    { References :=
        { TagRegexp := none
          BranchRegexp := some regexpDotStar
          Limit := some { Last := some 10, In := some (Hour * 24 * 7), Operator := some Operator.And } }
      ImagesPerReference :=
        { MetaCleanupKeepPolicyLimit :=
            { Last := some 2, In := some (Hour * 24 * 7), Operator := some Operator.And } } },
    { References :=
        { TagRegexp := none
          BranchRegexp := some regexpMainBranches
          Limit := none }
      ImagesPerReference :=
        { MetaCleanupKeepPolicyLimit := { Last := some 10, In := none, Operator := none } } } ]

/-- The statement `if len(keepPolicies) == 0 { ... }`: the policies that are applied. -/
def effectiveKeepPolicies (keepPolicies : List MetaCleanupKeepPolicy) : List MetaCleanupKeepPolicy :=
  if keepPolicies.length = 0 then keepPolicies ++ defaultKeepPolicies else keepPolicies

/-- The variables that the loop over the policies updates. -/
structure PolicyLoopState where
  heap : Heap
  resultTagsRefs : List Ptr
  resultBranchesRefs : List Ptr

/-- The survivors `policyRefs` of one policy and the heap after its assignments. -/
def policyReferences (sortSlice : (Ptr → Ptr → Bool) → List Ptr → List Ptr) (now : Time)
    (branchesRefs tagsRefs : List Ptr) (h : Heap) (policy : MetaCleanupKeepPolicy) :
    Option (Heap × List Ptr) :=
  match policy.References.BranchRegexp with
  | some re =>
    match selectBranchReferencesByRegexp h branchesRefs re with
    | none => none
    | some policyRefs => applyCleanupKeepPolicy sortSlice now h policyRefs policy
  | none =>
    match policy.References.TagRegexp with
    | some re => applyCleanupKeepPolicy sortSlice now h (selectTagReferencesByRegexp h tagsRefs re) policy
    | none => some (h, [])

/-- One round of the loop `for _, policy := range keepPolicies`. -/
def policyStep (sortSlice : (Ptr → Ptr → Bool) → List Ptr → List Ptr) (now : Time)
    (branchesRefs tagsRefs : List Ptr) (st : PolicyLoopState) (policy : MetaCleanupKeepPolicy) :
    Option PolicyLoopState :=
  match policyReferences sortSlice now branchesRefs tagsRefs st.heap policy with
  | none => none
  | some (heap, policyRefs) =>
    if policy.References.BranchRegexp.isSome then
      some { heap := heap
             resultTagsRefs := st.resultTagsRefs
             resultBranchesRefs := mergeReferences st.resultBranchesRefs policyRefs }
    else if policy.References.TagRegexp.isSome then
      some { heap := heap
             resultTagsRefs := mergeReferences st.resultTagsRefs policyRefs
             resultBranchesRefs := st.resultBranchesRefs }
    else some { st with heap := heap }

/-- The loop over the policies. -/
def policyLoop (sortSlice : (Ptr → Ptr → Bool) → List Ptr → List Ptr) (now : Time)
    (branchesRefs tagsRefs : List Ptr) (st : PolicyLoopState)
    (keepPolicies : List MetaCleanupKeepPolicy) : Option PolicyLoopState :=
  keepPolicies.foldlM (policyStep sortSlice now branchesRefs tagsRefs) st

/-- The part of `getReferencesToScan` that follows the classification: split,
policies, sort, concatenation. -/
def scanClassified (sortSlice : (Ptr → Ptr → Bool) → List Ptr → List Ptr) (now : Time)
    (refs : List referenceToScan) (keepPolicies : List MetaCleanupKeepPolicy) :
    Option (Heap × List Ptr) :=
  let h := allocate refs
  let split := splitReferences h (List.range refs.length)
  let branchesRefs := split.1
  let tagsRefs := split.2
  match policyLoop sortSlice now branchesRefs tagsRefs
      { heap := h, resultTagsRefs := [], resultBranchesRefs := [] }
      (effectiveKeepPolicies keepPolicies) with
  | none => none
  | some st =>
    let resultBranchesRefs := sortSlice (createdAtAfter st.heap) st.resultBranchesRefs
    let resultTagsRefs := sortSlice (createdAtAfter st.heap) st.resultTagsRefs
    some (st.heap, resultBranchesRefs ++ resultTagsRefs)

/-- Function `getReferencesToScan`: the final heap and the returned slice of
pointers into it, for a run during which every reading of `time.Now()` is
the same instant `now`. -/
def getReferencesToScan (sortSlice : (Ptr → Ptr → Bool) → List Ptr → List Ptr) (now : Time)
    (gitRepository : Repository) (keepPolicies : List MetaCleanupKeepPolicy) :
    Except Error (Heap × List Ptr) :=
  match gitRepository.References with
  | .error err => .error (Error.getReferencesFailed err)
  | .ok rs =>
    match classifyReferences gitRepository rs with
    | .error err => .error err
    | .ok refs =>
      match scanClassified sortSlice now refs keepPolicies with
      | none => .error Error.panic
      | some res => .ok res

/-! ## Notions used to state the properties -/

/-- The records that the classification loop of `getReferencesToScan` builds
(`refs`); the empty list when the run ends with an error before the loop is over. -/
def classifiedReferences (gitRepository : Repository) : List referenceToScan :=
  match gitRepository.References with
  | .error _ => []
  | .ok rs =>
    match classifyReferences gitRepository rs with
    | .error _ => []
    | .ok refs => refs

/-- The value of `policyRefs` at the end of the round of a policy that starts
with the heap `h` (the empty list when the round panics). -/
def survivorsAt (sortSlice : (Ptr → Ptr → Bool) → List Ptr → List Ptr) (now : Time)
    (branchesRefs tagsRefs : List Ptr) (h : Heap) (policy : MetaCleanupKeepPolicy) : List Ptr :=
  match policyReferences sortSlice now branchesRefs tagsRefs h policy with
  | none => []
  | some res => res.2

/-- The survivors of a policy: the value of `policyRefs` at the end of its
round of the loop, for the classified records `refs`. It is computed on the
heap as allocated: the sub-policies that earlier rounds assign do not change
it (`survivorsAt_congr`). -/
def policySurvivors (sortSlice : (Ptr → Ptr → Bool) → List Ptr → List Ptr) (now : Time)
    (refs : List referenceToScan) (policy : MetaCleanupKeepPolicy) : List Ptr :=
  survivorsAt sortSlice now (splitReferences (allocate refs) (List.range refs.length)).1
    (splitReferences (allocate refs) (List.range refs.length)).2 (allocate refs) policy

/-- Two heaps hold the same references: they differ at most in the attached sub-policies. -/
def sameReferences (h h' : Heap) : Prop :=
  ∀ p, (h' p).Reference = (h p).Reference ∧ (h' p).CreatedAt = (h p).CreatedAt ∧
    (h' p).HeadCommit = (h p).HeadCommit ∧
    (h' p).referenceScanOptions.scanDepthLimit = (h p).referenceScanOptions.scanDepthLimit

/-- The sub-policy attached to the record at an address. -/
def attachedPolicy (h : Heap) (r : Ptr) : MetaCleanupKeepPolicyImagesPerReference :=
  (h r).referenceScanOptions.imagesCleanupKeepPolicy

/-! ## Example data -/

/-- A record of a remote branch of `origin` with the given short name and commit time. -/
def exampleBranch (short : String) (t : Time) : referenceToScan :=
  newReferenceToScan { IsRemote := true, IsTag := false, Short := short, Hash := 1 } t
    { Hash := 1, CommitterWhen := t } (-1)

/-- Fifteen branches with strictly decreasing commit times 100, 99, ..., 86. -/
def exampleHeap15 : Heap :=
  allocate ((List.range 15).map (fun i => exampleBranch "origin/b" (100 - (i : Int))))

/-- Five branches with commit times 50, 40, 30, 20, 10. -/
def exampleHeap5 : Heap :=
  allocate [exampleBranch "origin/r1" 50, exampleBranch "origin/r2" 40, exampleBranch "origin/r3" 30,
    exampleBranch "origin/r4" 20, exampleBranch "origin/r5" 10]

/-- One branch whose commit is one nanosecond older than the instant 0. -/
def exampleHeap1 : Heap := allocate [exampleBranch "origin/master" (-1)]

/-- A repository with the remote branches `origin/master` (committed one day
before the instant 0) and `origin/feature-x` (ten days before), and the
lightweight tags `v1.0` (thirty days before) and `v2.0` (two days before). -/
def exampleRepository : Repository :=
  { References :=
      .ok [ { IsRemote := true, IsTag := false, Short := "origin/master", Hash := 1 },
            { IsRemote := true, IsTag := false, Short := "origin/feature-x", Hash := 2 },
            { IsRemote := false, IsTag := true, Short := "v1.0", Hash := 3 },
            { IsRemote := false, IsTag := true, Short := "v2.0", Hash := 4 } ]
    CommitObject := fun hash =>
      .ok { Hash := hash
            CommitterWhen :=
              if hash = 1 then -(Hour * 24) else if hash = 2 then -(Hour * 24 * 10)
              else if hash = 3 then -(Hour * 24 * 30) else -(Hour * 24 * 2) }
    ResolveRevision := fun hash => .ok hash
    TagObject := fun _ => .error GitError.ErrObjectNotFound }

/-- A repository whose branches `origin/master` and `origin/staging` point to
the same commit, made one hour before the instant 0. -/
def exampleTieRepository : Repository :=
  { References :=
      .ok [ { IsRemote := true, IsTag := false, Short := "origin/master", Hash := 1 },
            { IsRemote := true, IsTag := false, Short := "origin/staging", Hash := 1 } ]
    CommitObject := fun hash => .ok { Hash := hash, CommitterWhen := -Hour }
    ResolveRevision := fun hash => .ok hash
    TagObject := fun _ => .error GitError.ErrObjectNotFound }

/-- Policy A: every branch, no limit, sub-policy `Last = 1`. -/
def examplePolicyA : MetaCleanupKeepPolicy :=
  { References := { TagRegexp := none, BranchRegexp := some regexpDotStar, Limit := none }
    ImagesPerReference :=
      { MetaCleanupKeepPolicyLimit := { Last := some 1, In := none, Operator := none } } }

/-- Policy B: the branches `master`, `staging` and `production`, no limit, sub-policy `Last = 5`. -/
def examplePolicyB : MetaCleanupKeepPolicy :=
  { References := { TagRegexp := none, BranchRegexp := some regexpMainBranches, Limit := none }
    ImagesPerReference :=
      { MetaCleanupKeepPolicyLimit := { Last := some 5, In := none, Operator := none } } }

/-- The outcome of a run of `getReferencesToScan` at the instant 0 with the
stable insertion sort (a heap without records and no list if the run fails). -/
def exampleRun (gitRepository : Repository) (keepPolicies : List MetaCleanupKeepPolicy) :
    Heap × List Ptr :=
  match getReferencesToScan insertionSortSlice 0 gitRepository keepPolicies with
  | .ok res => res
  | .error _ => (allocate [], [])


/-- A record of a lightweight tag with the given short name and commit time. -/
def exampleTag (short : String) (t : Time) : referenceToScan :=
  newReferenceToScan { IsRemote := false, IsTag := true, Short := short, Hash := 1 } t
    { Hash := 1, CommitterWhen := t } 1

/-- The branches `release`, `release-2`, `my-release` and `feature/x` of `origin` and the tag `release`. -/
def exampleHeapNames : Heap :=
  allocate [exampleBranch "origin/release" 4, exampleBranch "origin/release-2" 3,
    exampleBranch "origin/my-release" 2, exampleBranch "origin/feature/x" 1, exampleTag "release" 0]

/-- The expression that matches exactly the given text, from the beginning to the end. -/
def exampleExactRegexp (s : String) : Regexp :=
  .cat .beginText (.cat (Regexp.ofLiteral s.toList) .endText)


/-- The tests of the callback of `rs.ForEach` after which it returns without
appending: the reference is neither a remote branch nor a tag, or it is a
branch of another remote than `origin`, or it is not a tag and its hash is the
zero hash. -/
def isSkipped (reference : Reference) : Bool :=
  !(reference.IsRemote || reference.IsTag) ||
    (reference.IsRemote && !stringsHasPrefix reference.Short "origin/") ||
    (!reference.IsTag && decide (reference.Hash = ZeroHash))

/-- A resolution that the callback makes for the reference fails: the commit
object of a branch; the revision, the commit object or the tag object (with
another answer than `ErrObjectNotFound`) of a tag. -/
def resolutionFails (gitRepository : Repository) (reference : Reference) : Prop :=
  if reference.IsTag = true then
    (∃ err, gitRepository.ResolveRevision reference.Hash = .error err) ∨
      (∃ revHash err, gitRepository.ResolveRevision reference.Hash = .ok revHash ∧
        gitRepository.CommitObject revHash = .error err) ∨
      (∃ err, gitRepository.TagObject reference.Hash = .error err ∧ err ≠ GitError.ErrObjectNotFound)
  else ∃ err, gitRepository.CommitObject reference.Hash = .error err


/-- A repository with the branch `origin/master`, the reference `origin/HEAD`
without target, a local branch, a branch of the remote `upstream`, the
annotated tag `v1` (tag object 2 on commit 3) and the lightweight tag `v2`. -/
def exampleAnnotatedRepository : Repository :=
  { References :=
      .ok [ { IsRemote := true, IsTag := false, Short := "origin/master", Hash := 1 },
            { IsRemote := true, IsTag := false, Short := "origin/HEAD", Hash := ZeroHash },
            { IsRemote := false, IsTag := false, Short := "topic", Hash := 1 },
            { IsRemote := true, IsTag := false, Short := "upstream/master", Hash := 1 },
            { IsRemote := false, IsTag := true, Short := "v1", Hash := 2 },
            { IsRemote := false, IsTag := true, Short := "v2", Hash := 4 } ]
    CommitObject := fun hash =>
      .ok { Hash := hash, CommitterWhen := if hash = 1 then 10 else if hash = 3 then 5 else 7 }
    ResolveRevision := fun hash => if hash = 2 then .ok 3 else .ok hash
    TagObject := fun hash =>
      if hash = 2 then .ok { TaggerWhen := 20 } else .error GitError.ErrObjectNotFound }

/-- A repository with the branch `origin/master` and a tag `v0` whose hash is
the zero hash, which the repository cannot resolve. -/
def exampleZeroTagRepository : Repository :=
  { References :=
      .ok [ { IsRemote := true, IsTag := false, Short := "origin/master", Hash := 1 },
            { IsRemote := false, IsTag := true, Short := "v0", Hash := ZeroHash } ]
    CommitObject := fun hash => .ok { Hash := hash, CommitterWhen := 10 }
    ResolveRevision := fun hash =>
      if hash = ZeroHash then .error (GitError.other "reference not found") else .ok hash
    TagObject := fun _ => .error GitError.ErrObjectNotFound }

/-- A repository with the branch `origin/master` and a tag `v1` whose tag
object cannot be read. -/
def exampleBrokenRepository : Repository :=
  { References :=
      .ok [ { IsRemote := true, IsTag := false, Short := "origin/master", Hash := 1 },
            { IsRemote := false, IsTag := true, Short := "v1", Hash := 2 } ]
    CommitObject := fun hash => .ok { Hash := hash, CommitterWhen := 10 }
    ResolveRevision := fun hash => .ok hash
    TagObject := fun _ => .error (GitError.other "unexpected EOF") }


/-! ## Loading the policies (`pkg/config/raw_meta_cleanup.go`)

The YAML decoder, the helper `checkOverflow` and Go's package `regexp` are
not among the sources: the outcome of the decoding (`unmarshal((*plain)(c))`)
is an input of the model, `checkOverflow` and the package are parameters. The
attributes that a section does not know (`UnsupportedAttributes`) are the list
of their names. The parent stack only feeds the error messages and is left out. -/

/-- An error of the loader: its message. -/
abbrev ConfigError := String

/-- Go's package `regexp`, as far as the loader calls it. -/
structure RegexpPackage where
  Compile : String → Option Regexp
  QuoteMeta : String → String

/-- The call `strings.HasSuffix(s, suffix)`. -/
def stringsHasSuffix (s suf : String) : Bool := suf.toList.reverse.isPrefixOf s.toList.reverse

/-- The call `strings.TrimPrefix(s, prefix)`. -/
def stringsTrimPrefix (s pre : String) : String :=
  if stringsHasPrefix s pre then String.mk (s.toList.drop pre.toList.length) else s

/-- The call `strings.TrimSuffix(s, suffix)`. -/
def stringsTrimSuffix (s suf : String) : String :=
  if stringsHasSuffix s suf then String.mk (s.toList.take (s.toList.length - suf.toList.length))
  else s

/-- The variable `value` of `processRegexpString`: the text that is compiled. -/
def processRegexpStringValue (lib : RegexpPackage) (configValue : String) : String :=
  if stringsHasPrefix configValue "/" && stringsHasSuffix configValue "/" then
    stringsTrimSuffix (stringsTrimPrefix configValue "/") "/"
  else "^" ++ lib.QuoteMeta configValue ++ "$"

/-- Method `processRegexpString`. -/
def processRegexpString (lib : RegexpPackage) (name configValue : String) :
    Except ConfigError Regexp :=
  match lib.Compile (processRegexpStringValue lib configValue) with
  | none => .error ("invalid value '" ++ configValue ++ "' for `" ++ name ++ ": string|REGEX`!")
  | some regex => .ok regex

/-- The struct `rawMetaCleanupKeepPolicyReferences`. -/
structure rawMetaCleanupKeepPolicyReferences where
  Tag : String
  Branch : String
  Limit : Option rawMetaCleanupKeepPolicyReferencesLimit
  TagRegexp : Option Regexp
  BranchRegexp : Option Regexp
  UnsupportedAttributes : List String
  deriving DecidableEq, Repr

/-- What the decoder fills of a `rawMetaCleanupKeepPolicyReferences`: the
fields `TagRegexp` and `BranchRegexp` are not read from YAML and are nil. -/
structure plainMetaCleanupKeepPolicyReferences where
  Tag : String
  Branch : String
  Limit : Option rawMetaCleanupKeepPolicyReferencesLimit
  UnsupportedAttributes : List String
  deriving DecidableEq, Repr

/-- Method `UnmarshalYAML` of `rawMetaCleanupKeepPolicyReferences`. -/
def rawMetaCleanupKeepPolicyReferences.UnmarshalYAML (lib : RegexpPackage)
    (checkOverflow : List String → Option ConfigError)
    (unmarshal : Except ConfigError plainMetaCleanupKeepPolicyReferences) :
    Except ConfigError rawMetaCleanupKeepPolicyReferences :=
  match unmarshal with
  | .error err => .error err
  | .ok c =>
    match checkOverflow c.UnsupportedAttributes with
    | some err => .error err
    | none =>
      if c.Tag = "" ∧ c.Branch = "" then
        .error "tag `tag: string|REGEX` or branch `branch: string|REGEX` required for cleanup keep policy!"
      else if c.Tag ≠ "" ∧ c.Branch ≠ "" then
        .error "specify only tag `tag: string|REGEX` or branch `branch: string|REGEX` for cleanup keep policy!"
      else if c.Branch ≠ "" then
        match processRegexpString lib "branch" c.Branch with
        | .error err => .error err
        | .ok regex =>
          .ok { Tag := c.Tag, Branch := c.Branch, Limit := c.Limit, TagRegexp := none,
                BranchRegexp := some regex, UnsupportedAttributes := c.UnsupportedAttributes }
      else
        match processRegexpString lib "tag" c.Tag with
        | .error err => .error err
        | .ok regex =>
          .ok { Tag := c.Tag, Branch := c.Branch, Limit := c.Limit, TagRegexp := some regex,
                BranchRegexp := none, UnsupportedAttributes := c.UnsupportedAttributes }

/-- Method `UnmarshalYAML` of `rawMetaCleanupKeepPolicyReferencesLimit`. -/
def rawMetaCleanupKeepPolicyReferencesLimit.UnmarshalYAML
    (checkOverflow : List String → Option ConfigError)
    (unmarshal : Except ConfigError rawMetaCleanupKeepPolicyReferencesLimit) :
    Except ConfigError rawMetaCleanupKeepPolicyReferencesLimit :=
  match unmarshal with
  | .error err => .error err
  | .ok c =>
    match checkOverflow c.UnsupportedAttributes with
    | some err => .error err
    | none =>
      match c.Operator with
      | some op =>
        if op ≠ "Or" ∧ op ≠ "And" then
          .error ("unsupported value '" ++ op ++ "' for `operator: Or|And`!")
        else .ok c
      | none =>
        if c.CreatedIn.isSome ∧ c.Last.isSome then .ok { c with Operator := some "And" } else .ok c

/-- The struct `rawMetaCleanupKeepPolicyImagesPerReference`. -/
structure rawMetaCleanupKeepPolicyImagesPerReference where
  Last : Option Int
  PublishedIn : Option Duration
  Operator : Option String
  UnsupportedAttributes : List String := []
  deriving DecidableEq, Repr

/-- Method `UnmarshalYAML` of `rawMetaCleanupKeepPolicyImagesPerReference`. -/
def rawMetaCleanupKeepPolicyImagesPerReference.UnmarshalYAML
    (checkOverflow : List String → Option ConfigError)
    (unmarshal : Except ConfigError rawMetaCleanupKeepPolicyImagesPerReference) :
    Except ConfigError rawMetaCleanupKeepPolicyImagesPerReference :=
  match unmarshal with
  | .error err => .error err
  | .ok c =>
    match checkOverflow c.UnsupportedAttributes with
    | some err => .error err
    | none =>
      match c.Operator with
      | some op =>
        if op ≠ "Or" ∧ op ≠ "And" then
          .error ("unsupported value '" ++ op ++ "' for `operator: Or|And`!")
        else .ok c
      | none =>
        if c.PublishedIn.isSome ∧ c.Last.isSome then .ok { c with Operator := some "And" }
        else .ok c

/-- Method `toMetaCleanupKeepPolicyImagesPerReference`. The time bound is
assigned to the field `PublishedIn` (`limit.PublishedIn = c.PublishedIn`); the
field `In` of the embedded limit is left nil. -/
def rawMetaCleanupKeepPolicyImagesPerReference.toMetaCleanupKeepPolicyImagesPerReference
    (c : rawMetaCleanupKeepPolicyImagesPerReference) : MetaCleanupKeepPolicyImagesPerReference :=
  { MetaCleanupKeepPolicyLimit :=
      { Last := c.Last
        In := none
        Operator :=
          match c.Operator with
          | none => none
          | some op =>
            if op = "And" then some Operator.And else if op = "Or" then some Operator.Or else none }
    PublishedIn := c.PublishedIn }

/-- A `checkOverflow` that reports the attributes that a section does not know, if there are any. -/
def exampleCheckOverflow (unsupportedAttributes : List String) : Option ConfigError :=
  if unsupportedAttributes.isEmpty then none
  else some ("unknown fields: " ++ ", ".intercalate unsupportedAttributes)


/-! ## An instance of the package `regexp`

Quoting as `regexp.QuoteMeta` does it, and a compiler for the patterns made of
plain and escaped characters, `^`, `$`, `.` and the repetition `*` of one of
these; it rejects every other pattern. It serves to evaluate the loader on
examples. -/

/-- The characters that `regexp.QuoteMeta` escapes. -/
def regexpSpecial (c : Char) : Bool := "\\.+*?()|[]\x7b\x7d^$".toList.contains c

/-- The loop of `regexp.QuoteMeta`: a backslash in front of every special character. -/
def quoteMetaChars : List Char → List Char
  | [] => []
  | c :: cs => if regexpSpecial c then '\\' :: c :: quoteMetaChars cs else c :: quoteMetaChars cs

/-- A piece of a pattern. -/
inductive RegexpToken where
  | atom (re : Regexp)
  | star
  | unsupported
  deriving DecidableEq, Repr

/-- The pieces of a pattern; `escaped` tells that the character before was a backslash. -/
def tokenizeFrom (escaped : Bool) : List Char → List RegexpToken
  | [] => if escaped then [RegexpToken.unsupported] else []
  | c :: rest =>
    if escaped then
      (if regexpSpecial c then RegexpToken.atom (.lit c) else RegexpToken.unsupported)
        :: tokenizeFrom false rest
    else if c = '\\' then tokenizeFrom true rest
    else if c = '^' then RegexpToken.atom .beginText :: tokenizeFrom false rest
    else if c = '$' then RegexpToken.atom .endText :: tokenizeFrom false rest
    else if c = '.' then RegexpToken.atom .anyNotNL :: tokenizeFrom false rest
    else if c = '*' then RegexpToken.star :: tokenizeFrom false rest
    else if regexpSpecial c then RegexpToken.unsupported :: tokenizeFrom false rest
    else RegexpToken.atom (.lit c) :: tokenizeFrom false rest

/-- The pieces of a pattern. -/
def tokenize (cs : List Char) : List RegexpToken := tokenizeFrom false cs

/-- One step of the parse, from the right: the expression of the pieces read
so far, and whether the last piece read is a `*` that waits for its operand. -/
def parseStep (t : RegexpToken) (st : Option (Regexp × Bool)) : Option (Regexp × Bool) :=
  match st with
  | none => none
  | some (re, pending) =>
    match t with
    | RegexpToken.unsupported => none
    | RegexpToken.star => if pending then none else some (re, true)
    | RegexpToken.atom a => some (if pending then Regexp.cat (.star a) re else Regexp.cat a re, false)

/-- The expression of a sequence of pieces. -/
def parseTokens (ts : List RegexpToken) : Option Regexp :=
  match ts.foldr parseStep (some (.emptyMatch, false)) with
  | some (re, false) => some re
  | _ => none

/-- The instance of the package. -/
def exampleRegexpPackage : RegexpPackage :=
  { Compile := fun s => parseTokens (tokenize s.toList)
    QuoteMeta := fun s => String.mk (quoteMetaChars s.toList) }

/-- The expression that matches the characters of `w`, one after the other, and then `k`. -/
def Regexp.literalThen (k : Regexp) : List Char → Regexp
  | [] => k
  | c :: cs => .cat (.lit c) (Regexp.literalThen k cs)


/-- What the package `regexp` promises for a quoted text between `^` and `$`:
the pattern compiles, to an expression that matches exactly the text. -/
def RegexpPackage.QuotedIsExact (lib : RegexpPackage) : Prop :=
  ∀ s : String, ∃ re, lib.Compile ("^" ++ lib.QuoteMeta s ++ "$") = some re ∧
    ∀ n : String, re.MatchString n = true ↔ n = s


/-- Policy: every branch, the two most recent ones, sub-policy `Last = 1`. -/
def examplePolicyLastTwo : MetaCleanupKeepPolicy :=
  { References :=
      { TagRegexp := none, BranchRegexp := some regexpDotStar
        Limit := some { Last := some 2, In := none, Operator := none } }
    ImagesPerReference :=
      { MetaCleanupKeepPolicyLimit := { Last := some 1, In := none, Operator := none } } }


/-- Policy: the branch `feature-x`, no limit, sub-policy `Last = 1`. -/
def examplePolicyFeatureX : MetaCleanupKeepPolicy :=
  { References :=
      { TagRegexp := none, BranchRegexp := some (exampleExactRegexp "feature-x"), Limit := none }
    ImagesPerReference :=
      { MetaCleanupKeepPolicyLimit := { Last := some 1, In := none, Operator := none } } }

/-- The variables of the loop over the policies before its first round, for
the records of the example repository. -/
def exampleLoopStart : PolicyLoopState :=
  { heap := allocate (classifiedReferences exampleRepository)
    resultTagsRefs := []
    resultBranchesRefs := [] }


/-- A limit section `last: -2` as the decoder fills it. -/
def exampleNegativeLast : rawMetaCleanupKeepPolicyReferencesLimit :=
  { Last := some (-2), CreatedIn := none, Operator := none }

/-- Policy: every branch, with the limit loaded from `last: -2`. -/
def examplePolicyNegativeLast : MetaCleanupKeepPolicy :=
  { References :=
      { TagRegexp := none, BranchRegexp := some regexpDotStar
        Limit := some exampleNegativeLast.toMetaCleanupKeepPolicyLimit }
    ImagesPerReference := MetaCleanupKeepPolicyImagesPerReference.zero }


/-- Policy A with the sub-policy of policy B. -/
def examplePolicyAOther : MetaCleanupKeepPolicy :=
  { examplePolicyA with ImagesPerReference := examplePolicyB.ImagesPerReference }


/-! ## Splitting a configuration into documents (`pkg/config/parser.go`)

A byte is a number; `splitContent` compares the bytes of the content with the
six characters `-` (45), line feed (10), space (32), carriage return (13),
tab (9) and `#` (35). Indices are integers, as in the source. -/

/-- A byte of the content. -/
abbrev Byte := Nat

/-- The states of the scanner of `splitContent`. -/
inductive SplitState where
  | stateLineBegin
  | stateRegularLine
  | stateDocDash1
  | stateDocDash2
  | stateDocDash3
  | stateDocSpaces
  | stateDocComment
  deriving DecidableEq, Repr

/-- The slice expression `content[lo:hi]`; `none` is the panic for bounds out
of range. (Go allows `hi` up to the capacity of the slice; the model asks for
`hi ≤ len(content)`, which is at least as strict.) -/
def sliceBytes (content : List Byte) (lo hi : Int) : Option (List Byte) :=
  if 0 ≤ lo ∧ lo ≤ hi ∧ hi ≤ (content.length : Int) then
    some ((content.drop lo.toNat).take (hi - lo).toNat)
  else none

/-- The variables of `splitContent` that the loop updates. -/
structure SplitVars where
  state : SplitState
  docStartIndex : Int
  separatorLength : Int
  docsContents : List (List Byte)
  deriving DecidableEq, Repr

/-- The assignment of `docContent` when a document is cut at the bound `hi`. -/
def cutDocument (content : List Byte) (docStartIndex hi : Int) : Option (List Byte) :=
  if docStartIndex = hi then some [] else sliceBytes content docStartIndex hi

/-- The body of the loop `for index, ch = range content` of `splitContent`. -/
def splitContentStep (content : List Byte) (index : Int) (ch : Byte) (v : SplitVars) :
    Option SplitVars :=
  if ch = 45 then
    match v.state with
    | .stateLineBegin => some { v with separatorLength := 1, state := .stateDocDash1 }
    | .stateDocDash1 =>
      some { v with separatorLength := v.separatorLength + 1, state := .stateDocDash2 }
    | .stateDocDash2 =>
      some { v with separatorLength := v.separatorLength + 1, state := .stateDocDash3 }
    | _ => some { v with state := .stateRegularLine }
  else if ch = 10 then
    match v.state with
    | .stateDocDash3 | .stateDocSpaces | .stateDocComment =>
      match cutDocument content v.docStartIndex (index - v.separatorLength) with
      | none => none
      | some docContent =>
        some { state := .stateLineBegin
               docStartIndex := index + 1
               separatorLength := 0
               docsContents := v.docsContents ++ [docContent] }
    | _ => some { v with separatorLength := 0, state := .stateLineBegin }
  else if ch = 32 ∨ ch = 13 ∨ ch = 9 then
    match v.state with
    | .stateDocDash3 | .stateDocSpaces =>
      some { v with separatorLength := v.separatorLength + 1, state := .stateDocSpaces }
    | .stateDocComment => some { v with separatorLength := v.separatorLength + 1 }
    | _ => some { v with state := .stateRegularLine }
  else if ch = 35 then
    match v.state with
    | .stateDocDash3 | .stateDocSpaces | .stateDocComment =>
      some { v with separatorLength := v.separatorLength + 1, state := .stateDocComment }
    | _ => some { v with state := .stateRegularLine }
  else
    match v.state with
    | .stateDocComment => some { v with separatorLength := v.separatorLength + 1 }
    | _ => some { v with state := .stateRegularLine }

/-- The loop of `splitContent` over the bytes that are left, the next of which has the given index. -/
def splitContentLoop (content : List Byte) : List Byte → Int → SplitVars → Option SplitVars
  | [], _, v => some v
  | ch :: rest, index, v =>
    match splitContentStep content index ch v with
    | none => none
    | some v1 => splitContentLoop content rest (index + 1) v1

/-- The values of the variables of `splitContent` before the loop. -/
def SplitVars.initial : SplitVars :=
  { state := .stateLineBegin, docStartIndex := 0, separatorLength := 0, docsContents := [] }

/-- Function `splitContent`; `none` is a panic of a slice expression. After
the loop `index` is the index of the last byte, and 0 for an empty content. -/
def splitContent (content : List Byte) : Option (List (List Byte)) :=
  match splitContentLoop content content 0 SplitVars.initial with
  | none => none
  | some v =>
    let index : Int := if content.isEmpty then 0 else (content.length : Int) - 1
    if v.docStartIndex ≠ index + 1 then
      let docContent : Option (List Byte) :=
        match v.state with
        | .stateDocDash3 | .stateDocSpaces | .stateDocComment =>
          let separatorLengthWithoutCursor := v.separatorLength - 1
          cutDocument content v.docStartIndex (index - separatorLengthWithoutCursor)
        | _ => sliceBytes content v.docStartIndex content.length
      match docContent with
      | none => none
      | some docContent => some (v.docsContents ++ [docContent])
    else some v.docsContents

/-- The bytes of a text of ASCII characters. -/
def asciiBytes (s : String) : List Byte := s.toList.map Char.toNat


/-- What holds of the variables of `splitContent` when the bytes before the
given index are read: the start of the document is in the bytes read, in the
states of a separator line the separator length counts bytes that are read and
that follow the start of the document, and the documents cut so far are pieces
of the content. -/
def SplitVars.InRange (content : List Byte) (index : Int) (v : SplitVars) : Prop :=
  0 ≤ v.docStartIndex ∧ v.docStartIndex ≤ index ∧
    ((v.state = .stateDocDash1 ∨ v.state = .stateDocDash2 ∨ v.state = .stateDocDash3 ∨
        v.state = .stateDocSpaces ∨ v.state = .stateDocComment) →
      0 ≤ v.separatorLength ∧ v.docStartIndex ≤ index - v.separatorLength) ∧
    ∀ d ∈ v.docsContents, d <:+: content


/-- Two branches whose head commits have the same commit time 10. -/
def exampleHeapSameTime : Heap :=
  allocate [exampleBranch "origin/master" 10, exampleBranch "origin/staging" 10]

/-! ## The loops as list operations -/

theorem foldl_append_if {α : Type} (p : α → Bool) (l init : List α) :
    l.foldl (fun result x => if p x = true then result ++ [x] else result) init
      = init ++ l.filter p := by
  induction l generalizing init with
  | nil => simp
  | cons x xs ih =>
    simp only [List.foldl_cons, List.filter_cons]
    by_cases hx : p x = true <;> simp [hx, ih]

theorem foldl_append_unless {α : Type} (p : α → Bool) (l init : List α) :
    l.foldl (fun result x => if p x = true then result else result ++ [x]) init
      = init ++ l.filter (fun x => !p x) := by
  induction l generalizing init with
  | nil => simp
  | cons x xs ih =>
    simp only [List.foldl_cons, List.filter_cons]
    by_cases hx : p x = true <;> simp [hx, ih]

theorem any_beq_iff_mem (refs2 : List Ptr) (ref1 : Ptr) :
    (refs2.any (fun ref2 => ref1 == ref2)) = true ↔ ref1 ∈ refs2 := by
  simp [List.any_eq_true]

theorem any_beq_eq_decide (refs2 : List Ptr) (ref1 : Ptr) :
    (refs2.any (fun ref2 => ref1 == ref2)) = decide (ref1 ∈ refs2) := by
  rw [Bool.eq_iff_iff, any_beq_iff_mem]
  simp

theorem foldl_counter_append_if {α : Type} (p : Nat → α → Bool) (l : List α) (k : Nat)
    (init : List α) :
    l.foldl (fun (st : Nat × List α) x => (st.1 + 1, if p st.1 x then st.2 ++ [x] else st.2))
        (k, init)
      = (k + l.length,
          init ++ ((l.enumFrom k).filter (fun q => p q.1 q.2)).map Prod.snd) := by
  induction l generalizing k init with
  | nil => simp
  | cons x xs ih =>
    simp only [List.foldl_cons, List.enumFrom_cons, List.length_cons]
    rw [ih]
    by_cases hp : p k x = true
    · simp [hp, List.filter_cons, Nat.add_comm, Nat.add_left_comm]
    · simp [hp, List.filter_cons, Nat.add_comm, Nat.add_left_comm]

theorem filterReferencesByInClock_eq_filter (clock : Nat → Time) (h : Heap) (refs : List Ptr)
    (d : Duration) :
    filterReferencesByInClock clock h refs d
      = ((refs.enumFrom 0).filter
          (fun q => (h q.2).CreatedAt.After ((clock q.1).Add d.neg))).map Prod.snd := by
  unfold filterReferencesByInClock
  rw [foldl_counter_append_if (fun k ref => (h ref).CreatedAt.After ((clock k).Add d.neg))]
  simp

theorem enumFrom_filter_snd {α : Type} (p : α → Bool) (l : List α) (k : Nat) :
    ((l.enumFrom k).filter (fun q => p q.2)).map Prod.snd = l.filter p := by
  induction l generalizing k with
  | nil => simp
  | cons x xs ih =>
    simp only [List.enumFrom_cons, List.filter_cons]
    by_cases hp : p x = true
    · simp [hp, ih]
    · simp [hp, ih]

theorem filterReferencesByIn_eq_filter (now : Time) (h : Heap) (refs : List Ptr) (d : Duration) :
    filterReferencesByIn now h refs d
      = refs.filter (fun ref => (h ref).CreatedAt.After (now.Add d.neg)) := by
  unfold filterReferencesByIn
  rw [filterReferencesByInClock_eq_filter]
  exact enumFrom_filter_snd (fun ref => (h ref).CreatedAt.After (now.Add d.neg)) refs 0

theorem referencesAnd_eq_filter (refs1 refs2 : List Ptr) :
    referencesAnd refs1 refs2 = refs1.filter (fun ref1 => decide (ref1 ∈ refs2)) := by
  unfold referencesAnd
  rw [foldl_append_if (fun ref1 => refs2.any (fun ref2 => ref1 == ref2))]
  simp only [List.nil_append]
  apply List.filter_congr
  intro x _
  exact any_beq_eq_decide refs2 x

theorem mergeReferences_eq_append (refs1 refs2 : List Ptr) :
    mergeReferences refs1 refs2 = refs2 ++ refs1.filter (fun ref1 => decide (ref1 ∉ refs2)) := by
  unfold mergeReferences
  rw [foldl_append_unless (fun ref1 => refs2.any (fun ref2 => ref1 == ref2))]
  congr 1
  apply List.filter_congr
  intro x _
  rw [any_beq_eq_decide]
  simp

theorem mem_referencesAnd (refs1 refs2 : List Ptr) (r : Ptr) :
    r ∈ referencesAnd refs1 refs2 ↔ r ∈ refs1 ∧ r ∈ refs2 := by
  simp [referencesAnd_eq_filter]

theorem mem_mergeReferences (refs1 refs2 : List Ptr) (r : Ptr) :
    r ∈ mergeReferences refs1 refs2 ↔ r ∈ refs1 ∨ r ∈ refs2 := by
  rw [mergeReferences_eq_append]
  simp only [List.mem_append, List.mem_filter, decide_eq_true_eq]
  by_cases hr : r ∈ refs2 <;> simp [hr]

theorem nodup_mergeReferences (refs1 refs2 : List Ptr) (h1 : refs1.Nodup) (h2 : refs2.Nodup) :
    (mergeReferences refs1 refs2).Nodup := by
  rw [mergeReferences_eq_append]
  refine List.Nodup.append h2 (h1.filter _) ?_
  intro x hx2 hx1
  simp only [List.mem_filter, decide_eq_true_eq] at hx1
  exact hx1.2 hx2

theorem selectTagReferencesByRegexp_eq_filter (h : Heap) (tagsRefs : List Ptr) (re : Regexp) :
    selectTagReferencesByRegexp h tagsRefs re
      = tagsRefs.filter (fun tagRef => re.MatchString (h tagRef).Reference.Short) := by
  unfold selectTagReferencesByRegexp
  rw [foldl_append_if]
  simp

/-! ## Sorting -/

theorem createdAtAfter_eq_false_iff (h : Heap) (a b : Ptr) :
    createdAtAfter h b a = false ↔ (h b).CreatedAt ≤ (h a).CreatedAt := by
  simp [createdAtAfter, Time.After]

theorem createdAtAfter_eq_true_iff (h : Heap) (a b : Ptr) :
    createdAtAfter h a b = true ↔ (h b).CreatedAt < (h a).CreatedAt := by
  simp [createdAtAfter, Time.After]

theorem insertSorted_perm (less : Ptr → Ptr → Bool) (x : Ptr) (l : List Ptr) :
    (insertSorted less x l).Perm (x :: l) := by
  induction l with
  | nil => simp [insertSorted]
  | cons y ys ih =>
    simp only [insertSorted]
    split
    · exact (List.Perm.cons y ih).trans (List.Perm.swap x y ys)
    · exact List.Perm.refl _

theorem insertionSortSlice_perm (less : Ptr → Ptr → Bool) (l : List Ptr) :
    (insertionSortSlice less l).Perm l := by
  induction l with
  | nil => simp [insertionSortSlice]
  | cons x xs ih =>
    simp only [insertionSortSlice]
    exact (insertSorted_perm less x _).trans (List.Perm.cons x ih)

theorem insertSorted_pairwise (h : Heap) (x : Ptr) (l : List Ptr)
    (hl : l.Pairwise (fun a b => createdAtAfter h b a = false)) :
    (insertSorted (createdAtAfter h) x l).Pairwise (fun a b => createdAtAfter h b a = false) := by
  induction l with
  | nil => simp [insertSorted]
  | cons y ys ih =>
    rw [List.pairwise_cons] at hl
    simp only [insertSorted]
    split
    · rename_i hyx
      rw [List.pairwise_cons]
      refine ⟨?_, ih hl.2⟩
      intro z hz
      rcases List.mem_cons.1 ((List.Perm.mem_iff (insertSorted_perm (createdAtAfter h) x ys)).1 hz)
        with hzx | hzys
      · rw [createdAtAfter_eq_true_iff] at hyx
        rw [hzx, createdAtAfter_eq_false_iff]
        exact le_of_lt hyx
      · exact hl.1 z hzys
    · rename_i hyx
      rw [List.pairwise_cons]
      refine ⟨?_, List.pairwise_cons.2 hl⟩
      have hyx' : (h y).CreatedAt ≤ (h x).CreatedAt := by
        rw [← createdAtAfter_eq_false_iff]
        simpa using hyx
      intro z hz
      rw [createdAtAfter_eq_false_iff]
      rcases List.mem_cons.1 hz with hz | hz
      · rw [hz]; exact hyx'
      · exact le_trans ((createdAtAfter_eq_false_iff h y z).1 (hl.1 z hz)) hyx'

theorem insertionSortSlice_spec : SortSliceSpec insertionSortSlice := by
  intro h refs
  refine ⟨insertionSortSlice_perm _ refs, ?_⟩
  induction refs with
  | nil => simp [insertionSortSlice]
  | cons x xs ih =>
    simp only [insertionSortSlice]
    exact insertSorted_pairwise h x _ ih

/-! ## Limits -/

theorem duration_neg_eq (d : Duration) (hlo : minInt64 < d) (hhi : d ≤ maxInt64) :
    Duration.neg d = -d := by
  have hlo' : (-9223372036854775808 : Int) < d := hlo
  have hhi' : @LE.le Int _ d 9223372036854775807 := hhi
  show @Eq Int ((-d + 9223372036854775808) % 18446744073709551616 - 9223372036854775808) (-d)
  omega

theorem filterReferencesByIn_strictly_after (now : Time) (h : Heap) (refs : List Ptr) (d : Duration)
    (hlo : minInt64 < d) (hhi : d ≤ maxInt64) :
    filterReferencesByIn now h refs d = refs.filter (fun ref => decide (now - d < (h ref).CreatedAt)) := by
  rw [filterReferencesByIn_eq_filter, duration_neg_eq d hlo hhi]
  apply List.filter_congr
  intro x _
  simp [Time.After, Time.Add, sub_eq_add_neg]

theorem filterReferencesByLast_of_nonneg (sortSlice : (Ptr → Ptr → Bool) → List Ptr → List Ptr)
    (h : Heap) (refs : List Ptr) (n : Int) (hn : 0 ≤ n) :
    filterReferencesByLast sortSlice h refs n
      = some ((sortSlice (createdAtAfter h) refs).take n.toNat) := by
  unfold filterReferencesByLast
  have h1 : ¬ n = -1 := by omega
  have h2 : ¬ n < 0 := by omega
  simp only [h1, h2, if_false]
  split
  · rename_i hlen
    rw [List.take_of_length_le]
    omega
  · rfl

theorem filterReferencesByLast_sublist_perm (sortSlice : (Ptr → Ptr → Bool) → List Ptr → List Ptr)
    (hs : SortSliceSpec sortSlice) (h : Heap) (refs : List Ptr) (n : Int) (res : List Ptr)
    (hres : filterReferencesByLast sortSlice h refs n = some res) :
    res.Subperm refs := by
  unfold filterReferencesByLast at hres
  split at hres
  · cases hres; exact List.Subperm.refl _
  · simp only at hres
    split at hres
    · cases hres; exact (hs h refs).1.subperm
    · split at hres
      · cases hres
      · cases hres
        exact (List.take_sublist _ _).subperm.trans (hs h refs).1.subperm

theorem filterReferencesByLast_isSome_iff (sortSlice : (Ptr → Ptr → Bool) → List Ptr → List Ptr)
    (h : Heap) (refs : List Ptr) (n : Int) :
    (filterReferencesByLast sortSlice h refs n).isSome = true ↔ -1 ≤ n := by
  unfold filterReferencesByLast
  by_cases h1 : n = -1
  · simp [h1]
  · simp only [h1, if_false]
    by_cases h2 : ((sortSlice (createdAtAfter h) refs).length : Int) < n
    · simp only [h2, if_true, Option.isSome_some, true_iff]
      omega
    · simp only [h2, if_false]
      by_cases h3 : n < 0
      · simp only [h3, if_true, Option.isSome_none, Bool.false_eq_true, false_iff]
        omega
      · simp only [h3, if_false, Option.isSome_some, true_iff]
        omega

/-- C1 (the claim fails on the code): for every reference list and every limit
that is not nil and sets neither `Last` nor `In`, with any operator or none,
`applyReferencesLimit` returns the empty list and not the input references;
the loader builds such a limit from a `limit` section without bounds. -/
theorem applyReferencesLimit_without_bounds_returns_nothing
    (sortSlice : (Ptr → Ptr → Bool) → List Ptr → List Ptr) (now : Time) (h : Heap)
    (refs : List Ptr) (op : Option Operator) (rawOp : Option String) :
    applyReferencesLimit sortSlice now h refs (some { Last := none, In := none, Operator := op })
        = some [] ∧
      applyReferencesLimit sortSlice now h refs
        (some (rawMetaCleanupKeepPolicyReferencesLimit.toMetaCleanupKeepPolicyLimit
          { Last := none, CreatedIn := none, Operator := rawOp })) = some [] := by
  constructor <;>
    simp [applyReferencesLimit, rawMetaCleanupKeepPolicyReferencesLimit.toMetaCleanupKeepPolicyLimit]

/-- C2: for every reference list with pairwise distinct `CreatedAt` and every
limit with only `Last = n` set, `n ≥ 0`, `applyReferencesLimit` returns
`min n length` references of the input, ordered by strictly descending
`CreatedAt`, and every input reference that is left out is older than every
returned one. -/
theorem applyReferencesLimit_last_keeps_most_recent
    (sortSlice : (Ptr → Ptr → Bool) → List Ptr → List Ptr) (hs : SortSliceSpec sortSlice)
    (now : Time) (h : Heap) (refs : List Ptr) (n : Int) (op : Option Operator)
    (hdistinct : refs.Pairwise (fun a b => (h a).CreatedAt ≠ (h b).CreatedAt)) (hn : 0 ≤ n) :
    ∃ res, applyReferencesLimit sortSlice now h refs (some { Last := some n, In := none, Operator := op })
        = some res ∧
      res.length = min n.toNat refs.length ∧
      res.Pairwise (fun a b => (h b).CreatedAt < (h a).CreatedAt) ∧
      (∀ r ∈ res, r ∈ refs) ∧
      (∀ r ∈ refs, r ∉ res → ∀ q ∈ res, (h r).CreatedAt < (h q).CreatedAt) := by
  obtain ⟨hperm, hsorted⟩ := hs h refs
  have hdist : (sortSlice (createdAtAfter h) refs).Pairwise
      (fun a b => (h a).CreatedAt ≠ (h b).CreatedAt) :=
    (List.Perm.pairwise_iff (fun hab => Ne.symm hab) hperm).2 hdistinct
  have hstrict : (sortSlice (createdAtAfter h) refs).Pairwise
      (fun a b => (h b).CreatedAt < (h a).CreatedAt) := by
    refine (hsorted.and hdist).imp ?_
    intro a b hab
    exact lt_of_le_of_ne ((createdAtAfter_eq_false_iff h a b).1 hab.1) (Ne.symm hab.2)
  refine ⟨(sortSlice (createdAtAfter h) refs).take n.toNat, ?_, ?_, ?_, ?_, ?_⟩
  · simp [applyReferencesLimit, filterReferencesByLast_of_nonneg sortSlice h refs n hn]
  · rw [List.length_take, hperm.length_eq]
  · exact hstrict.sublist (List.take_sublist _ _)
  · intro r hr
    exact hperm.mem_iff.1 (List.mem_of_mem_take hr)
  · intro r hr hnot q hq
    have hsplit := List.take_append_drop n.toNat (sortSlice (createdAtAfter h) refs)
    have hr' : r ∈ (sortSlice (createdAtAfter h) refs).take n.toNat
        ++ (sortSlice (createdAtAfter h) refs).drop n.toNat := by
      rw [hsplit]; exact hperm.mem_iff.2 hr
    have hdrop : r ∈ (sortSlice (createdAtAfter h) refs).drop n.toNat := by
      rcases List.mem_append.1 hr' with h1 | h1
      · exact absurd h1 hnot
      · exact h1
    rw [← hsplit] at hstrict
    exact (List.pairwise_append.1 hstrict).2.2 q hq r hdrop

/-- Witness of C2: fifteen branches and `Last = 10`. -/
theorem applyReferencesLimit_last_keeps_most_recent_witness :
    applyReferencesLimit insertionSortSlice 0 exampleHeap15 (List.range 15)
        (some { Last := some 10, In := none, Operator := none }) = some (List.range 10) ∧
      ∃ res, applyReferencesLimit insertionSortSlice 0 exampleHeap15 (List.range 15)
          (some { Last := some 10, In := none, Operator := none }) = some res ∧
        res.length = min (10 : Int).toNat (List.range 15).length ∧
        res.Pairwise (fun a b => (exampleHeap15 b).CreatedAt < (exampleHeap15 a).CreatedAt) ∧
        (∀ r ∈ res, r ∈ List.range 15) ∧
        (∀ r ∈ List.range 15, r ∉ res → ∀ q ∈ res,
          (exampleHeap15 r).CreatedAt < (exampleHeap15 q).CreatedAt) :=
  ⟨by decide,
    applyReferencesLimit_last_keeps_most_recent insertionSortSlice insertionSortSlice_spec 0
      exampleHeap15 (List.range 15) 10 none (by decide) (by decide)⟩

/-- C3: for every reference list and every limit with both `Last` and `In` set
whose operator is AND or unspecified, `applyReferencesLimit` returns, whenever
the count-truncated result `byCount` exists, a list that contains exactly the
references present both in the time-filtered result and in `byCount`; an
unspecified operator gives the same result as AND; and the intersection of
`{R1,R2,R3}` with `{R3,R4,R5}` is `{R3}`. -/
theorem applyReferencesLimit_and_is_intersection
    (sortSlice : (Ptr → Ptr → Bool) → List Ptr → List Ptr) (now : Time) (h : Heap)
    (refs : List Ptr) (n : Int) (d : Duration) (op : Option Operator) (byCount : List Ptr)
    (hop : op = none ∨ op = some Operator.And)
    (hcount : filterReferencesByLast sortSlice h refs n = some byCount) :
    (∃ res, applyReferencesLimit sortSlice now h refs
          (some { Last := some n, In := some d, Operator := op }) = some res ∧
        ∀ r, r ∈ res ↔ r ∈ filterReferencesByIn now h refs d ∧ r ∈ byCount) ∧
      applyReferencesLimit sortSlice now h refs (some { Last := some n, In := some d, Operator := none })
        = applyReferencesLimit sortSlice now h refs
            (some { Last := some n, In := some d, Operator := some Operator.And }) ∧
      referencesAnd [1, 2, 3] [3, 4, 5] = [3] := by
  refine ⟨⟨referencesAnd (filterReferencesByIn now h refs d) byCount, ?_, ?_⟩, ?_, by decide⟩
  · rcases hop with hop | hop <;> simp [applyReferencesLimit, hcount, hop]
  · intro r
    exact mem_referencesAnd _ _ r
  · simp [applyReferencesLimit]

/-- Witness of C3: five branches created 10, 20, 30, 40 and 50 before the
instant 60, the window 35 and `Last = 2`. -/
theorem applyReferencesLimit_and_is_intersection_witness :
    (∃ res, applyReferencesLimit insertionSortSlice 60 exampleHeap5 [0, 1, 2, 3, 4]
          (some { Last := some 2, In := some 35, Operator := none }) = some res ∧
        ∀ r, r ∈ res ↔ r ∈ filterReferencesByIn 60 exampleHeap5 [0, 1, 2, 3, 4] 35 ∧ r ∈ [0, 1]) ∧
      applyReferencesLimit insertionSortSlice 60 exampleHeap5 [0, 1, 2, 3, 4]
          (some { Last := some 2, In := some 35, Operator := none })
        = applyReferencesLimit insertionSortSlice 60 exampleHeap5 [0, 1, 2, 3, 4]
            (some { Last := some 2, In := some 35, Operator := some Operator.And }) ∧
      referencesAnd [1, 2, 3] [3, 4, 5] = [3] :=
  applyReferencesLimit_and_is_intersection insertionSortSlice 60 exampleHeap5 [0, 1, 2, 3, 4] 2 35
    none [0, 1] (Or.inl rfl) (by decide)

/-- C4: for every duplicate-free reference list and every limit with both
`Last` and `In` set and operator OR, `applyReferencesLimit` returns, whenever
the count-truncated result `byCount` exists, a list that contains a reference
if and only if it is in the time-filtered result or in `byCount`, and contains
each such reference exactly once; and the union of `{R1,R2,R3}` with
`{R3,R4,R5}` has the five references, each once. -/
theorem applyReferencesLimit_or_is_union
    (sortSlice : (Ptr → Ptr → Bool) → List Ptr → List Ptr) (hs : SortSliceSpec sortSlice)
    (now : Time) (h : Heap) (refs : List Ptr) (n : Int) (d : Duration) (byCount : List Ptr)
    (hnodup : refs.Nodup)
    (hcount : filterReferencesByLast sortSlice h refs n = some byCount) :
    (∃ res, applyReferencesLimit sortSlice now h refs
          (some { Last := some n, In := some d, Operator := some Operator.Or }) = some res ∧
        (∀ r, r ∈ res ↔ r ∈ filterReferencesByIn now h refs d ∨ r ∈ byCount) ∧
        (∀ r, r ∈ filterReferencesByIn now h refs d ∨ r ∈ byCount → res.count r = 1)) ∧
      referencesOr [1, 2, 3] [3, 4, 5] = [3, 4, 5, 1, 2] := by
  have hcountNodup : byCount.Nodup := by
    obtain ⟨l, hperm, hsub⟩ := filterReferencesByLast_sublist_perm sortSlice hs h refs n byCount hcount
    exact hperm.nodup_iff.1 (hnodup.sublist hsub)
  have htimeNodup : (filterReferencesByIn now h refs d).Nodup := by
    rw [filterReferencesByIn_eq_filter]
    exact hnodup.filter _
  refine ⟨⟨referencesOr (filterReferencesByIn now h refs d) byCount, ?_, ?_, ?_⟩, by decide⟩
  · simp [applyReferencesLimit, hcount]
  · intro r
    exact mem_mergeReferences _ _ r
  · intro r hr
    exact List.count_eq_one_of_mem (nodup_mergeReferences _ _ htimeNodup hcountNodup)
      ((mem_mergeReferences _ _ r).2 hr)

/-- Witness of C4: five branches created 10, 20, 30, 40 and 50 before the
instant 60, the window 25 and `Last = 3`. -/
theorem applyReferencesLimit_or_is_union_witness :
    (∃ res, applyReferencesLimit insertionSortSlice 60 exampleHeap5 [0, 1, 2, 3, 4]
          (some { Last := some 3, In := some 25, Operator := some Operator.Or }) = some res ∧
        (∀ r, r ∈ res ↔ r ∈ filterReferencesByIn 60 exampleHeap5 [0, 1, 2, 3, 4] 25 ∨ r ∈ [0, 1, 2]) ∧
        (∀ r, r ∈ filterReferencesByIn 60 exampleHeap5 [0, 1, 2, 3, 4] 25 ∨ r ∈ [0, 1, 2] →
          res.count r = 1)) ∧
      referencesOr [1, 2, 3] [3, 4, 5] = [3, 4, 5, 1, 2] :=
  applyReferencesLimit_or_is_union insertionSortSlice insertionSortSlice_spec 60 exampleHeap5
    [0, 1, 2, 3, 4] 3 25 [0, 1, 2] (by decide) (by decide)

/-- With the smallest `int64` as duration the negation `-in` wraps, and
`filterReferencesByIn` keeps a reference created one nanosecond ago although
its `CreatedAt` is not after `now - In`. -/
theorem filterReferencesByIn_smallest_duration_keeps_reference :
    filterReferencesByIn 0 exampleHeap1 [0] minInt64 = [0] ∧
      ¬ ((0 : Time) - minInt64 < (exampleHeap1 0).CreatedAt) := by
  decide

/-! ## The heap: what the assignments change -/

theorem sameReferences_refl (h : Heap) : sameReferences h h := fun _ => ⟨rfl, rfl, rfl, rfl⟩

theorem sameReferences_trans {h1 h2 h3 : Heap} (h12 : sameReferences h1 h2)
    (h23 : sameReferences h2 h3) : sameReferences h1 h3 := fun p =>
  ⟨(h23 p).1.trans (h12 p).1, (h23 p).2.1.trans (h12 p).2.1, (h23 p).2.2.1.trans (h12 p).2.2.1,
    (h23 p).2.2.2.trans (h12 p).2.2.2⟩

theorem sameReferences_set (h : Heap) (ref : Ptr) (ipr : MetaCleanupKeepPolicyImagesPerReference) :
    sameReferences h (h.setImagesCleanupKeepPolicy ref ipr) := by
  intro p
  unfold Heap.setImagesCleanupKeepPolicy
  by_cases hp : p = ref <;> simp [hp]

theorem attachedPolicy_set (h : Heap) (ref : Ptr) (ipr : MetaCleanupKeepPolicyImagesPerReference)
    (q : Ptr) :
    attachedPolicy (h.setImagesCleanupKeepPolicy ref ipr) q
      = if q = ref then ipr else attachedPolicy h q := by
  unfold attachedPolicy Heap.setImagesCleanupKeepPolicy
  by_cases hq : q = ref <;> simp [hq]

theorem sameReferences_applyImagesPerReference (h : Heap) (refs : List Ptr)
    (ipr : MetaCleanupKeepPolicyImagesPerReference) :
    sameReferences h (applyImagesPerReference h refs ipr) := by
  unfold applyImagesPerReference
  induction refs generalizing h with
  | nil => exact sameReferences_refl h
  | cons x xs ih =>
    simp only [List.foldl_cons]
    exact sameReferences_trans (sameReferences_set h x ipr) (ih _)

theorem attachedPolicy_applyImagesPerReference (h : Heap) (refs : List Ptr)
    (ipr : MetaCleanupKeepPolicyImagesPerReference) (q : Ptr) :
    attachedPolicy (applyImagesPerReference h refs ipr) q
      = if q ∈ refs then ipr else attachedPolicy h q := by
  unfold applyImagesPerReference
  induction refs generalizing h with
  | nil => simp
  | cons x xs ih =>
    simp only [List.foldl_cons, List.mem_cons]
    rw [ih, attachedPolicy_set]
    by_cases hq : q ∈ xs
    · simp [hq]
    · by_cases hx : q = x <;> simp [hq, hx]

theorem createdAtAfter_congr {h h' : Heap} (hf : sameReferences h h') :
    createdAtAfter h' = createdAtAfter h := by
  funext a b
  simp [createdAtAfter, (hf a).2.1, (hf b).2.1]

theorem filterReferencesByIn_congr {h h' : Heap} (hf : sameReferences h h') (now : Time)
    (refs : List Ptr) (d : Duration) :
    filterReferencesByIn now h' refs d = filterReferencesByIn now h refs d := by
  rw [filterReferencesByIn_eq_filter, filterReferencesByIn_eq_filter]
  apply List.filter_congr
  intro x _
  rw [(hf x).2.1]

theorem filterReferencesByLast_congr {h h' : Heap} (hf : sameReferences h h')
    (sortSlice : (Ptr → Ptr → Bool) → List Ptr → List Ptr) (refs : List Ptr) (n : Int) :
    filterReferencesByLast sortSlice h' refs n = filterReferencesByLast sortSlice h refs n := by
  unfold filterReferencesByLast
  rw [createdAtAfter_congr hf]

theorem applyReferencesLimit_congr {h h' : Heap} (hf : sameReferences h h')
    (sortSlice : (Ptr → Ptr → Bool) → List Ptr → List Ptr) (now : Time) (refs : List Ptr)
    (limit : Option MetaCleanupKeepPolicyLimit) :
    applyReferencesLimit sortSlice now h' refs limit
      = applyReferencesLimit sortSlice now h refs limit := by
  unfold applyReferencesLimit
  cases limit with
  | none => rfl
  | some limit =>
    simp only [filterReferencesByIn_congr hf, filterReferencesByLast_congr hf]

theorem selectTagReferencesByRegexp_congr {h h' : Heap} (hf : sameReferences h h')
    (tagsRefs : List Ptr) (re : Regexp) :
    selectTagReferencesByRegexp h' tagsRefs re = selectTagReferencesByRegexp h tagsRefs re := by
  rw [selectTagReferencesByRegexp_eq_filter, selectTagReferencesByRegexp_eq_filter]
  apply List.filter_congr
  intro x _
  rw [(hf x).1]

theorem selectBranchReferencesByRegexp_congr {h h' : Heap} (hf : sameReferences h h')
    (branchesRefs : List Ptr) (re : Regexp) :
    selectBranchReferencesByRegexp h' branchesRefs re
      = selectBranchReferencesByRegexp h branchesRefs re := by
  unfold selectBranchReferencesByRegexp
  have hR : ∀ p, (h' p).Reference = (h p).Reference := fun p => (hf p).1
  simp only [hR]

/-! ## Survivors of a policy -/

theorem selectBranchReferencesByRegexp_foldlM_sublist (h : Heap) (re : Regexp)
    (branchesRefs init res : List Ptr)
    (hres : branchesRefs.foldlM
      (fun result branchRef =>
        match (stringsSplitN2 (h branchRef).Reference.Short)[1]? with
        | none => none
        | some refShortNameWithoutRemote =>
          if re.MatchString refShortNameWithoutRemote then some (result ++ [branchRef])
          else some result)
      init = some res) :
    ∃ l, res = init ++ l ∧ l.Sublist branchesRefs := by
  induction branchesRefs generalizing init with
  | nil =>
    simp only [List.foldlM_nil] at hres
    cases hres
    exact ⟨[], by simp, List.Sublist.refl _⟩
  | cons x xs ih =>
    simp only [List.foldlM_cons] at hres
    cases hname : (stringsSplitN2 (h x).Reference.Short)[1]? with
    | none => simp [hname] at hres
    | some name =>
      simp only [hname] at hres
      by_cases hm : re.MatchString name = true
      · simp only [hm, if_true] at hres
        obtain ⟨l, hl, hsub⟩ := ih (init ++ [x]) hres
        exact ⟨x :: l, by simp [hl], hsub.cons₂ x⟩
      · simp only [hm] at hres
        obtain ⟨l, hl, hsub⟩ := ih init hres
        exact ⟨l, hl, hsub.cons x⟩

theorem selectBranchReferencesByRegexp_sublist (h : Heap) (re : Regexp)
    (branchesRefs res : List Ptr)
    (hres : selectBranchReferencesByRegexp h branchesRefs re = some res) :
    res.Sublist branchesRefs := by
  obtain ⟨l, hl, hsub⟩ := selectBranchReferencesByRegexp_foldlM_sublist h re branchesRefs [] res hres
  simpa [hl] using hsub

theorem selectTagReferencesByRegexp_sublist (h : Heap) (re : Regexp) (tagsRefs : List Ptr) :
    (selectTagReferencesByRegexp h tagsRefs re).Sublist tagsRefs := by
  rw [selectTagReferencesByRegexp_eq_filter]
  exact List.filter_sublist _

theorem applyReferencesLimit_subperm (sortSlice : (Ptr → Ptr → Bool) → List Ptr → List Ptr)
    (hs : SortSliceSpec sortSlice) (now : Time) (h : Heap) (refs : List Ptr)
    (limit : Option MetaCleanupKeepPolicyLimit) (res : List Ptr)
    (hres : applyReferencesLimit sortSlice now h refs limit = some res) :
    (∀ r ∈ res, r ∈ refs) ∧ (refs.Nodup → res.Nodup) := by
  unfold applyReferencesLimit at hres
  cases limit with
  | none =>
    simp only at hres
    cases hres
    exact ⟨fun _ hr => hr, fun hn => hn⟩
  | some limit =>
    simp only at hres
    have htime : ∀ d, (∀ r ∈ filterReferencesByIn now h refs d, r ∈ refs) ∧
        (refs.Nodup → (filterReferencesByIn now h refs d).Nodup) := by
      intro d
      rw [filterReferencesByIn_eq_filter]
      exact ⟨fun r hr => (List.mem_filter.1 hr).1, fun hn => hn.filter _⟩
    have hcount : ∀ n l, filterReferencesByLast sortSlice h refs n = some l →
        (∀ r ∈ l, r ∈ refs) ∧ (refs.Nodup → l.Nodup) := by
      intro n l hl
      obtain ⟨l', hperm, hsub⟩ := filterReferencesByLast_sublist_perm sortSlice hs h refs n l hl
      exact ⟨fun r hr => hsub.subset (hperm.mem_iff.2 hr),
        fun hn => hperm.nodup_iff.1 (hn.sublist hsub)⟩
    cases hLast : limit.Last with
    | none =>
      cases hIn : limit.In with
      | none =>
        simp [hLast, hIn] at hres
        subst hres
        exact ⟨fun r hr => absurd hr (List.not_mem_nil r), fun _ => List.nodup_nil⟩
      | some d =>
        simp [hLast, hIn] at hres
        subst hres
        exact htime d
    | some n =>
      cases hl : filterReferencesByLast sortSlice h refs n with
      | none => simp [hLast, hl] at hres
      | some byCount =>
        cases hIn : limit.In with
        | none =>
          simp [hLast, hIn, hl] at hres
          subst hres
          exact hcount n byCount hl
        | some d =>
          simp only [hLast, hIn, hl, Option.isNone_some] at hres
          by_cases hop : limit.Operator = some Operator.Or
          · simp [hop] at hres
            subst hres
            refine ⟨?_, ?_⟩
            · intro r hr
              rcases (mem_mergeReferences _ _ r).1 hr with h1 | h1
              · exact (htime d).1 r h1
              · exact (hcount n byCount hl).1 r h1
            · intro hn
              exact nodup_mergeReferences _ _ ((htime d).2 hn) ((hcount n byCount hl).2 hn)
          · simp [hop] at hres
            subst hres
            refine ⟨?_, ?_⟩
            · intro r hr
              exact (htime d).1 r ((mem_referencesAnd _ _ r).1 hr).1
            · intro hn
              rw [referencesAnd_eq_filter]
              exact ((htime d).2 hn).filter _

theorem policyReferences_heap (sortSlice : (Ptr → Ptr → Bool) → List Ptr → List Ptr) (now : Time)
    (branchesRefs tagsRefs : List Ptr) (h : Heap) (policy : MetaCleanupKeepPolicy)
    (res : Heap × List Ptr)
    (hres : policyReferences sortSlice now branchesRefs tagsRefs h policy = some res) :
    res.1 = applyImagesPerReference h res.2 policy.ImagesPerReference := by
  unfold policyReferences at hres
  cases hb : policy.References.BranchRegexp with
  | some re =>
    simp only [hb] at hres
    cases hsel : selectBranchReferencesByRegexp h branchesRefs re with
    | none => simp [hsel] at hres
    | some sel =>
      simp only [hsel, applyCleanupKeepPolicy] at hres
      cases hlim : applyReferencesLimit sortSlice now h sel policy.References.Limit with
      | none => simp [hlim] at hres
      | some l =>
        simp only [hlim, Option.some.injEq] at hres
        subst hres
        rfl
  | none =>
    simp only [hb] at hres
    cases ht : policy.References.TagRegexp with
    | some re =>
      simp only [ht, applyCleanupKeepPolicy] at hres
      cases hlim : applyReferencesLimit sortSlice now h (selectTagReferencesByRegexp h tagsRefs re)
          policy.References.Limit with
      | none => simp [hlim] at hres
      | some l =>
        simp only [hlim, Option.some.injEq] at hres
        subst hres
        rfl
    | none =>
      simp only [ht, Option.some.injEq] at hres
      subst hres
      rfl

theorem policyReferences_pool (sortSlice : (Ptr → Ptr → Bool) → List Ptr → List Ptr)
    (hs : SortSliceSpec sortSlice) (now : Time)
    (branchesRefs tagsRefs : List Ptr) (h : Heap) (policy : MetaCleanupKeepPolicy)
    (res : Heap × List Ptr)
    (hres : policyReferences sortSlice now branchesRefs tagsRefs h policy = some res) :
    (policy.References.BranchRegexp.isSome = true →
        (∀ r ∈ res.2, r ∈ branchesRefs) ∧ (branchesRefs.Nodup → res.2.Nodup)) ∧
      (policy.References.BranchRegexp = none → policy.References.TagRegexp.isSome = true →
        (∀ r ∈ res.2, r ∈ tagsRefs) ∧ (tagsRefs.Nodup → res.2.Nodup)) ∧
      (policy.References.BranchRegexp = none → policy.References.TagRegexp = none → res.2 = []) := by
  unfold policyReferences at hres
  cases hb : policy.References.BranchRegexp with
  | some re =>
    simp only [hb] at hres
    cases hsel : selectBranchReferencesByRegexp h branchesRefs re with
    | none => simp [hsel] at hres
    | some sel =>
      simp only [hsel, applyCleanupKeepPolicy] at hres
      cases hlim : applyReferencesLimit sortSlice now h sel policy.References.Limit with
      | none => simp [hlim] at hres
      | some l =>
        simp only [hlim, Option.some.injEq] at hres
        subst hres
        have hsub := selectBranchReferencesByRegexp_sublist h re branchesRefs sel hsel
        have hl := applyReferencesLimit_subperm sortSlice hs now h sel _ l hlim
        refine ⟨fun _ => ⟨fun r hr => hsub.subset (hl.1 r hr), fun hn => hl.2 (hn.sublist hsub)⟩,
          fun hcontra => by simp at hcontra, fun hcontra => by simp at hcontra⟩
  | none =>
    simp only [hb] at hres
    cases ht : policy.References.TagRegexp with
    | some re =>
      simp only [ht, applyCleanupKeepPolicy] at hres
      cases hlim : applyReferencesLimit sortSlice now h (selectTagReferencesByRegexp h tagsRefs re)
          policy.References.Limit with
      | none => simp [hlim] at hres
      | some l =>
        simp only [hlim, Option.some.injEq] at hres
        subst hres
        have hsub := selectTagReferencesByRegexp_sublist h re tagsRefs
        have hl := applyReferencesLimit_subperm sortSlice hs now h _ _ l hlim
        refine ⟨fun hcontra => by simp at hcontra,
          fun _ _ => ⟨fun r hr => hsub.subset (hl.1 r hr), fun hn => hl.2 (hn.sublist hsub)⟩,
          fun _ hcontra => by simp at hcontra⟩
    | none =>
      simp only [ht, Option.some.injEq] at hres
      subst hres
      refine ⟨fun hcontra => by simp at hcontra, fun _ hcontra => by simp at hcontra,
        fun _ _ => rfl⟩

theorem policyReferences_congr {h h' : Heap} (hf : sameReferences h h')
    (sortSlice : (Ptr → Ptr → Bool) → List Ptr → List Ptr) (now : Time)
    (branchesRefs tagsRefs : List Ptr) (policy : MetaCleanupKeepPolicy) :
    (policyReferences sortSlice now branchesRefs tagsRefs h' policy).map Prod.snd
      = (policyReferences sortSlice now branchesRefs tagsRefs h policy).map Prod.snd := by
  unfold policyReferences
  cases policy.References.BranchRegexp with
  | some re =>
    simp only [selectBranchReferencesByRegexp_congr hf]
    cases selectBranchReferencesByRegexp h branchesRefs re with
    | none => rfl
    | some sel =>
      simp only [applyCleanupKeepPolicy, applyReferencesLimit_congr hf]
      cases applyReferencesLimit sortSlice now h sel policy.References.Limit <;> rfl
  | none =>
    cases policy.References.TagRegexp with
    | some re =>
      simp only [applyCleanupKeepPolicy, applyReferencesLimit_congr hf,
        selectTagReferencesByRegexp_congr hf]
      cases applyReferencesLimit sortSlice now h (selectTagReferencesByRegexp h tagsRefs re)
        policy.References.Limit <;> rfl
    | none => rfl

theorem survivorsAt_eq_map (sortSlice : (Ptr → Ptr → Bool) → List Ptr → List Ptr) (now : Time)
    (branchesRefs tagsRefs : List Ptr) (h : Heap) (policy : MetaCleanupKeepPolicy) :
    survivorsAt sortSlice now branchesRefs tagsRefs h policy
      = ((policyReferences sortSlice now branchesRefs tagsRefs h policy).map Prod.snd).getD [] := by
  unfold survivorsAt
  cases policyReferences sortSlice now branchesRefs tagsRefs h policy <;> rfl

theorem survivorsAt_congr {h h' : Heap} (hf : sameReferences h h')
    (sortSlice : (Ptr → Ptr → Bool) → List Ptr → List Ptr) (now : Time)
    (branchesRefs tagsRefs : List Ptr) (policy : MetaCleanupKeepPolicy) :
    survivorsAt sortSlice now branchesRefs tagsRefs h' policy
      = survivorsAt sortSlice now branchesRefs tagsRefs h policy := by
  rw [survivorsAt_eq_map, survivorsAt_eq_map, policyReferences_congr hf]

/-! ## The loop over the policies -/

theorem policyStep_spec (sortSlice : (Ptr → Ptr → Bool) → List Ptr → List Ptr) (now : Time)
    (branchesRefs tagsRefs : List Ptr) (st st1 : PolicyLoopState) (policy : MetaCleanupKeepPolicy)
    (hstep : policyStep sortSlice now branchesRefs tagsRefs st policy = some st1) :
    policyReferences sortSlice now branchesRefs tagsRefs st.heap policy
        = some (st1.heap, survivorsAt sortSlice now branchesRefs tagsRefs st.heap policy) ∧
      st1.heap = applyImagesPerReference st.heap
        (survivorsAt sortSlice now branchesRefs tagsRefs st.heap policy) policy.ImagesPerReference ∧
      st1.resultBranchesRefs =
        (if policy.References.BranchRegexp.isSome = true then
          mergeReferences st.resultBranchesRefs
            (survivorsAt sortSlice now branchesRefs tagsRefs st.heap policy)
        else st.resultBranchesRefs) ∧
      st1.resultTagsRefs =
        (if policy.References.BranchRegexp.isSome = true then st.resultTagsRefs
        else if policy.References.TagRegexp.isSome = true then
          mergeReferences st.resultTagsRefs
            (survivorsAt sortSlice now branchesRefs tagsRefs st.heap policy)
        else st.resultTagsRefs) := by
  unfold policyStep at hstep
  cases hpr : policyReferences sortSlice now branchesRefs tagsRefs st.heap policy with
  | none => simp [hpr] at hstep
  | some res =>
    have hheap := policyReferences_heap sortSlice now branchesRefs tagsRefs st.heap policy res hpr
    have hsurv : survivorsAt sortSlice now branchesRefs tagsRefs st.heap policy = res.2 := by
      simp [survivorsAt, hpr]
    obtain ⟨heap, policyRefs⟩ := res
    simp only [hpr] at hstep
    simp only at hheap hsurv
    rw [hsurv]
    by_cases hb : policy.References.BranchRegexp.isSome = true
    · simp only [hb, if_true, Option.some.injEq] at hstep
      subst hstep
      simp [hb, hheap]
    · by_cases ht : policy.References.TagRegexp.isSome = true
      · simp [hb, ht] at hstep
        subst hstep
        simp [hb, ht, hheap]
      · simp [hb, ht] at hstep
        subst hstep
        simp [hb, ht, hheap]

theorem policyLoop_nil (sortSlice : (Ptr → Ptr → Bool) → List Ptr → List Ptr) (now : Time)
    (branchesRefs tagsRefs : List Ptr) (st : PolicyLoopState) :
    policyLoop sortSlice now branchesRefs tagsRefs st [] = some st := rfl

theorem policyLoop_cons (sortSlice : (Ptr → Ptr → Bool) → List Ptr → List Ptr) (now : Time)
    (branchesRefs tagsRefs : List Ptr) (st st' : PolicyLoopState) (policy : MetaCleanupKeepPolicy)
    (policies : List MetaCleanupKeepPolicy)
    (hloop : policyLoop sortSlice now branchesRefs tagsRefs st (policy :: policies) = some st') :
    ∃ st1, policyStep sortSlice now branchesRefs tagsRefs st policy = some st1 ∧
      policyLoop sortSlice now branchesRefs tagsRefs st1 policies = some st' := by
  unfold policyLoop at hloop
  simp only [List.foldlM_cons] at hloop
  cases hstep : policyStep sortSlice now branchesRefs tagsRefs st policy with
  | none => simp [hstep] at hloop
  | some st1 =>
    simp only [hstep] at hloop
    exact ⟨st1, rfl, hloop⟩

theorem exists_mem_cons_iff {α : Type} (P : α → Prop) (a : α) (l : List α) :
    (∃ x ∈ a :: l, P x) ↔ P a ∨ ∃ x ∈ l, P x := by
  constructor
  · rintro ⟨x, hx, hP⟩
    rcases List.mem_cons.1 hx with hx | hx
    · subst hx; exact Or.inl hP
    · exact Or.inr ⟨x, hx, hP⟩
  · rintro (hP | ⟨x, hx, hP⟩)
    · exact ⟨a, List.mem_cons_self _ _, hP⟩
    · exact ⟨x, List.mem_cons_of_mem _ hx, hP⟩

theorem policyLoop_spec (sortSlice : (Ptr → Ptr → Bool) → List Ptr → List Ptr)
    (hs : SortSliceSpec sortSlice) (now : Time) (b t : List Ptr) (h0 : Heap)
    (policies : List MetaCleanupKeepPolicy) (st st' : PolicyLoopState)
    (hbase : sameReferences h0 st.heap)
    (hloop : policyLoop sortSlice now b t st policies = some st') :
    sameReferences h0 st'.heap ∧
      (∀ r, r ∈ st'.resultBranchesRefs ↔ r ∈ st.resultBranchesRefs ∨
        ∃ p ∈ policies, p.References.BranchRegexp.isSome = true ∧
          r ∈ survivorsAt sortSlice now b t h0 p) ∧
      (∀ r, r ∈ st'.resultTagsRefs ↔ r ∈ st.resultTagsRefs ∨
        ∃ p ∈ policies, p.References.BranchRegexp = none ∧ p.References.TagRegexp.isSome = true ∧
          r ∈ survivorsAt sortSlice now b t h0 p) ∧
      (b.Nodup → st.resultBranchesRefs.Nodup → st'.resultBranchesRefs.Nodup) ∧
      (t.Nodup → st.resultTagsRefs.Nodup → st'.resultTagsRefs.Nodup) ∧
      (∀ r, ((∀ p ∈ policies, r ∉ survivorsAt sortSlice now b t h0 p) ∧
            attachedPolicy st'.heap r = attachedPolicy st.heap r) ∨
          (∃ pre p post, policies = pre ++ p :: post ∧ r ∈ survivorsAt sortSlice now b t h0 p ∧
            (∀ q ∈ post, r ∉ survivorsAt sortSlice now b t h0 q) ∧
            attachedPolicy st'.heap r = p.ImagesPerReference)) := by
  induction policies generalizing st with
  | nil =>
    rw [policyLoop_nil] at hloop
    cases hloop
    refine ⟨hbase, ?_, ?_, fun _ hn => hn, fun _ hn => hn, fun r => Or.inl ⟨?_, rfl⟩⟩
    · intro r
      constructor
      · exact fun hr => Or.inl hr
      · rintro (hr | ⟨q, hq, _⟩)
        · exact hr
        · exact absurd hq (List.not_mem_nil q)
    · intro r
      constructor
      · exact fun hr => Or.inl hr
      · rintro (hr | ⟨q, hq, _⟩)
        · exact hr
        · exact absurd hq (List.not_mem_nil q)
    · intro q hq
      exact absurd hq (List.not_mem_nil q)
  | cons p ps ih =>
    obtain ⟨st1, hstep, hloop'⟩ := policyLoop_cons sortSlice now b t st st' p ps hloop
    obtain ⟨hpr, hheap, hrb, hrt⟩ := policyStep_spec sortSlice now b t st st1 p hstep
    have hS : survivorsAt sortSlice now b t st.heap p = survivorsAt sortSlice now b t h0 p :=
      survivorsAt_congr hbase sortSlice now b t p
    rw [hS] at hpr hheap hrb hrt
    have hpool := policyReferences_pool sortSlice hs now b t st.heap p _ hpr
    have hbase1 : sameReferences h0 st1.heap := by
      rw [hheap]
      exact sameReferences_trans hbase (sameReferences_applyImagesPerReference _ _ _)
    obtain ⟨ihf, ihb, iht, ihnb, ihnt, iha⟩ := ih st1 hbase1 hloop'
    have hpoolB : p.References.BranchRegexp.isSome = true → b.Nodup →
        (survivorsAt sortSlice now b t h0 p).Nodup := fun hb hn => (hpool.1 hb).2 hn
    have hpoolT : p.References.BranchRegexp = none → p.References.TagRegexp.isSome = true →
        t.Nodup → (survivorsAt sortSlice now b t h0 p).Nodup := fun hb ht hn => (hpool.2.1 hb ht).2 hn
    have hatt1 : ∀ r, attachedPolicy st1.heap r
        = if r ∈ survivorsAt sortSlice now b t h0 p then p.ImagesPerReference
          else attachedPolicy st.heap r := by
      intro r
      rw [hheap, attachedPolicy_applyImagesPerReference]
    clear hpool hpr hheap hstep hloop hloop' hS ih
    generalize survivorsAt sortSlice now b t h0 = S at *
    refine ⟨ihf, ?_, ?_, ?_, ?_, ?_⟩
    · intro r
      rw [ihb r, hrb, exists_mem_cons_iff]
      by_cases hb : p.References.BranchRegexp.isSome = true
      · rw [if_pos hb, mem_mergeReferences]
        constructor
        · rintro ((h1 | h1) | h1)
          · exact Or.inl h1
          · exact Or.inr (Or.inl ⟨hb, h1⟩)
          · exact Or.inr (Or.inr h1)
        · rintro (h1 | h1 | h1)
          · exact Or.inl (Or.inl h1)
          · exact Or.inl (Or.inr h1.2)
          · exact Or.inr h1
      · rw [if_neg hb]
        constructor
        · rintro (h1 | h1)
          · exact Or.inl h1
          · exact Or.inr (Or.inr h1)
        · rintro (h1 | h1 | h1)
          · exact Or.inl h1
          · exact absurd h1.1 hb
          · exact Or.inr h1
    · intro r
      rw [iht r, hrt, exists_mem_cons_iff]
      by_cases hb : p.References.BranchRegexp.isSome = true
      · have hb' : ¬ p.References.BranchRegexp = none := by
          intro hcontra
          rw [hcontra] at hb
          exact Bool.noConfusion hb
        rw [if_pos hb]
        constructor
        · rintro (h1 | h1)
          · exact Or.inl h1
          · exact Or.inr (Or.inr h1)
        · rintro (h1 | h1 | h1)
          · exact Or.inl h1
          · exact absurd h1.1 hb'
          · exact Or.inr h1
      · have hb' : p.References.BranchRegexp = none := Option.not_isSome_iff_eq_none.1 hb
        rw [if_neg hb]
        by_cases ht : p.References.TagRegexp.isSome = true
        · rw [if_pos ht, mem_mergeReferences]
          constructor
          · rintro ((h1 | h1) | h1)
            · exact Or.inl h1
            · exact Or.inr (Or.inl ⟨hb', ht, h1⟩)
            · exact Or.inr (Or.inr h1)
          · rintro (h1 | h1 | h1)
            · exact Or.inl (Or.inl h1)
            · exact Or.inl (Or.inr h1.2.2)
            · exact Or.inr h1
        · rw [if_neg ht]
          constructor
          · rintro (h1 | h1)
            · exact Or.inl h1
            · exact Or.inr (Or.inr h1)
          · rintro (h1 | h1 | h1)
            · exact Or.inl h1
            · exact absurd h1.2.1 ht
            · exact Or.inr h1
    · intro hbn hn
      apply ihnb hbn
      rw [hrb]
      by_cases hb : p.References.BranchRegexp.isSome = true
      · rw [if_pos hb]
        exact nodup_mergeReferences _ _ hn (hpoolB hb hbn)
      · rw [if_neg hb]; exact hn
    · intro htn hn
      apply ihnt htn
      rw [hrt]
      by_cases hb : p.References.BranchRegexp.isSome = true
      · rw [if_pos hb]; exact hn
      · have hb' : p.References.BranchRegexp = none := Option.not_isSome_iff_eq_none.1 hb
        rw [if_neg hb]
        by_cases ht : p.References.TagRegexp.isSome = true
        · rw [if_pos ht]
          exact nodup_mergeReferences _ _ hn (hpoolT hb' ht htn)
        · rw [if_neg ht]; exact hn
    · intro r
      rcases iha r with ⟨hnone, hsame⟩ | ⟨pre, q, post, hsplit, hq, hpost, hatt⟩
      · by_cases hr : r ∈ S p
        · right
          refine ⟨[], p, ps, rfl, hr, hnone, ?_⟩
          rw [hsame, hatt1, if_pos hr]
        · left
          refine ⟨?_, ?_⟩
          · intro p' hp'
            rcases List.mem_cons.1 hp' with hp' | hp'
            · rw [hp']; exact hr
            · exact hnone p' hp'
          · rw [hsame, hatt1, if_neg hr]
      · right
        exact ⟨p :: pre, q, post, by rw [hsplit]; rfl, hq, hpost, hatt⟩

/-! ## The whole run -/

theorem splitReferences_foldl (h : Heap) (refs acc1 acc2 : List Ptr) :
    refs.foldl
        (fun acc ref =>
          if (h ref).Reference.IsTag = true then (acc.1, acc.2 ++ [ref]) else (acc.1 ++ [ref], acc.2))
        (acc1, acc2)
      = (acc1 ++ refs.filter (fun ref => !(h ref).Reference.IsTag),
          acc2 ++ refs.filter (fun ref => (h ref).Reference.IsTag)) := by
  induction refs generalizing acc1 acc2 with
  | nil => simp
  | cons x xs ih =>
    simp only [List.foldl_cons]
    by_cases hx : (h x).Reference.IsTag = true
    · simp [hx, ih]
    · simp [hx, ih]

theorem splitReferences_eq (h : Heap) (refs : List Ptr) :
    splitReferences h refs
      = (refs.filter (fun ref => !(h ref).Reference.IsTag),
          refs.filter (fun ref => (h ref).Reference.IsTag)) := by
  unfold splitReferences
  rw [splitReferences_foldl]
  simp

theorem survivorsAt_pool (sortSlice : (Ptr → Ptr → Bool) → List Ptr → List Ptr)
    (hs : SortSliceSpec sortSlice) (now : Time) (b t : List Ptr) (h : Heap)
    (p : MetaCleanupKeepPolicy) (r : Ptr) (hr : r ∈ survivorsAt sortSlice now b t h p) :
    (p.References.BranchRegexp.isSome = true ∧ r ∈ b) ∨
      (p.References.BranchRegexp = none ∧ p.References.TagRegexp.isSome = true ∧ r ∈ t) := by
  unfold survivorsAt at hr
  cases hpr : policyReferences sortSlice now b t h p with
  | none =>
    rw [hpr] at hr
    exact absurd hr (List.not_mem_nil r)
  | some res =>
    rw [hpr] at hr
    have hpool := policyReferences_pool sortSlice hs now b t h p res hpr
    by_cases hb : p.References.BranchRegexp.isSome = true
    · exact Or.inl ⟨hb, (hpool.1 hb).1 r hr⟩
    · have hb' : p.References.BranchRegexp = none := Option.not_isSome_iff_eq_none.1 hb
      by_cases ht : p.References.TagRegexp.isSome = true
      · exact Or.inr ⟨hb', ht, (hpool.2.1 hb' ht).1 r hr⟩
      · have ht' : p.References.TagRegexp = none := Option.not_isSome_iff_eq_none.1 ht
        have hnil := hpool.2.2 hb' ht'
        simp only at hr
        rw [hnil] at hr
        exact absurd hr (List.not_mem_nil r)

theorem getReferencesToScan_ok (sortSlice : (Ptr → Ptr → Bool) → List Ptr → List Ptr) (now : Time)
    (gitRepository : Repository) (keepPolicies : List MetaCleanupKeepPolicy)
    (res : Heap × List Ptr)
    (hres : getReferencesToScan sortSlice now gitRepository keepPolicies = .ok res) :
    scanClassified sortSlice now (classifiedReferences gitRepository) keepPolicies = some res := by
  unfold getReferencesToScan at hres
  unfold classifiedReferences
  cases hrs : gitRepository.References with
  | error err => simp [hrs] at hres
  | ok rs =>
    simp only [hrs] at hres ⊢
    cases hcl : classifyReferences gitRepository rs with
    | error err => simp [hcl] at hres
    | ok refs =>
      simp only [hcl] at hres ⊢
      cases hsc : scanClassified sortSlice now refs keepPolicies with
      | none => simp [hsc] at hres
      | some res' =>
        simp only [hsc, Except.ok.injEq] at hres
        rw [hres]

theorem scanClassified_some (sortSlice : (Ptr → Ptr → Bool) → List Ptr → List Ptr) (now : Time)
    (refs : List referenceToScan) (keepPolicies : List MetaCleanupKeepPolicy)
    (res : Heap × List Ptr)
    (hres : scanClassified sortSlice now refs keepPolicies = some res) :
    ∃ st, policyLoop sortSlice now (splitReferences (allocate refs) (List.range refs.length)).1
          (splitReferences (allocate refs) (List.range refs.length)).2
          { heap := allocate refs, resultTagsRefs := [], resultBranchesRefs := [] }
          (effectiveKeepPolicies keepPolicies) = some st ∧
      res = (st.heap, sortSlice (createdAtAfter st.heap) st.resultBranchesRefs
              ++ sortSlice (createdAtAfter st.heap) st.resultTagsRefs) := by
  unfold scanClassified at hres
  simp only at hres
  cases hloop : policyLoop sortSlice now (splitReferences (allocate refs) (List.range refs.length)).1
      (splitReferences (allocate refs) (List.range refs.length)).2
      { heap := allocate refs, resultTagsRefs := [], resultBranchesRefs := [] }
      (effectiveKeepPolicies keepPolicies) with
  | none => simp [hloop] at hres
  | some st =>
    simp only [hloop, Option.some.injEq] at hres
    exact ⟨st, rfl, hres.symm⟩

theorem getReferencesToScan_facts (sortSlice : (Ptr → Ptr → Bool) → List Ptr → List Ptr)
    (hs : SortSliceSpec sortSlice) (now : Time) (gitRepository : Repository)
    (keepPolicies : List MetaCleanupKeepPolicy) (h' : Heap) (result : List Ptr)
    (hres : getReferencesToScan sortSlice now gitRepository keepPolicies = .ok (h', result)) :
    sameReferences (allocate (classifiedReferences gitRepository)) h' ∧
      ∃ sb stg, result = sb ++ stg ∧
        sb.Pairwise (fun a b => (h' b).CreatedAt ≤ (h' a).CreatedAt) ∧
        stg.Pairwise (fun a b => (h' b).CreatedAt ≤ (h' a).CreatedAt) ∧
        sb.Nodup ∧ stg.Nodup ∧
        (∀ r ∈ sb, (h' r).Reference.IsTag = false) ∧
        (∀ r ∈ stg, (h' r).Reference.IsTag = true) ∧
        (∀ r, r ∈ sb ↔ ∃ p ∈ effectiveKeepPolicies keepPolicies,
          p.References.BranchRegexp.isSome = true ∧
            r ∈ policySurvivors sortSlice now (classifiedReferences gitRepository) p) ∧
        (∀ r, r ∈ stg ↔ ∃ p ∈ effectiveKeepPolicies keepPolicies,
          p.References.BranchRegexp = none ∧ p.References.TagRegexp.isSome = true ∧
            r ∈ policySurvivors sortSlice now (classifiedReferences gitRepository) p) ∧
        (∀ r, ((∀ p ∈ effectiveKeepPolicies keepPolicies,
                r ∉ policySurvivors sortSlice now (classifiedReferences gitRepository) p) ∧
              attachedPolicy h' r
                = attachedPolicy (allocate (classifiedReferences gitRepository)) r) ∨
            (∃ pre p post, effectiveKeepPolicies keepPolicies = pre ++ p :: post ∧
              r ∈ policySurvivors sortSlice now (classifiedReferences gitRepository) p ∧
              (∀ q ∈ post,
                r ∉ policySurvivors sortSlice now (classifiedReferences gitRepository) q) ∧
              attachedPolicy h' r = p.ImagesPerReference)) := by
  obtain ⟨st, hloop, hst⟩ := scanClassified_some sortSlice now _ keepPolicies _
    (getReferencesToScan_ok sortSlice now gitRepository keepPolicies _ hres)
  simp only [Prod.mk.injEq] at hst
  obtain ⟨hh, hresult⟩ := hst
  generalize classifiedReferences gitRepository = refs at *
  have hspec := policyLoop_spec sortSlice hs now _ _ (allocate refs) _ _ st
    (sameReferences_refl _) hloop
  simp only at hspec
  obtain ⟨hframe, hb, ht, hnb, hnt, hatt⟩ := hspec
  have hsplit := splitReferences_eq (allocate refs) (List.range refs.length)
  have hbpool : ∀ r ∈ (splitReferences (allocate refs) (List.range refs.length)).1,
      (allocate refs r).Reference.IsTag = false := by
    intro r hr
    rw [hsplit] at hr
    simpa using (List.mem_filter.1 hr).2
  have htpool : ∀ r ∈ (splitReferences (allocate refs) (List.range refs.length)).2,
      (allocate refs r).Reference.IsTag = true := by
    intro r hr
    rw [hsplit] at hr
    simpa using (List.mem_filter.1 hr).2
  have hbn : (splitReferences (allocate refs) (List.range refs.length)).1.Nodup := by
    rw [hsplit]
    exact (List.nodup_range _).filter _
  have htn : (splitReferences (allocate refs) (List.range refs.length)).2.Nodup := by
    rw [hsplit]
    exact (List.nodup_range _).filter _
  have hpermB := (hs st.heap st.resultBranchesRefs).1
  have hpermT := (hs st.heap st.resultTagsRefs).1
  have hsortB := (hs st.heap st.resultBranchesRefs).2
  have hsortT := (hs st.heap st.resultTagsRefs).2
  subst hh
  refine ⟨hframe, sortSlice (createdAtAfter st.heap) st.resultBranchesRefs,
    sortSlice (createdAtAfter st.heap) st.resultTagsRefs, hresult, ?_, ?_, ?_, ?_, ?_, ?_, ?_, ?_,
    ?_⟩
  · exact hsortB.imp (fun hab => (createdAtAfter_eq_false_iff _ _ _).1 hab)
  · exact hsortT.imp (fun hab => (createdAtAfter_eq_false_iff _ _ _).1 hab)
  · exact hpermB.nodup_iff.2 (hnb hbn List.nodup_nil)
  · exact hpermT.nodup_iff.2 (hnt htn List.nodup_nil)
  · intro r hr
    rcases (hb r).1 (hpermB.mem_iff.1 hr) with hnil | ⟨p, _, hpb, hrp⟩
    · exact absurd hnil (List.not_mem_nil r)
    · rcases survivorsAt_pool sortSlice hs now _ _ _ p r hrp with ⟨_, hrb⟩ | ⟨hnone, _, _⟩
      · rw [(hframe r).1]
        exact hbpool r hrb
      · rw [hnone] at hpb
        exact Bool.noConfusion hpb
  · intro r hr
    rcases (ht r).1 (hpermT.mem_iff.1 hr) with hnil | ⟨p, _, hpb, _, hrp⟩
    · exact absurd hnil (List.not_mem_nil r)
    · rcases survivorsAt_pool sortSlice hs now _ _ _ p r hrp with ⟨hsome, _⟩ | ⟨_, _, hrt⟩
      · rw [hpb] at hsome
        exact Bool.noConfusion hsome
      · rw [(hframe r).1]
        exact htpool r hrt
  · intro r
    rw [hpermB.mem_iff, hb r]
    constructor
    · rintro (hnil | hex)
      · exact absurd hnil (List.not_mem_nil r)
      · exact hex
    · exact fun hex => Or.inr hex
  · intro r
    rw [hpermT.mem_iff, ht r]
    constructor
    · rintro (hnil | hex)
      · exact absurd hnil (List.not_mem_nil r)
      · exact hex
    · exact fun hex => Or.inr hex
  · exact hatt

/-! ## The two expressions of the default policies -/

theorem regexpDotStar_matches_all (n : String) : regexpDotStar.MatchString n = true := by
  unfold Regexp.MatchString regexpDotStar
  cases n.toList with
  | nil => simp [Regexp.searchFrom, Regexp.ends, starIter]
  | cons c cs => simp [Regexp.searchFrom, Regexp.ends, starIter]

theorem mem_ends_ofLiteral (w : List Char) (i : Nat) (cs : List Char) (q : TextPos) :
    q ∈ (Regexp.ofLiteral w).ends (i, cs) ↔ ∃ rest, cs = w ++ rest ∧ q = (i + w.length, rest) := by
  induction w generalizing i cs with
  | nil => simp [Regexp.ofLiteral, Regexp.ends]
  | cons c w ih =>
    simp only [Regexp.ofLiteral, Regexp.ends, List.mem_flatMap]
    cases cs with
    | nil => simp
    | cons d cs =>
      by_cases hd : d = c
      · subst hd
        simp only [if_true, List.mem_singleton, exists_eq_left, ih, List.cons_append,
          List.cons.injEq, true_and, List.length_cons]
        constructor
        · rintro ⟨rest, h1, h2⟩
          exact ⟨rest, h1, by rw [h2]; congr 1; omega⟩
        · rintro ⟨rest, h1, h2⟩
          exact ⟨rest, h1, by rw [h2]; congr 1; omega⟩
      · simp [hd]

theorem mem_ends_ofLiteral_pos (w : List Char) (p q : TextPos) :
    q ∈ (Regexp.ofLiteral w).ends p ↔ ∃ rest, p.2 = w ++ rest ∧ q = (p.1 + w.length, rest) :=
  mem_ends_ofLiteral w p.1 p.2 q

theorem isEmpty_eq_false_iff_exists_mem {α : Type} (l : List α) :
    (!l.isEmpty) = true ↔ ∃ q, q ∈ l := by
  cases l with
  | nil => simp
  | cons x xs => simp

theorem mem_ends_endText (p q : TextPos) :
    q ∈ Regexp.endText.ends p ↔ p.2 = [] ∧ q = p := by
  simp only [Regexp.ends]
  by_cases he : p.2.isEmpty = true
  · simp [he, List.isEmpty_iff.1 he]
  · have hne : ¬ p.2 = [] := fun h => he (List.isEmpty_iff.2 h)
    simp [he, hne]

theorem mem_ends_beginText (p q : TextPos) :
    q ∈ Regexp.beginText.ends p ↔ p.1 = 0 ∧ q = p := by
  simp only [Regexp.ends]
  by_cases he : p.1 = 0
  · simp [he]
  · simp [he]

theorem mem_ends_cat (a b : Regexp) (p q : TextPos) :
    q ∈ (Regexp.cat a b).ends p ↔ ∃ m, m ∈ a.ends p ∧ q ∈ b.ends m := by
  simp only [Regexp.ends, List.mem_flatMap]

theorem mem_ends_alt (a b : Regexp) (p q : TextPos) :
    q ∈ (Regexp.alt a b).ends p ↔ q ∈ a.ends p ∨ q ∈ b.ends p := by
  simp only [Regexp.ends, List.mem_append]

theorem mem_ends_anchored_alternatives (w1 w2 w3 : List Char) (i : Nat) (cs : List Char)
    (q : TextPos) :
    q ∈ (Regexp.cat .beginText
          (.cat (.alt (Regexp.ofLiteral w1) (.alt (Regexp.ofLiteral w2) (Regexp.ofLiteral w3)))
            .endText)).ends (i, cs) ↔
      i = 0 ∧ q = (cs.length, []) ∧ (cs = w1 ∨ cs = w2 ∨ cs = w3) := by
  simp only [mem_ends_cat, mem_ends_alt, mem_ends_beginText, mem_ends_endText,
    mem_ends_ofLiteral_pos]
  constructor
  · rintro ⟨p, ⟨hi, hp⟩, m, hm, hm2, hq⟩
    subst hp hq
    simp only at hi hm
    refine ⟨hi, ?_⟩
    rcases hm with ⟨rest, h1, h2⟩ | ⟨rest, h1, h2⟩ | ⟨rest, h1, h2⟩
    all_goals
      rw [h2] at hm2
      simp only at hm2
      subst hm2
      simp only [List.append_nil] at h1
      subst h1
      simp [hi, h2]
  · rintro ⟨hi, hq, hcs⟩
    subst hi
    refine ⟨(0, cs), ⟨rfl, rfl⟩, q, ?_, by simp [hq], rfl⟩
    rcases hcs with h | h | h
    · exact Or.inl ⟨[], by simp [h], by simp [hq, h]⟩
    · exact Or.inr (Or.inl ⟨[], by simp [h], by simp [hq, h]⟩)
    · exact Or.inr (Or.inr ⟨[], by simp [h], by simp [hq, h]⟩)

theorem mem_ends_regexpMainBranches (i : Nat) (cs : List Char) (q : TextPos) :
    q ∈ regexpMainBranches.ends (i, cs) ↔
      i = 0 ∧ q = (cs.length, []) ∧
        (cs = "master".toList ∨ cs = "staging".toList ∨ cs = "production".toList) :=
  mem_ends_anchored_alternatives _ _ _ i cs q

theorem searchFrom_regexpMainBranches_succ (i : Nat) (cs : List Char) :
    regexpMainBranches.searchFrom (i + 1) cs = false := by
  induction cs generalizing i with
  | nil =>
    simp only [Regexp.searchFrom]
    rw [Bool.eq_false_iff]
    intro hcontra
    obtain ⟨q, hq⟩ := (isEmpty_eq_false_iff_exists_mem _).1 hcontra
    have := ((mem_ends_regexpMainBranches _ _ q).1 hq).1
    omega
  | cons c cs ih =>
    simp only [Regexp.searchFrom, ih, Bool.or_false]
    rw [Bool.eq_false_iff]
    intro hcontra
    obtain ⟨q, hq⟩ := (isEmpty_eq_false_iff_exists_mem _).1 hcontra
    have := ((mem_ends_regexpMainBranches _ _ q).1 hq).1
    omega

theorem regexpMainBranches_matches_iff (n : String) :
    regexpMainBranches.MatchString n = true ↔ n = "master" ∨ n = "staging" ∨ n = "production" := by
  have hstr : ∀ w : String, n = w ↔ n.toList = w.toList := fun w => String.ext_iff
  rw [hstr, hstr, hstr]
  unfold Regexp.MatchString
  generalize n.toList = cs
  have hfirst : (!(regexpMainBranches.ends (0, cs)).isEmpty) = true ↔
      (cs = "master".toList ∨ cs = "staging".toList ∨ cs = "production".toList) := by
    rw [isEmpty_eq_false_iff_exists_mem]
    constructor
    · rintro ⟨q, hq⟩
      exact ((mem_ends_regexpMainBranches _ _ q).1 hq).2.2
    · intro hcs
      exact ⟨(cs.length, []), (mem_ends_regexpMainBranches _ _ _).2 ⟨rfl, rfl, hcs⟩⟩
  cases cs with
  | nil =>
    simp only [Regexp.searchFrom]
    exact hfirst
  | cons c cs =>
    simp only [Regexp.searchFrom, searchFrom_regexpMainBranches_succ, Bool.or_false]
    exact hfirst

theorem effectiveKeepPolicies_idem (keepPolicies : List MetaCleanupKeepPolicy) :
    effectiveKeepPolicies (effectiveKeepPolicies keepPolicies) = effectiveKeepPolicies keepPolicies := by
  cases keepPolicies with
  | nil => rfl
  | cons p ps => rfl

/-- C10: the effective policy list of `getReferencesToScan` is the caller's
list when it is not empty, and otherwise three policies in this order: a tag
policy whose expression matches every name, with limit `Last = 10` and an
empty sub-policy; a branch policy whose expression matches every name, with
limit `Last = 10` AND `In` = 7 days and sub-policy `Last = 2` AND `In` = 7 days;
a branch policy whose expression matches exactly `master`, `staging` and
`production`, with no limit and sub-policy `Last = 10`. -/
theorem effectiveKeepPolicies_caller_or_three_defaults :
    (∀ keepPolicies : List MetaCleanupKeepPolicy, keepPolicies ≠ [] →
        effectiveKeepPolicies keepPolicies = keepPolicies) ∧
      (∃ tagAll branchAll branchMain : Regexp,
        effectiveKeepPolicies [] =
          [ { References :=
                { TagRegexp := some tagAll
                  BranchRegexp := none
                  Limit := some { Last := some 10, In := none, Operator := none } }
              ImagesPerReference :=
                { MetaCleanupKeepPolicyLimit := { Last := none, In := none, Operator := none } } },
            { References :=
                { TagRegexp := none
                  BranchRegexp := some branchAll
                  Limit := some { Last := some 10, In := some 604800000000000,
                                  Operator := some Operator.And } }
              ImagesPerReference :=
                { MetaCleanupKeepPolicyLimit :=
                    { Last := some 2, In := some 604800000000000, Operator := some Operator.And } } },
            { References := { TagRegexp := none, BranchRegexp := some branchMain, Limit := none }
              ImagesPerReference :=
                { MetaCleanupKeepPolicyLimit := { Last := some 10, In := none, Operator := none } } } ] ∧
        (∀ n, tagAll.MatchString n = true) ∧
        (∀ n, branchAll.MatchString n = true) ∧
        (∀ n, branchMain.MatchString n = true ↔ n = "master" ∨ n = "staging" ∨ n = "production")) ∧
      (∀ (sortSlice : (Ptr → Ptr → Bool) → List Ptr → List Ptr) (now : Time)
          (gitRepository : Repository) (keepPolicies : List MetaCleanupKeepPolicy),
        getReferencesToScan sortSlice now gitRepository keepPolicies
          = getReferencesToScan sortSlice now gitRepository (effectiveKeepPolicies keepPolicies)) := by
  refine ⟨?_, ⟨regexpDotStar, regexpDotStar, regexpMainBranches, ?_, regexpDotStar_matches_all,
    regexpDotStar_matches_all, regexpMainBranches_matches_iff⟩, ?_⟩
  · intro keepPolicies hne
    cases keepPolicies with
    | nil => exact absurd rfl hne
    | cons p ps => rfl
  · decide
  · intro sortSlice now gitRepository keepPolicies
    unfold getReferencesToScan scanClassified
    rw [effectiveKeepPolicies_idem]

/-! ## Example runs -/

theorem exampleRun_ok (gitRepository : Repository) (keepPolicies : List MetaCleanupKeepPolicy)
    (hok : (getReferencesToScan insertionSortSlice 0 gitRepository keepPolicies).toOption.isSome
      = true) :
    getReferencesToScan insertionSortSlice 0 gitRepository keepPolicies
      = .ok ((exampleRun gitRepository keepPolicies).1, (exampleRun gitRepository keepPolicies).2) := by
  unfold exampleRun
  cases hrun : getReferencesToScan insertionSortSlice 0 gitRepository keepPolicies with
  | error err =>
    rw [hrun] at hok
    exact Bool.noConfusion hok
  | ok res => rfl

/-! ## The final list -/

theorem filter_groups (tag : Ptr → Bool) (sb stg : List Ptr)
    (hsb : ∀ r ∈ sb, tag r = false) (hstg : ∀ r ∈ stg, tag r = true) :
    (sb ++ stg).filter (fun r => !tag r) = sb ∧ (sb ++ stg).filter tag = stg := by
  have h1 : sb.filter (fun r => !tag r) = sb :=
    List.filter_eq_self.2 (fun r hr => by simp [hsb r hr])
  have h2 : stg.filter (fun r => !tag r) = [] :=
    List.filter_eq_nil_iff.2 (fun r hr => by simp [hstg r hr])
  have h3 : sb.filter tag = [] :=
    List.filter_eq_nil_iff.2 (fun r hr => by simp [hsb r hr])
  have h4 : stg.filter tag = stg := List.filter_eq_self.2 (fun r hr => hstg r hr)
  rw [List.filter_append, List.filter_append, h1, h2, h3, h4]
  simp

theorem nodup_groups (tag : Ptr → Bool) (sb stg : List Ptr)
    (hsb : ∀ r ∈ sb, tag r = false) (hstg : ∀ r ∈ stg, tag r = true)
    (hnb : sb.Nodup) (hnt : stg.Nodup) : (sb ++ stg).Nodup := by
  refine List.Nodup.append hnb hnt ?_
  intro r hr1 hr2
  have h1 := hsb r hr1
  rw [hstg r hr2] at h1
  exact Bool.noConfusion h1

/-- C6: every reference in the final list of `getReferencesToScan` carries the
sub-policy of the last policy, in the order of the effective policy list, whose
survivors include it; and for two policies A then B whose survivors both
include a reference, the reference is in the final list exactly once and
carries the sub-policy of B. -/
theorem attached_policy_is_of_last_retaining_policy
    (sortSlice : (Ptr → Ptr → Bool) → List Ptr → List Ptr) (hs : SortSliceSpec sortSlice)
    (now : Time) (gitRepository : Repository) (keepPolicies : List MetaCleanupKeepPolicy)
    (h' : Heap) (result : List Ptr)
    (hres : getReferencesToScan sortSlice now gitRepository keepPolicies = .ok (h', result)) :
    (∀ r ∈ result, ∃ pre p post, effectiveKeepPolicies keepPolicies = pre ++ p :: post ∧
        r ∈ policySurvivors sortSlice now (classifiedReferences gitRepository) p ∧
        (∀ q ∈ post, r ∉ policySurvivors sortSlice now (classifiedReferences gitRepository) q) ∧
        attachedPolicy h' r = p.ImagesPerReference) ∧
      (∀ A B r, keepPolicies = [A, B] →
        r ∈ policySurvivors sortSlice now (classifiedReferences gitRepository) A →
        r ∈ policySurvivors sortSlice now (classifiedReferences gitRepository) B →
        result.count r = 1 ∧ attachedPolicy h' r = B.ImagesPerReference) := by
  obtain ⟨_, sb, stg, hresult, _, _, hnb, hnt, htb, htt, hmb, hmt, hatt⟩ :=
    getReferencesToScan_facts sortSlice hs now gitRepository keepPolicies h' result hres
  have hmem : ∀ r p, p ∈ effectiveKeepPolicies keepPolicies →
      r ∈ policySurvivors sortSlice now (classifiedReferences gitRepository) p → r ∈ result := by
    intro r p hp hr
    rw [hresult, List.mem_append]
    rcases survivorsAt_pool sortSlice hs now _ _ _ p r hr with ⟨hb, _⟩ | ⟨hb, ht, _⟩
    · exact Or.inl ((hmb r).2 ⟨p, hp, hb, hr⟩)
    · exact Or.inr ((hmt r).2 ⟨p, hp, hb, ht, hr⟩)
  constructor
  · intro r hr
    rcases hatt r with ⟨hnone, _⟩ | hlast
    · exfalso
      rw [hresult, List.mem_append] at hr
      rcases hr with hr | hr
      · obtain ⟨p, hp, _, hrp⟩ := (hmb r).1 hr
        exact hnone p hp hrp
      · obtain ⟨p, hp, _, _, hrp⟩ := (hmt r).1 hr
        exact hnone p hp hrp
    · exact hlast
  · intro A B r hps hrA hrB
    have heff : effectiveKeepPolicies keepPolicies = [A, B] := by rw [hps]; rfl
    have hBmem : B ∈ effectiveKeepPolicies keepPolicies := by rw [heff]; simp
    have hr : r ∈ result := hmem r B hBmem hrB
    have hnodup : result.Nodup := by
      rw [hresult]
      exact nodup_groups (fun r => (h' r).Reference.IsTag) sb stg htb htt hnb hnt
    refine ⟨List.count_eq_one_of_mem hnodup hr, ?_⟩
    rcases hatt r with ⟨hnone, _⟩ | ⟨pre, p, post, hsplit, _, hpost, hattp⟩
    · exact absurd hrB (hnone B hBmem)
    · rw [heff] at hsplit
      cases pre with
      | nil =>
        simp only [List.nil_append, List.cons.injEq] at hsplit
        exact absurd hrB (hpost B (by rw [← hsplit.2]; simp))
      | cons x pre =>
        cases pre with
        | nil =>
          simp only [List.cons_append, List.nil_append, List.cons.injEq] at hsplit
          rw [hattp, hsplit.2.1]
        | cons y pre =>
          simp at hsplit

/-- Witness of C6: the policies A (every branch) and B (the main branches)
both retain `origin/master`. -/
theorem attached_policy_is_of_last_retaining_policy_witness :
    getReferencesToScan insertionSortSlice 0 exampleRepository [examplePolicyA, examplePolicyB]
        = .ok ((exampleRun exampleRepository [examplePolicyA, examplePolicyB]).1,
            (exampleRun exampleRepository [examplePolicyA, examplePolicyB]).2) ∧
      (exampleRun exampleRepository [examplePolicyA, examplePolicyB]).2.count 0 = 1 ∧
      attachedPolicy (exampleRun exampleRepository [examplePolicyA, examplePolicyB]).1 0
        = examplePolicyB.ImagesPerReference :=
  ⟨exampleRun_ok _ _ (by decide),
    (attached_policy_is_of_last_retaining_policy insertionSortSlice insertionSortSlice_spec 0
      exampleRepository [examplePolicyA, examplePolicyB] _ _ (exampleRun_ok _ _ (by decide))).2
      examplePolicyA examplePolicyB 0 rfl (by decide) (by decide)⟩

/-- C7: a branch reference is in the final list of `getReferencesToScan` if
and only if it is among the survivors of at least one branch policy, a tag
reference if and only if it is among the survivors of at least one tag policy
(a policy without branch expression and with a tag expression), and no
reference is in the final list more than once. -/
theorem final_list_is_union_of_survivors
    (sortSlice : (Ptr → Ptr → Bool) → List Ptr → List Ptr) (hs : SortSliceSpec sortSlice)
    (now : Time) (gitRepository : Repository) (keepPolicies : List MetaCleanupKeepPolicy)
    (h' : Heap) (result : List Ptr)
    (hres : getReferencesToScan sortSlice now gitRepository keepPolicies = .ok (h', result)) :
    (∀ r, (h' r).Reference.IsTag = false →
        (r ∈ result ↔ ∃ p ∈ effectiveKeepPolicies keepPolicies,
          p.References.BranchRegexp.isSome = true ∧
            r ∈ policySurvivors sortSlice now (classifiedReferences gitRepository) p)) ∧
      (∀ r, (h' r).Reference.IsTag = true →
        (r ∈ result ↔ ∃ p ∈ effectiveKeepPolicies keepPolicies,
          p.References.BranchRegexp = none ∧ p.References.TagRegexp.isSome = true ∧
            r ∈ policySurvivors sortSlice now (classifiedReferences gitRepository) p)) ∧
      result.Nodup := by
  obtain ⟨_, sb, stg, hresult, _, _, hnb, hnt, htb, htt, hmb, hmt, _⟩ :=
    getReferencesToScan_facts sortSlice hs now gitRepository keepPolicies h' result hres
  refine ⟨?_, ?_, ?_⟩
  · intro r hr
    rw [← hmb r, hresult, List.mem_append]
    constructor
    · rintro (h1 | h1)
      · exact h1
      · rw [htt r h1] at hr
        exact Bool.noConfusion hr
    · exact fun h1 => Or.inl h1
  · intro r hr
    rw [← hmt r, hresult, List.mem_append]
    constructor
    · rintro (h1 | h1)
      · rw [htb r h1] at hr
        exact Bool.noConfusion hr
      · exact h1
    · exact fun h1 => Or.inr h1
  · rw [hresult]
    exact nodup_groups (fun r => (h' r).Reference.IsTag) sb stg htb htt hnb hnt

/-- Witness of C7: the default policies on the example repository. -/
theorem final_list_is_union_of_survivors_witness :
    getReferencesToScan insertionSortSlice 0 exampleRepository []
        = .ok ((exampleRun exampleRepository []).1, (exampleRun exampleRepository []).2) ∧
      (exampleRun exampleRepository []).2 = [0, 3, 2] ∧
      (∀ r, ((exampleRun exampleRepository []).1 r).Reference.IsTag = false →
        (r ∈ (exampleRun exampleRepository []).2 ↔ ∃ p ∈ effectiveKeepPolicies [],
          p.References.BranchRegexp.isSome = true ∧
            r ∈ policySurvivors insertionSortSlice 0 (classifiedReferences exampleRepository) p)) ∧
      (∀ r, ((exampleRun exampleRepository []).1 r).Reference.IsTag = true →
        (r ∈ (exampleRun exampleRepository []).2 ↔ ∃ p ∈ effectiveKeepPolicies [],
          p.References.BranchRegexp = none ∧ p.References.TagRegexp.isSome = true ∧
            r ∈ policySurvivors insertionSortSlice 0 (classifiedReferences exampleRepository) p)) ∧
      (exampleRun exampleRepository []).2.Nodup :=
  ⟨exampleRun_ok _ _ (by decide), by decide,
    final_list_is_union_of_survivors insertionSortSlice insertionSortSlice_spec 0
      exampleRepository [] _ _ (exampleRun_ok _ _ (by decide))⟩

/-- C8: the final list of `getReferencesToScan` is its branch references
followed by its tag references: a tag reference is never followed by a branch
reference. -/
theorem final_list_branches_then_tags
    (sortSlice : (Ptr → Ptr → Bool) → List Ptr → List Ptr) (hs : SortSliceSpec sortSlice)
    (now : Time) (gitRepository : Repository) (keepPolicies : List MetaCleanupKeepPolicy)
    (h' : Heap) (result : List Ptr)
    (hres : getReferencesToScan sortSlice now gitRepository keepPolicies = .ok (h', result)) :
    result = result.filter (fun r => !(h' r).Reference.IsTag)
        ++ result.filter (fun r => (h' r).Reference.IsTag) ∧
      result.Pairwise (fun a b => (h' a).Reference.IsTag = true → (h' b).Reference.IsTag = true) := by
  obtain ⟨_, sb, stg, hresult, _, _, _, _, htb, htt, _, _, _⟩ :=
    getReferencesToScan_facts sortSlice hs now gitRepository keepPolicies h' result hres
  obtain ⟨hfb, hft⟩ := filter_groups (fun r => (h' r).Reference.IsTag) sb stg htb htt
  constructor
  · rw [hresult, hfb, hft]
  · rw [hresult, List.pairwise_append]
    refine ⟨?_, ?_, ?_⟩
    · refine List.pairwise_of_forall_mem_list ?_
      intro a ha b _ hta
      rw [htb a ha] at hta
      exact Bool.noConfusion hta
    · refine List.pairwise_of_forall_mem_list ?_
      intro a _ b hb _
      exact htt b hb
    · intro a _ b hb _
      exact htt b hb

/-- Witness of C8: the default policies on the example repository give
`master`, then the tags `v2.0` and `v1.0`. -/
theorem final_list_branches_then_tags_witness :
    getReferencesToScan insertionSortSlice 0 exampleRepository []
        = .ok ((exampleRun exampleRepository []).1, (exampleRun exampleRepository []).2) ∧
      ((exampleRun exampleRepository []).2
        = (exampleRun exampleRepository []).2.filter
            (fun r => !((exampleRun exampleRepository []).1 r).Reference.IsTag)
          ++ (exampleRun exampleRepository []).2.filter
            (fun r => ((exampleRun exampleRepository []).1 r).Reference.IsTag) ∧
        (exampleRun exampleRepository []).2.Pairwise
          (fun a b => ((exampleRun exampleRepository []).1 a).Reference.IsTag = true →
            ((exampleRun exampleRepository []).1 b).Reference.IsTag = true)) :=
  ⟨exampleRun_ok _ _ (by decide),
    final_list_branches_then_tags insertionSortSlice insertionSortSlice_spec 0
      exampleRepository [] _ _ (exampleRun_ok _ _ (by decide))⟩

/-- C9 as stated fails: with the default policies and two branches at the same
commit, the branch group of the final list is made of the two branches, and
the `CreatedAt` of the first is not strictly later than that of the next. -/
theorem final_branch_group_not_strictly_descending :
    getReferencesToScan insertionSortSlice 0 exampleTieRepository []
        = .ok ((exampleRun exampleTieRepository []).1, (exampleRun exampleTieRepository []).2) ∧
      (exampleRun exampleTieRepository []).2.filter
          (fun r => !((exampleRun exampleTieRepository []).1 r).Reference.IsTag) = [0, 1] ∧
      ¬ (((exampleRun exampleTieRepository []).1 1).CreatedAt
          < ((exampleRun exampleTieRepository []).1 0).CreatedAt) :=
  ⟨exampleRun_ok _ _ (by decide), by decide, by decide⟩

/-- C9 as amended: within the branch group and within the tag group of the
final list of `getReferencesToScan`, `CreatedAt` is descending, not necessarily
strictly: no reference is older than a later reference of the same group. -/
theorem final_groups_descending
    (sortSlice : (Ptr → Ptr → Bool) → List Ptr → List Ptr) (hs : SortSliceSpec sortSlice)
    (now : Time) (gitRepository : Repository) (keepPolicies : List MetaCleanupKeepPolicy)
    (h' : Heap) (result : List Ptr)
    (hres : getReferencesToScan sortSlice now gitRepository keepPolicies = .ok (h', result)) :
    (result.filter (fun r => !(h' r).Reference.IsTag)).Pairwise
        (fun a b => (h' b).CreatedAt ≤ (h' a).CreatedAt) ∧
      (result.filter (fun r => (h' r).Reference.IsTag)).Pairwise
        (fun a b => (h' b).CreatedAt ≤ (h' a).CreatedAt) := by
  obtain ⟨_, sb, stg, hresult, hsb, hstg, _, _, htb, htt, _, _, _⟩ :=
    getReferencesToScan_facts sortSlice hs now gitRepository keepPolicies h' result hres
  obtain ⟨hfb, hft⟩ := filter_groups (fun r => (h' r).Reference.IsTag) sb stg htb htt
  rw [hresult, hfb, hft]
  exact ⟨hsb, hstg⟩

/-- Witness of C9 as amended: the default policies on the example repository. -/
theorem final_groups_descending_witness :
    getReferencesToScan insertionSortSlice 0 exampleRepository []
        = .ok ((exampleRun exampleRepository []).1, (exampleRun exampleRepository []).2) ∧
      (((exampleRun exampleRepository []).2.filter
          (fun r => !((exampleRun exampleRepository []).1 r).Reference.IsTag)).Pairwise
        (fun a b => ((exampleRun exampleRepository []).1 b).CreatedAt
          ≤ ((exampleRun exampleRepository []).1 a).CreatedAt) ∧
        ((exampleRun exampleRepository []).2.filter
          (fun r => ((exampleRun exampleRepository []).1 r).Reference.IsTag)).Pairwise
        (fun a b => ((exampleRun exampleRepository []).1 b).CreatedAt
          ≤ ((exampleRun exampleRepository []).1 a).CreatedAt)) :=
  ⟨exampleRun_ok _ _ (by decide),
    final_groups_descending insertionSortSlice insertionSortSlice_spec 0
      exampleRepository [] _ _ (exampleRun_ok _ _ (by decide))⟩


/-! ## Selection by pattern -/

theorem cutAtSlash_append (remote rest : List Char) (hremote : '/' ∉ remote) :
    cutAtSlash (remote ++ '/' :: rest) = some (remote, rest) := by
  induction remote with
  | nil => simp [cutAtSlash]
  | cons c cs ih =>
    have hc : ¬ c = '/' := fun hc => hremote (by simp [hc])
    have hcs : '/' ∉ cs := fun hcs => hremote (List.mem_cons_of_mem _ hcs)
    simp [cutAtSlash, hc, ih hcs]

theorem cutAtSlash_isSome (s : List Char) (hs : '/' ∈ s) : (cutAtSlash s).isSome = true := by
  induction s with
  | nil => exact absurd hs (List.not_mem_nil _)
  | cons c cs ih =>
    by_cases hc : c = '/'
    · simp [cutAtSlash, hc]
    · have hcs : '/' ∈ cs := by
        rcases List.mem_cons.1 hs with h1 | h1
        · exact absurd h1.symm hc
        · exact h1
      have := ih hcs
      cases hcut : cutAtSlash cs with
      | none => rw [hcut] at this; exact Bool.noConfusion this
      | some ab => simp [cutAtSlash, hc, hcut]

theorem stringsSplitN2_second_of_slash (s : String) (hs : '/' ∈ s.toList) :
    ((stringsSplitN2 s)[1]?).isSome = true := by
  unfold stringsSplitN2
  have := cutAtSlash_isSome s.toList hs
  cases hcut : cutAtSlash s.toList with
  | none => rw [hcut] at this; exact Bool.noConfusion this
  | some ab => simp

theorem stringsSplitN2_second_of_append (remote rest : String) (hremote : '/' ∉ remote.toList) :
    (stringsSplitN2 (remote ++ "/" ++ rest))[1]? = some rest := by
  unfold stringsSplitN2
  have hlist : (remote ++ "/" ++ rest).toList = remote.toList ++ '/' :: rest.toList := by
    simp [String.toList, String.data_append]
  rw [hlist, cutAtSlash_append _ _ hremote]
  simp [String.toList]

theorem selectBranchReferencesByRegexp_foldlM_eq (h : Heap) (re : Regexp)
    (branchesRefs init : List Ptr)
    (hall : ∀ r ∈ branchesRefs, ((stringsSplitN2 (h r).Reference.Short)[1]?).isSome = true) :
    branchesRefs.foldlM
      (fun result branchRef =>
        match (stringsSplitN2 (h branchRef).Reference.Short)[1]? with
        | none => none
        | some refShortNameWithoutRemote =>
          if re.MatchString refShortNameWithoutRemote then some (result ++ [branchRef])
          else some result)
      init
    = some (init ++ branchesRefs.filter (fun r =>
        match (stringsSplitN2 (h r).Reference.Short)[1]? with
        | none => false
        | some name => re.MatchString name)) := by
  induction branchesRefs generalizing init with
  | nil => simp
  | cons x xs ih =>
    have hx := hall x (List.mem_cons_self _ _)
    have hxs : ∀ r ∈ xs, ((stringsSplitN2 (h r).Reference.Short)[1]?).isSome = true :=
      fun r hr => hall r (List.mem_cons_of_mem _ hr)
    simp only [List.foldlM_cons]
    cases hname : (stringsSplitN2 (h x).Reference.Short)[1]? with
    | none => rw [hname] at hx; exact Bool.noConfusion hx
    | some name =>
      by_cases hm : re.MatchString name = true
      · simp only [hm, if_true, Option.some_bind, Option.bind_eq_bind]
        rw [ih _ hxs]
        simp [List.filter_cons, hname, hm]
      · have hm' : re.MatchString name = false := by simpa using hm
        simp only [hm', Bool.false_eq_true, if_false, Option.some_bind, Option.bind_eq_bind]
        rw [ih _ hxs]
        simp [List.filter_cons, hname, hm']

theorem selectBranchReferencesByRegexp_eq_filter (h : Heap) (re : Regexp) (branchesRefs : List Ptr)
    (hall : ∀ r ∈ branchesRefs, ((stringsSplitN2 (h r).Reference.Short)[1]?).isSome = true) :
    selectBranchReferencesByRegexp h branchesRefs re
      = some (branchesRefs.filter (fun r =>
          match (stringsSplitN2 (h r).Reference.Short)[1]? with
          | none => false
          | some name => re.MatchString name)) := by
  unfold selectBranchReferencesByRegexp
  rw [selectBranchReferencesByRegexp_foldlM_eq h re branchesRefs [] hall]
  simp


/-- C14: for every pattern, a branch reference whose short name is
`remote ++ "/" ++ rest`, `remote` being the first path segment, is selected by
`selectBranchReferencesByRegexp` if and only if the pattern matches `rest`
(`origin/feature/x` is tested as `feature/x`); a tag reference is selected by
`selectTagReferencesByRegexp` if and only if the pattern matches its full short
name. The branch selection returns whenever every short name has a `/`. -/
theorem selection_tests_name_after_first_segment (h : Heap) (branchesRefs tagsRefs : List Ptr)
    (re : Regexp) (hslash : ∀ r ∈ branchesRefs, '/' ∈ (h r).Reference.Short.toList) :
    (∃ res, selectBranchReferencesByRegexp h branchesRefs re = some res ∧
        ∀ r ∈ branchesRefs, ∀ remote rest : String,
          (h r).Reference.Short = remote ++ "/" ++ rest → '/' ∉ remote.toList →
            (r ∈ res ↔ re.MatchString rest = true)) ∧
      (∀ r ∈ tagsRefs,
        (r ∈ selectTagReferencesByRegexp h tagsRefs re
          ↔ re.MatchString (h r).Reference.Short = true)) ∧
      (stringsSplitN2 "origin/feature/x")[1]? = some "feature/x" := by
  refine ⟨⟨_, selectBranchReferencesByRegexp_eq_filter h re branchesRefs
    (fun r hr => stringsSplitN2_second_of_slash _ (hslash r hr)), ?_⟩, ?_, by decide⟩
  · intro r hr remote rest hshort hremote
    rw [List.mem_filter, hshort, stringsSplitN2_second_of_append remote rest hremote]
    simp [hr]
  · intro r hr
    rw [selectTagReferencesByRegexp_eq_filter, List.mem_filter]
    simp [hr]

/-- Witness of C14: the pattern that matches exactly `feature/x`. -/
theorem selection_tests_name_after_first_segment_witness :
    (∃ res, selectBranchReferencesByRegexp exampleHeapNames [0, 1, 2, 3]
          (exampleExactRegexp "feature/x") = some res ∧
        ∀ r ∈ [0, 1, 2, 3], ∀ remote rest : String,
          (exampleHeapNames r).Reference.Short = remote ++ "/" ++ rest → '/' ∉ remote.toList →
            (r ∈ res ↔ (exampleExactRegexp "feature/x").MatchString rest = true)) ∧
      (∀ r ∈ [4],
        (r ∈ selectTagReferencesByRegexp exampleHeapNames [4] (exampleExactRegexp "feature/x")
          ↔ (exampleExactRegexp "feature/x").MatchString (exampleHeapNames r).Reference.Short
              = true)) ∧
      (stringsSplitN2 "origin/feature/x")[1]? = some "feature/x" :=
  selection_tests_name_after_first_segment exampleHeapNames [0, 1, 2, 3] [4]
    (exampleExactRegexp "feature/x") (by decide)

/-- C15: whenever `selectBranchReferencesByRegexp` returns, its result is a
subsequence of the input (only input references, in their input order), and so
is the result of `selectTagReferencesByRegexp`. -/
theorem selection_results_are_subsequences (h : Heap) (branchesRefs tagsRefs : List Ptr)
    (re : Regexp) (res : List Ptr)
    (hres : selectBranchReferencesByRegexp h branchesRefs re = some res) :
    res.Sublist branchesRefs ∧ (selectTagReferencesByRegexp h tagsRefs re).Sublist tagsRefs :=
  ⟨selectBranchReferencesByRegexp_sublist h re branchesRefs res hres,
    selectTagReferencesByRegexp_sublist h re tagsRefs⟩

/-- Witness of C15: the pattern that matches exactly `release` selects the
first of four branches, and the only tag. -/
theorem selection_results_are_subsequences_witness :
    selectBranchReferencesByRegexp exampleHeapNames [0, 1, 2, 3] (exampleExactRegexp "release")
        = some [0] ∧
      ([0].Sublist [0, 1, 2, 3] ∧
        (selectTagReferencesByRegexp exampleHeapNames [4] (exampleExactRegexp "release")).Sublist
          [4]) :=
  ⟨by decide,
    selection_results_are_subsequences exampleHeapNames [0, 1, 2, 3] [4]
      (exampleExactRegexp "release") [0] (by decide)⟩


/-! ## Classification -/

theorem classifyReference_of_skipped (gitRepository : Repository) (reference : Reference)
    (hskip : isSkipped reference = true) : classifyReference gitRepository reference = .ok none := by
  obtain ⟨isRemote, isTag, short, hash⟩ := reference
  unfold isSkipped at hskip
  unfold classifyReference
  cases isRemote <;> cases isTag <;> simp at hskip ⊢
  · rcases hskip with hp | hz
    · simp [hp]
    · simp [hz]
  · simp [hskip]

theorem classifyReference_branch (gitRepository : Repository) (reference : Reference)
    (hskip : isSkipped reference = false) (htag : reference.IsTag = false) :
    classifyReference gitRepository reference =
      match gitRepository.CommitObject reference.Hash with
      | .error err => .error (Error.commitObjectFailed reference.Short reference.Hash err)
      | .ok refCommit =>
        .ok (some (newReferenceToScan reference refCommit.CommitterWhen refCommit (-1))) := by
  obtain ⟨isRemote, isTag, short, hash⟩ := reference
  simp only at htag
  subst htag
  unfold isSkipped at hskip
  unfold classifyReference
  cases isRemote <;> simp at hskip ⊢
  simp [hskip.1, hskip.2]

theorem classifyReference_tag (gitRepository : Repository) (reference : Reference)
    (hskip : isSkipped reference = false) (htag : reference.IsTag = true) :
    classifyReference gitRepository reference =
      match gitRepository.ResolveRevision reference.Hash with
      | .error err => .error (Error.resolveRevisionFailed reference.Short err)
      | .ok revHash =>
        match gitRepository.CommitObject revHash with
        | .error err => .error (Error.commitObjectFailed reference.Short revHash err)
        | .ok refCommit =>
          match gitRepository.TagObject reference.Hash with
          | .ok tagObject => .ok (some (newReferenceToScan reference tagObject.TaggerWhen refCommit 1))
          | .error GitError.ErrObjectNotFound =>
            .ok (some (newReferenceToScan reference refCommit.CommitterWhen refCommit 1))
          | .error err => .error (Error.tagObjectFailed reference.Hash err) := by
  obtain ⟨isRemote, isTag, short, hash⟩ := reference
  simp only at htag
  subst htag
  unfold isSkipped at hskip
  unfold classifyReference
  cases isRemote <;> simp at hskip ⊢
  simp [hskip]


theorem classifyReference_none_iff (gitRepository : Repository) (reference : Reference) :
    classifyReference gitRepository reference = .ok none ↔ isSkipped reference = true := by
  constructor
  · intro hcl
    by_cases hskip : isSkipped reference = true
    · exact hskip
    · have hskip' : isSkipped reference = false := by simpa using hskip
      exfalso
      by_cases htag : reference.IsTag = true
      · rw [classifyReference_tag gitRepository reference hskip' htag] at hcl
        cases h1 : gitRepository.ResolveRevision reference.Hash with
        | error err => simp [h1] at hcl
        | ok revHash =>
          cases h2 : gitRepository.CommitObject revHash with
          | error err => simp [h1, h2] at hcl
          | ok refCommit =>
            cases h3 : gitRepository.TagObject reference.Hash with
            | ok tagObject => simp [h1, h2, h3] at hcl
            | error err => cases err <;> simp [h1, h2, h3] at hcl
      · have htag' : reference.IsTag = false := by simpa using htag
        rw [classifyReference_branch gitRepository reference hskip' htag'] at hcl
        cases h1 : gitRepository.CommitObject reference.Hash with
        | error err => simp [h1] at hcl
        | ok refCommit => simp [h1] at hcl
  · exact classifyReference_of_skipped gitRepository reference

theorem classifyReference_some_facts (gitRepository : Repository) (reference : Reference)
    (r : referenceToScan) (hcl : classifyReference gitRepository reference = .ok (some r)) :
    isSkipped reference = false ∧ r.Reference = reference ∧
      r.referenceScanOptions.imagesCleanupKeepPolicy = MetaCleanupKeepPolicyImagesPerReference.zero ∧
      (reference.IsTag = false →
        ∃ refCommit, gitRepository.CommitObject reference.Hash = .ok refCommit ∧
          r.CreatedAt = refCommit.CommitterWhen ∧ r.HeadCommit = refCommit ∧
          r.referenceScanOptions.scanDepthLimit = -1) ∧
      (reference.IsTag = true →
        ∃ revHash refCommit, gitRepository.ResolveRevision reference.Hash = .ok revHash ∧
          gitRepository.CommitObject revHash = .ok refCommit ∧ r.HeadCommit = refCommit ∧
          r.referenceScanOptions.scanDepthLimit = 1 ∧
          ((∃ tagObject, gitRepository.TagObject reference.Hash = .ok tagObject ∧
              r.CreatedAt = tagObject.TaggerWhen) ∨
            (gitRepository.TagObject reference.Hash = .error GitError.ErrObjectNotFound ∧
              r.CreatedAt = refCommit.CommitterWhen))) := by
  have hskip : isSkipped reference = false := by
    by_cases hs : isSkipped reference = true
    · rw [classifyReference_of_skipped gitRepository reference hs] at hcl
      simp at hcl
    · simpa using hs
  refine ⟨hskip, ?_⟩
  by_cases htag : reference.IsTag = true
  · rw [classifyReference_tag gitRepository reference hskip htag] at hcl
    cases h1 : gitRepository.ResolveRevision reference.Hash with
    | error err => simp [h1] at hcl
    | ok revHash =>
      cases h2 : gitRepository.CommitObject revHash with
      | error err => simp [h1, h2] at hcl
      | ok refCommit =>
        cases h3 : gitRepository.TagObject reference.Hash with
        | ok tagObject =>
          simp only [h1, h2, h3, Except.ok.injEq, Option.some.injEq] at hcl
          subst hcl
          refine ⟨rfl, rfl, fun hcontra => ?_, fun _ => ⟨revHash, refCommit, rfl, h2, rfl, rfl,
            Or.inl ⟨tagObject, rfl, rfl⟩⟩⟩
          rw [htag] at hcontra
          exact Bool.noConfusion hcontra
        | error err =>
          cases err with
          | ErrObjectNotFound =>
            simp only [h1, h2, h3, Except.ok.injEq, Option.some.injEq] at hcl
            subst hcl
            refine ⟨rfl, rfl, fun hcontra => ?_, fun _ => ⟨revHash, refCommit, rfl, h2, rfl, rfl,
              Or.inr ⟨rfl, rfl⟩⟩⟩
            rw [htag] at hcontra
            exact Bool.noConfusion hcontra
          | other msg => simp [h1, h2, h3] at hcl
  · have htag' : reference.IsTag = false := by simpa using htag
    rw [classifyReference_branch gitRepository reference hskip htag'] at hcl
    cases h1 : gitRepository.CommitObject reference.Hash with
    | error err => simp [h1] at hcl
    | ok refCommit =>
      simp only [h1, Except.ok.injEq, Option.some.injEq] at hcl
      subst hcl
      exact ⟨rfl, rfl, fun _ => ⟨refCommit, rfl, rfl, rfl, rfl⟩, fun hcontra => absurd hcontra htag⟩

theorem classifyReferences_foldlM (gitRepository : Repository) (rs : List Reference)
    (init out : List referenceToScan)
    (hcl : rs.foldlM
      (fun refs reference =>
        match classifyReference gitRepository reference with
        | .error err => (.error err : Except Error (List referenceToScan))
        | .ok none => .ok refs
        | .ok (some r) => .ok (refs ++ [r]))
      init = .ok out) :
    ∃ l, out = init ++ l ∧
      List.Forall₂ (fun reference r => classifyReference gitRepository reference = .ok (some r))
        (rs.filter (fun reference => !isSkipped reference)) l := by
  induction rs generalizing init with
  | nil =>
    simp only [List.foldlM_nil] at hcl
    cases hcl
    exact ⟨[], by simp, by simp⟩
  | cons x xs ih =>
    simp only [List.foldlM_cons] at hcl
    cases hx : classifyReference gitRepository x with
    | error err =>
      rw [hx] at hcl
      cases hcl
    | ok o =>
      cases o with
      | none =>
        rw [hx] at hcl
        obtain ⟨l, hl, hall⟩ := ih init hcl
        have hskip := (classifyReference_none_iff gitRepository x).1 hx
        exact ⟨l, hl, by simpa [List.filter_cons, hskip] using hall⟩
      | some r =>
        rw [hx] at hcl
        obtain ⟨l, hl, hall⟩ := ih (init ++ [r]) hcl
        have hskip := (classifyReference_some_facts gitRepository x r hx).1
        refine ⟨r :: l, by simp [hl], ?_⟩
        simp only [List.filter_cons, hskip, Bool.not_false, if_true]
        exact List.Forall₂.cons hx hall


/-- C18: the classification loop appends exactly one record for every input
reference that it does not skip, in the input order; the record of a branch has
the committer time of its head commit as `CreatedAt`, the record of an
annotated tag (a tag object exists for its hash) the tagger time, and the
record of a lightweight tag the committer time of the commit it resolves to. -/
theorem classification_created_at (gitRepository : Repository) (rs : List Reference)
    (refs : List referenceToScan) (hcl : classifyReferences gitRepository rs = .ok refs) :
    List.Forall₂
      (fun reference r =>
        r.Reference = reference ∧
          (reference.IsTag = false →
            ∃ refCommit, gitRepository.CommitObject reference.Hash = .ok refCommit ∧
              r.CreatedAt = refCommit.CommitterWhen) ∧
          (reference.IsTag = true →
            ∃ revHash refCommit, gitRepository.ResolveRevision reference.Hash = .ok revHash ∧
              gitRepository.CommitObject revHash = .ok refCommit ∧
              ((∃ tagObject, gitRepository.TagObject reference.Hash = .ok tagObject ∧
                  r.CreatedAt = tagObject.TaggerWhen) ∨
                (gitRepository.TagObject reference.Hash = .error GitError.ErrObjectNotFound ∧
                  r.CreatedAt = refCommit.CommitterWhen))))
      (rs.filter (fun reference => !isSkipped reference)) refs := by
  obtain ⟨l, hl, hall⟩ := classifyReferences_foldlM gitRepository rs [] refs hcl
  simp only [List.nil_append] at hl
  subst hl
  refine hall.imp ?_
  intro reference r hr
  obtain ⟨_, href, _, hbranch, htag⟩ := classifyReference_some_facts gitRepository reference r hr
  refine ⟨href, ?_, ?_⟩
  · intro hb
    obtain ⟨refCommit, h1, h2, _⟩ := hbranch hb
    exact ⟨refCommit, h1, h2⟩
  · intro ht
    obtain ⟨revHash, refCommit, h1, h2, _, _, h3⟩ := htag ht
    exact ⟨revHash, refCommit, h1, h2, h3⟩

/-- Witness of C18: a branch, an annotated tag and a lightweight tag are
classified, three other references are skipped. -/
theorem classification_created_at_witness :
    classifyReferences exampleAnnotatedRepository
        [ { IsRemote := true, IsTag := false, Short := "origin/master", Hash := 1 },
          { IsRemote := true, IsTag := false, Short := "origin/HEAD", Hash := ZeroHash },
          { IsRemote := false, IsTag := false, Short := "topic", Hash := 1 },
          { IsRemote := true, IsTag := false, Short := "upstream/master", Hash := 1 },
          { IsRemote := false, IsTag := true, Short := "v1", Hash := 2 },
          { IsRemote := false, IsTag := true, Short := "v2", Hash := 4 } ]
      = .ok (classifiedReferences exampleAnnotatedRepository) ∧
    (classifiedReferences exampleAnnotatedRepository).map (fun r => (r.Reference.Short, r.CreatedAt))
      = [("origin/master", 10), ("v1", 20), ("v2", 7)] ∧
    List.Forall₂
      (fun reference r =>
        r.Reference = reference ∧
          (reference.IsTag = false →
            ∃ refCommit, exampleAnnotatedRepository.CommitObject reference.Hash = .ok refCommit ∧
              r.CreatedAt = refCommit.CommitterWhen) ∧
          (reference.IsTag = true →
            ∃ revHash refCommit,
              exampleAnnotatedRepository.ResolveRevision reference.Hash = .ok revHash ∧
              exampleAnnotatedRepository.CommitObject revHash = .ok refCommit ∧
              ((∃ tagObject, exampleAnnotatedRepository.TagObject reference.Hash = .ok tagObject ∧
                  r.CreatedAt = tagObject.TaggerWhen) ∨
                (exampleAnnotatedRepository.TagObject reference.Hash
                    = .error GitError.ErrObjectNotFound ∧
                  r.CreatedAt = refCommit.CommitterWhen))))
      ([ { IsRemote := true, IsTag := false, Short := "origin/master", Hash := 1 },
          { IsRemote := true, IsTag := false, Short := "origin/HEAD", Hash := ZeroHash },
          { IsRemote := false, IsTag := false, Short := "topic", Hash := 1 },
          { IsRemote := true, IsTag := false, Short := "upstream/master", Hash := 1 },
          { IsRemote := false, IsTag := true, Short := "v1", Hash := 2 },
          { IsRemote := false, IsTag := true, Short := "v2", Hash := 4 } ].filter
        (fun reference => !isSkipped reference))
      (classifiedReferences exampleAnnotatedRepository) :=
  ⟨rfl, by decide, classification_created_at exampleAnnotatedRepository _ _ rfl⟩


theorem classifyReference_zero_hash_branch (gitRepository : Repository) (reference : Reference)
    (htag : reference.IsTag = false) (hzero : reference.Hash = ZeroHash) :
    classifyReference gitRepository reference = .ok none := by
  apply classifyReference_of_skipped
  unfold isSkipped
  simp [htag, hzero]

theorem classifyReference_tag_not_skipped (gitRepository : Repository) (reference : Reference)
    (htag : reference.IsTag = true) (hremote : reference.IsRemote = false) :
    classifyReference gitRepository reference ≠ .ok none := by
  intro hcl
  have hskip := (classifyReference_none_iff gitRepository reference).1 hcl
  unfold isSkipped at hskip
  simp [htag, hremote] at hskip

/-- C19 (the claim fails on the code for tags): a tag whose hash is the zero
hash is not skipped; the callback resolves it like any other tag, and with a
repository that cannot resolve the zero hash `getReferencesToScan` returns the
error of the resolution. -/
theorem zero_hash_tag_is_not_skipped :
    isSkipped { IsRemote := false, IsTag := true, Short := "v0", Hash := ZeroHash } = false ∧
      classifyReference exampleZeroTagRepository
          { IsRemote := false, IsTag := true, Short := "v0", Hash := ZeroHash }
        = .error (Error.resolveRevisionFailed "v0" (GitError.other "reference not found")) ∧
      getReferencesToScan insertionSortSlice 0 exampleZeroTagRepository []
        = .error (Error.resolveRevisionFailed "v0" (GitError.other "reference not found")) :=
  ⟨by decide, rfl, rfl⟩


theorem classifyReference_error_iff (gitRepository : Repository) (reference : Reference)
    (hskip : isSkipped reference = false) :
    (∃ err, classifyReference gitRepository reference = .error err)
      ↔ resolutionFails gitRepository reference := by
  unfold resolutionFails
  by_cases htag : reference.IsTag = true
  · rw [classifyReference_tag gitRepository reference hskip htag, if_pos htag]
    cases h1 : gitRepository.ResolveRevision reference.Hash with
    | error err => simp
    | ok revHash =>
      cases h2 : gitRepository.CommitObject revHash with
      | error err => simp [h2]
      | ok refCommit =>
        cases h3 : gitRepository.TagObject reference.Hash with
        | ok tagObject => simp [h2]
        | error err => cases err <;> simp [h2]
  · have htag' : reference.IsTag = false := by simpa using htag
    rw [classifyReference_branch gitRepository reference hskip htag', if_neg htag]
    cases h1 : gitRepository.CommitObject reference.Hash with
    | error err => simp
    | ok refCommit => simp

theorem classifyReference_ne_panic (gitRepository : Repository) (reference : Reference) :
    classifyReference gitRepository reference ≠ .error Error.panic := by
  intro hcl
  by_cases hskip : isSkipped reference = true
  · rw [classifyReference_of_skipped gitRepository reference hskip] at hcl
    cases hcl
  · have hskip' : isSkipped reference = false := by simpa using hskip
    by_cases htag : reference.IsTag = true
    · rw [classifyReference_tag gitRepository reference hskip' htag] at hcl
      cases h1 : gitRepository.ResolveRevision reference.Hash with
      | error err => simp [h1] at hcl
      | ok revHash =>
        cases h2 : gitRepository.CommitObject revHash with
        | error err => simp [h1, h2] at hcl
        | ok refCommit =>
          cases h3 : gitRepository.TagObject reference.Hash with
          | ok tagObject => simp [h1, h2, h3] at hcl
          | error err => cases err <;> simp [h1, h2, h3] at hcl
    · have htag' : reference.IsTag = false := by simpa using htag
      rw [classifyReference_branch gitRepository reference hskip' htag'] at hcl
      cases h1 : gitRepository.CommitObject reference.Hash with
      | error err => simp [h1] at hcl
      | ok refCommit => simp [h1] at hcl

theorem classifyReferences_error_of_mem (gitRepository : Repository) (rs : List Reference)
    (init : List referenceToScan) (x : Reference) (hx : x ∈ rs) (err : Error)
    (herr : classifyReference gitRepository x = .error err) :
    ∃ err', rs.foldlM
      (fun refs reference =>
        match classifyReference gitRepository reference with
        | .error err => (.error err : Except Error (List referenceToScan))
        | .ok none => .ok refs
        | .ok (some r) => .ok (refs ++ [r]))
      init = .error err' := by
  induction rs generalizing init with
  | nil => exact absurd hx (List.not_mem_nil x)
  | cons y ys ih =>
    simp only [List.foldlM_cons]
    cases hy : classifyReference gitRepository y with
    | error err' => exact ⟨err', rfl⟩
    | ok o =>
      have hxys : x ∈ ys := by
        rcases List.mem_cons.1 hx with h1 | h1
        · rw [h1, hy] at herr
          cases herr
        · exact h1
      cases o with
      | none => exact ih init hxys
      | some r => exact ih (init ++ [r]) hxys

/-- C20: if a resolution fails for a reference that is not skipped,
`getReferencesToScan` returns an error and no list, whatever the other
references are; and when it returns a list, every reference that is not
skipped was classified. -/
theorem resolution_failure_aborts_the_run
    (sortSlice : (Ptr → Ptr → Bool) → List Ptr → List Ptr) (now : Time)
    (gitRepository : Repository) (keepPolicies : List MetaCleanupKeepPolicy)
    (rs : List Reference) (hrs : gitRepository.References = .ok rs) :
    (∀ x ∈ rs, isSkipped x = false → resolutionFails gitRepository x →
        ∃ err, getReferencesToScan sortSlice now gitRepository keepPolicies = .error err ∧
          err ≠ Error.panic) ∧
      (∀ res, getReferencesToScan sortSlice now gitRepository keepPolicies = .ok res →
        ∀ x ∈ rs, isSkipped x = false →
          ∃ r, classifyReference gitRepository x = .ok (some r)) := by
  have hpanic : ∀ (l : List Reference) (init : List referenceToScan),
      l.foldlM
        (fun refs reference =>
          match classifyReference gitRepository reference with
          | .error err => (.error err : Except Error (List referenceToScan))
          | .ok none => .ok refs
          | .ok (some r) => .ok (refs ++ [r]))
        init ≠ .error Error.panic := by
    intro l
    induction l with
    | nil => intro init hcontra; cases hcontra
    | cons y ys ih =>
      intro init
      simp only [List.foldlM_cons]
      cases hy : classifyReference gitRepository y with
      | error err' =>
        intro hcontra
        have herr' : (Except.error err' : Except Error (List referenceToScan))
            = .error Error.panic := hcontra
        have herr'' : err' = Error.panic := by
          injection herr'
        rw [herr''] at hy
        exact classifyReference_ne_panic gitRepository y hy
      | ok o =>
        cases o with
        | none => exact ih init
        | some r => exact ih (init ++ [r])
  constructor
  · intro x hx hskip hfail
    obtain ⟨err, herr⟩ := (classifyReference_error_iff gitRepository x hskip).2 hfail
    obtain ⟨err', herr'⟩ := classifyReferences_error_of_mem gitRepository rs [] x hx err herr
    refine ⟨err', ?_, ?_⟩
    · unfold getReferencesToScan classifyReferences
      rw [hrs]
      simp only
      rw [herr']
    · intro hcontra
      rw [hcontra] at herr'
      exact hpanic rs [] herr'
  · intro res hres x hx hskip
    unfold getReferencesToScan at hres
    rw [hrs] at hres
    simp only at hres
    cases hcl : classifyReferences gitRepository rs with
    | error err => simp [hcl] at hres
    | ok refs =>
      cases hx' : classifyReference gitRepository x with
      | error err =>
        obtain ⟨err', herr'⟩ := classifyReferences_error_of_mem gitRepository rs [] x hx err hx'
        unfold classifyReferences at hcl
        rw [hcl] at herr'
        cases herr'
      | ok o =>
        cases o with
        | none =>
          have := (classifyReference_none_iff gitRepository x).1 hx'
          rw [hskip] at this
          exact Bool.noConfusion this
        | some r => exact ⟨r, rfl⟩

/-- Witness of C20: the tag object of the second reference cannot be read. -/
theorem resolution_failure_aborts_the_run_witness :
    exampleBrokenRepository.References
        = .ok [ { IsRemote := true, IsTag := false, Short := "origin/master", Hash := 1 },
                { IsRemote := false, IsTag := true, Short := "v1", Hash := 2 } ] ∧
      getReferencesToScan insertionSortSlice 0 exampleBrokenRepository []
        = .error (Error.tagObjectFailed 2 (GitError.other "unexpected EOF")) ∧
      ((∀ x ∈ [ ({ IsRemote := true, IsTag := false, Short := "origin/master", Hash := 1 } : Reference),
                { IsRemote := false, IsTag := true, Short := "v1", Hash := 2 } ],
          isSkipped x = false → resolutionFails exampleBrokenRepository x →
            ∃ err, getReferencesToScan insertionSortSlice 0 exampleBrokenRepository []
                = .error err ∧ err ≠ Error.panic) ∧
        (∀ res, getReferencesToScan insertionSortSlice 0 exampleBrokenRepository [] = .ok res →
          ∀ x ∈ [ ({ IsRemote := true, IsTag := false, Short := "origin/master", Hash := 1 } : Reference),
                  { IsRemote := false, IsTag := true, Short := "v1", Hash := 2 } ],
            isSkipped x = false →
              ∃ r, classifyReference exampleBrokenRepository x = .ok (some r))) :=
  ⟨rfl, rfl,
    resolution_failure_aborts_the_run insertionSortSlice 0 exampleBrokenRepository [] _ rfl⟩


/-! ## The instance of the package `regexp` -/

theorem regexpSpecial_of_tokenized (c : Char)
    (hc : c = '\\' ∨ c = '^' ∨ c = '$' ∨ c = '.' ∨ c = '*') : regexpSpecial c = true := by
  rcases hc with h | h | h | h | h <;> subst h <;> decide

theorem tokenize_quoteMetaChars (s t : List Char) :
    tokenize (quoteMetaChars s ++ t)
      = s.map (fun c => RegexpToken.atom (.lit c)) ++ tokenize t := by
  unfold tokenize
  induction s with
  | nil => simp [quoteMetaChars]
  | cons c cs ih =>
    by_cases hc : regexpSpecial c = true
    · simp [quoteMetaChars, hc, tokenizeFrom, ih]
    · have h1 : ¬ c = '\\' := fun h => hc (regexpSpecial_of_tokenized c (Or.inl h))
      have h2 : ¬ c = '^' := fun h => hc (regexpSpecial_of_tokenized c (Or.inr (Or.inl h)))
      have h3 : ¬ c = '$' := fun h => hc (regexpSpecial_of_tokenized c (Or.inr (Or.inr (Or.inl h))))
      have h4 : ¬ c = '.' :=
        fun h => hc (regexpSpecial_of_tokenized c (Or.inr (Or.inr (Or.inr (Or.inl h)))))
      have h5 : ¬ c = '*' :=
        fun h => hc (regexpSpecial_of_tokenized c (Or.inr (Or.inr (Or.inr (Or.inr h)))))
      simp [quoteMetaChars, hc, tokenizeFrom, ih, h1, h2, h3, h4, h5]

theorem foldr_parseStep_literal (w : List Char) (k : Regexp) :
    (w.map (fun c => RegexpToken.atom (.lit c))).foldr parseStep (some (k, false))
      = some (Regexp.literalThen k w, false) := by
  induction w with
  | nil => rfl
  | cons c cs ih =>
    simp only [List.map_cons, List.foldr_cons, ih]
    rfl

theorem parseTokens_anchored_quote (w : List Char) :
    parseTokens (tokenize ('^' :: (quoteMetaChars w ++ ['$'])))
      = some (.cat .beginText (Regexp.literalThen (.cat .endText .emptyMatch) w)) := by
  have htail : tokenize ['$'] = [RegexpToken.atom .endText] := by decide
  have hhead : tokenize ('^' :: (quoteMetaChars w ++ ['$']))
      = RegexpToken.atom .beginText :: tokenize (quoteMetaChars w ++ ['$']) := by
    simp [tokenize, tokenizeFrom]
  rw [hhead, tokenize_quoteMetaChars, htail]
  unfold parseTokens
  simp only [List.foldr_cons, List.foldr_append, List.foldr_nil]
  have hend : parseStep (RegexpToken.atom .endText) (some (.emptyMatch, false))
      = some (.cat .endText .emptyMatch, false) := rfl
  rw [hend, foldr_parseStep_literal]
  rfl

theorem mem_ends_literalThen (k : Regexp) (w : List Char) (p q : TextPos) :
    q ∈ (Regexp.literalThen k w).ends p
      ↔ ∃ rest, p.2 = w ++ rest ∧ q ∈ k.ends (p.1 + w.length, rest) := by
  induction w generalizing p with
  | nil =>
    obtain ⟨i, cs⟩ := p
    simp [Regexp.literalThen]
  | cons c w ih =>
    obtain ⟨i, cs⟩ := p
    simp only [Regexp.literalThen, mem_ends_cat]
    cases cs with
    | nil => simp [Regexp.ends]
    | cons d cs =>
      by_cases hd : d = c
      · subst hd
        simp only [Regexp.ends, if_true, List.mem_singleton, exists_eq_left, ih, List.cons_append,
          List.cons.injEq, true_and, List.length_cons]
        have hlen : i + 1 + w.length = i + (w.length + 1) := by omega
        rw [hlen]
      · simp [Regexp.ends, hd]

theorem mem_ends_anchored_literal (w : List Char) (i : Nat) (cs : List Char) (q : TextPos) :
    q ∈ (Regexp.cat .beginText (Regexp.literalThen (.cat .endText .emptyMatch) w)).ends (i, cs)
      ↔ i = 0 ∧ cs = w ∧ q = (w.length, []) := by
  simp only [mem_ends_cat, mem_ends_beginText, mem_ends_literalThen, mem_ends_endText]
  constructor
  · rintro ⟨p, ⟨hi, hp⟩, rest, hrest, m, ⟨hm1, hm2⟩, hq⟩
    subst hp hm2
    simp only at hi hrest hm1
    subst hm1
    simp only [Regexp.ends, List.mem_singleton] at hq
    subst hi
    simp only [List.append_nil] at hrest
    exact ⟨rfl, hrest, by simpa using hq⟩
  · rintro ⟨hi, hcs, hq⟩
    subst hi hcs hq
    exact ⟨(0, cs), ⟨rfl, rfl⟩, [], by simp, (cs.length, []), ⟨rfl, by simp⟩, by simp [Regexp.ends]⟩

theorem matchString_anchored_literal (w : List Char) (n : String) :
    (Regexp.cat .beginText (Regexp.literalThen (.cat .endText .emptyMatch) w)).MatchString n = true
      ↔ n.toList = w := by
  have hlater : ∀ (cs : List Char) (i : Nat),
      (Regexp.cat .beginText (Regexp.literalThen (.cat .endText .emptyMatch) w)).searchFrom
        (i + 1) cs = false := by
    intro cs
    induction cs with
    | nil =>
      intro i
      simp only [Regexp.searchFrom]
      rw [Bool.eq_false_iff]
      intro hcontra
      obtain ⟨q, hq⟩ := (isEmpty_eq_false_iff_exists_mem _).1 hcontra
      have := ((mem_ends_anchored_literal w _ _ q).1 hq).1
      omega
    | cons c cs ih =>
      intro i
      simp only [Regexp.searchFrom, ih, Bool.or_false]
      rw [Bool.eq_false_iff]
      intro hcontra
      obtain ⟨q, hq⟩ := (isEmpty_eq_false_iff_exists_mem _).1 hcontra
      have := ((mem_ends_anchored_literal w _ _ q).1 hq).1
      omega
  unfold Regexp.MatchString
  generalize n.toList = cs
  have hfirst : (!((Regexp.cat .beginText
      (Regexp.literalThen (.cat .endText .emptyMatch) w)).ends (0, cs)).isEmpty) = true
        ↔ cs = w := by
    rw [isEmpty_eq_false_iff_exists_mem]
    constructor
    · rintro ⟨q, hq⟩
      exact ((mem_ends_anchored_literal w _ _ q).1 hq).2.1
    · intro hcs
      exact ⟨(w.length, []), (mem_ends_anchored_literal w _ _ _).2 ⟨rfl, hcs, rfl⟩⟩
  cases cs with
  | nil =>
    simp only [Regexp.searchFrom]
    exact hfirst
  | cons c cs =>
    simp only [Regexp.searchFrom, hlater, Bool.or_false]
    exact hfirst

theorem exampleRegexpPackage_quotedIsExact : exampleRegexpPackage.QuotedIsExact := by
  intro s
  refine ⟨.cat .beginText (Regexp.literalThen (.cat .endText .emptyMatch) s.toList), ?_, ?_⟩
  · show parseTokens (tokenize ("^" ++ String.mk (quoteMetaChars s.toList) ++ "$").toList) = _
    have hlist : ("^" ++ String.mk (quoteMetaChars s.toList) ++ "$").toList
        = '^' :: (quoteMetaChars s.toList ++ ['$']) := by
      simp [String.toList, String.data_append]
    rw [hlist, parseTokens_anchored_quote]
  · intro n
    rw [matchString_anchored_literal]
    exact String.ext_iff.symm


/-! ## The loader -/

/-- C13: for every selector string `s` that is not written between `/`
delimiters (it does not both begin and end with `/`) and every name `n`,
`processRegexpString` returns a pattern, and the pattern matches `n` if and
only if `n` equals `s`; the package `regexp` is any one that keeps its promise
for a quoted text between `^` and `$`. -/
theorem bare_literal_selector_matches_exact_name (lib : RegexpPackage)
    (hlib : lib.QuotedIsExact) (name s : String)
    (hbare : ¬ (stringsHasPrefix s "/" = true ∧ stringsHasSuffix s "/" = true)) :
    ∃ re, processRegexpString lib name s = .ok re ∧
      ∀ n : String, re.MatchString n = true ↔ n = s := by
  obtain ⟨re, hre, hmatch⟩ := hlib s
  refine ⟨re, ?_, hmatch⟩
  have hvalue : processRegexpStringValue lib s = "^" ++ lib.QuoteMeta s ++ "$" := by
    unfold processRegexpStringValue
    by_cases h1 : stringsHasPrefix s "/" = true
    · by_cases h2 : stringsHasSuffix s "/" = true
      · exact absurd ⟨h1, h2⟩ hbare
      · simp [h1, h2]
    · simp [h1]
  unfold processRegexpString
  rw [hvalue, hre]

/-- Witness of C13: the selector `release` selects the branch `release` and
neither `release-2` nor `my-release`. -/
theorem bare_literal_selector_matches_exact_name_witness :
    (∃ re, processRegexpString exampleRegexpPackage "branch" "release" = .ok re ∧
        ∀ n : String, re.MatchString n = true ↔ n = "release") ∧
      (∃ re, processRegexpString exampleRegexpPackage "branch" "release" = .ok re ∧
        selectBranchReferencesByRegexp exampleHeapNames [0, 1, 2, 3] re = some [0]) :=
  ⟨bare_literal_selector_matches_exact_name exampleRegexpPackage
      exampleRegexpPackage_quotedIsExact "branch" "release" (by decide),
    ⟨_, rfl, by decide⟩⟩


theorem processRegexpString_error_iff (lib : RegexpPackage) (name configValue : String) :
    (∃ err, processRegexpString lib name configValue = .error err)
      ↔ lib.Compile (processRegexpStringValue lib configValue) = none := by
  unfold processRegexpString
  cases lib.Compile (processRegexpStringValue lib configValue) <;> simp

theorem processRegexpString_ok_iff (lib : RegexpPackage) (name configValue : String)
    (regex : Regexp) :
    processRegexpString lib name configValue = .ok regex
      ↔ lib.Compile (processRegexpStringValue lib configValue) = some regex := by
  unfold processRegexpString
  cases lib.Compile (processRegexpStringValue lib configValue) <;> simp

/-- C16 as stated fails: a references section that declares the tag `v1`, no
branch and an attribute that the section does not know is not loaded, although
tag and branch are neither both empty nor both non-empty and the pattern
compiles. -/
theorem references_section_with_unknown_attribute_fails :
    rawMetaCleanupKeepPolicyReferences.UnmarshalYAML exampleRegexpPackage exampleCheckOverflow
        (.ok { Tag := "v1", Branch := "", Limit := none, UnsupportedAttributes := ["unknown"] })
      = .error "unknown fields: unknown" ∧
      ¬ (("v1" : String) = "" ∧ ("" : String) = "") ∧
      ¬ (("v1" : String) ≠ "" ∧ ("" : String) ≠ "") ∧
      (exampleRegexpPackage.Compile (processRegexpStringValue exampleRegexpPackage "v1")).isSome
        = true :=
  ⟨rfl, by decide, by decide, by decide⟩

/-- C16 as amended: loading a references section fails if and only if the
decoding fails, or `checkOverflow` reports an error for the attributes the
section does not know, or tag and branch are both empty, or both non-empty, or
the declared pattern does not compile; when it succeeds, exactly one of
`BranchRegexp` and `TagRegexp` is set, the one of the declared kind, to the
compiled pattern. -/
theorem references_section_loading (lib : RegexpPackage)
    (checkOverflow : List String → Option ConfigError)
    (unmarshal : Except ConfigError plainMetaCleanupKeepPolicyReferences) :
    ((∃ err, rawMetaCleanupKeepPolicyReferences.UnmarshalYAML lib checkOverflow unmarshal
          = .error err) ↔
        (∃ err, unmarshal = .error err) ∨
          (∃ c, unmarshal = .ok c ∧
            ((∃ err, checkOverflow c.UnsupportedAttributes = some err) ∨
              (c.Tag = "" ∧ c.Branch = "") ∨ (c.Tag ≠ "" ∧ c.Branch ≠ "") ∨
              lib.Compile (processRegexpStringValue lib (if c.Branch ≠ "" then c.Branch else c.Tag))
                = none))) ∧
      (∀ c', rawMetaCleanupKeepPolicyReferences.UnmarshalYAML lib checkOverflow unmarshal = .ok c' →
        (c'.Branch ≠ "" →
          c'.Tag = "" ∧ c'.TagRegexp = none ∧ c'.BranchRegexp.isSome = true ∧
            c'.BranchRegexp = lib.Compile (processRegexpStringValue lib c'.Branch)) ∧
        (c'.Branch = "" →
          c'.Tag ≠ "" ∧ c'.BranchRegexp = none ∧ c'.TagRegexp.isSome = true ∧
            c'.TagRegexp = lib.Compile (processRegexpStringValue lib c'.Tag))) := by
  unfold rawMetaCleanupKeepPolicyReferences.UnmarshalYAML
  cases unmarshal with
  | error err => simp
  | ok c =>
    cases hco : checkOverflow c.UnsupportedAttributes with
    | some err => simp [hco]
    | none =>
      by_cases htag : c.Tag = ""
      · by_cases hbranch : c.Branch = ""
        · simp [hco, htag, hbranch]
        · cases hb : lib.Compile (processRegexpStringValue lib c.Branch) with
          | none =>
            have he := (processRegexpString_error_iff lib "branch" c.Branch).2 hb
            obtain ⟨err, herr⟩ := he
            simp [hco, htag, hbranch, herr, hb]
          | some regex =>
            have hok := (processRegexpString_ok_iff lib "branch" c.Branch regex).2 hb
            simp [hco, htag, hbranch, hok, hb]
      · by_cases hbranch : c.Branch = ""
        · cases hb : lib.Compile (processRegexpStringValue lib c.Tag) with
          | none =>
            have he := (processRegexpString_error_iff lib "tag" c.Tag).2 hb
            obtain ⟨err, herr⟩ := he
            simp [hco, htag, hbranch, herr, hb]
          | some regex =>
            have hok := (processRegexpString_ok_iff lib "tag" c.Tag regex).2 hb
            simp [hco, htag, hbranch, hok, hb]
        · simp [hco, htag, hbranch]


/-- C17: a references limit, and an images-per-reference limit, that is
decoded with both bounds and no operator is loaded with the operator `And`,
which is converted to `AndOperator`; an operator that is given as `And` or `Or`
is kept as given and converted to the operator of the same name (any other
given operator makes the loading fail); and a limit with at most one bound and
no operator keeps its operator unset. -/
theorem limit_operator_defaults_to_and (checkOverflow : List String → Option ConfigError)
    (c : rawMetaCleanupKeepPolicyReferencesLimit) (ci : rawMetaCleanupKeepPolicyImagesPerReference)
    (hc : checkOverflow c.UnsupportedAttributes = none)
    (hci : checkOverflow ci.UnsupportedAttributes = none) :
    ((c.Operator = none → c.Last.isSome = true → c.CreatedIn.isSome = true →
          rawMetaCleanupKeepPolicyReferencesLimit.UnmarshalYAML checkOverflow (.ok c)
            = .ok { c with Operator := some "And" } ∧
          ({ c with Operator := some "And" }
            : rawMetaCleanupKeepPolicyReferencesLimit).toMetaCleanupKeepPolicyLimit.Operator
            = some Operator.And) ∧
        (∀ op, c.Operator = some op → op = "And" ∨ op = "Or" →
          rawMetaCleanupKeepPolicyReferencesLimit.UnmarshalYAML checkOverflow (.ok c) = .ok c ∧
          c.toMetaCleanupKeepPolicyLimit.Operator
            = some (if op = "And" then Operator.And else Operator.Or)) ∧
        (∀ op, c.Operator = some op → op ≠ "And" → op ≠ "Or" →
          ∃ err, rawMetaCleanupKeepPolicyReferencesLimit.UnmarshalYAML checkOverflow (.ok c)
            = .error err) ∧
        (c.Operator = none → c.Last = none ∨ c.CreatedIn = none →
          rawMetaCleanupKeepPolicyReferencesLimit.UnmarshalYAML checkOverflow (.ok c) = .ok c ∧
          c.toMetaCleanupKeepPolicyLimit.Operator = none)) ∧
      ((ci.Operator = none → ci.Last.isSome = true → ci.PublishedIn.isSome = true →
          rawMetaCleanupKeepPolicyImagesPerReference.UnmarshalYAML checkOverflow (.ok ci)
            = .ok { ci with Operator := some "And" } ∧
          ({ ci with Operator := some "And" }
            : rawMetaCleanupKeepPolicyImagesPerReference).toMetaCleanupKeepPolicyImagesPerReference.MetaCleanupKeepPolicyLimit.Operator
            = some Operator.And) ∧
        (∀ op, ci.Operator = some op → op = "And" ∨ op = "Or" →
          rawMetaCleanupKeepPolicyImagesPerReference.UnmarshalYAML checkOverflow (.ok ci) = .ok ci ∧
          ci.toMetaCleanupKeepPolicyImagesPerReference.MetaCleanupKeepPolicyLimit.Operator
            = some (if op = "And" then Operator.And else Operator.Or)) ∧
        (∀ op, ci.Operator = some op → op ≠ "And" → op ≠ "Or" →
          ∃ err, rawMetaCleanupKeepPolicyImagesPerReference.UnmarshalYAML checkOverflow (.ok ci)
            = .error err) ∧
        (ci.Operator = none → ci.Last = none ∨ ci.PublishedIn = none →
          rawMetaCleanupKeepPolicyImagesPerReference.UnmarshalYAML checkOverflow (.ok ci) = .ok ci ∧
          ci.toMetaCleanupKeepPolicyImagesPerReference.MetaCleanupKeepPolicyLimit.Operator = none)) := by
  refine ⟨⟨?_, ?_, ?_, ?_⟩, ⟨?_, ?_, ?_, ?_⟩⟩
  · intro hop hlast hin
    unfold rawMetaCleanupKeepPolicyReferencesLimit.UnmarshalYAML
      rawMetaCleanupKeepPolicyReferencesLimit.toMetaCleanupKeepPolicyLimit
    simp [hc, hop, hlast, hin]
  · intro op hop hvalid
    unfold rawMetaCleanupKeepPolicyReferencesLimit.UnmarshalYAML
      rawMetaCleanupKeepPolicyReferencesLimit.toMetaCleanupKeepPolicyLimit
    rcases hvalid with h | h <;> subst h <;> simp [hc, hop]
  · intro op hop h1 h2
    unfold rawMetaCleanupKeepPolicyReferencesLimit.UnmarshalYAML
    simp [hc, hop, h1, h2]
  · intro hop hbound
    unfold rawMetaCleanupKeepPolicyReferencesLimit.UnmarshalYAML
      rawMetaCleanupKeepPolicyReferencesLimit.toMetaCleanupKeepPolicyLimit
    rcases hbound with h | h <;> simp [hc, hop, h]
  · intro hop hlast hin
    unfold rawMetaCleanupKeepPolicyImagesPerReference.UnmarshalYAML
      rawMetaCleanupKeepPolicyImagesPerReference.toMetaCleanupKeepPolicyImagesPerReference
    simp [hci, hop, hlast, hin]
  · intro op hop hvalid
    unfold rawMetaCleanupKeepPolicyImagesPerReference.UnmarshalYAML
      rawMetaCleanupKeepPolicyImagesPerReference.toMetaCleanupKeepPolicyImagesPerReference
    rcases hvalid with h | h <;> subst h <;> simp [hci, hop]
  · intro op hop h1 h2
    unfold rawMetaCleanupKeepPolicyImagesPerReference.UnmarshalYAML
    simp [hci, hop, h1, h2]
  · intro hop hbound
    unfold rawMetaCleanupKeepPolicyImagesPerReference.UnmarshalYAML
      rawMetaCleanupKeepPolicyImagesPerReference.toMetaCleanupKeepPolicyImagesPerReference
    rcases hbound with h | h <;> simp [hci, hop, h]

/-- Witness of C17: a references limit `last: 10, createdIn: 168h` and an
images-per-reference limit `last: 2, publishedIn: 168h, operator: Or`. -/
theorem limit_operator_defaults_to_and_witness :
    (rawMetaCleanupKeepPolicyReferencesLimit.UnmarshalYAML exampleCheckOverflow
          (.ok { Last := some 10, CreatedIn := some (Hour * 168), Operator := none })
        = .ok { Last := some 10, CreatedIn := some (Hour * 168), Operator := some "And" } ∧
      ({ Last := some 10, CreatedIn := some (Hour * 168), Operator := some "And" }
        : rawMetaCleanupKeepPolicyReferencesLimit).toMetaCleanupKeepPolicyLimit.Operator
        = some Operator.And) ∧
    (rawMetaCleanupKeepPolicyImagesPerReference.UnmarshalYAML exampleCheckOverflow
          (.ok { Last := some 2, PublishedIn := some (Hour * 168), Operator := some "Or" })
        = .ok { Last := some 2, PublishedIn := some (Hour * 168), Operator := some "Or" } ∧
      ({ Last := some 2, PublishedIn := some (Hour * 168), Operator := some "Or" }
        : rawMetaCleanupKeepPolicyImagesPerReference).toMetaCleanupKeepPolicyImagesPerReference.MetaCleanupKeepPolicyLimit.Operator
        = some (if ("Or" : String) = "And" then Operator.And else Operator.Or)) :=
  ⟨(limit_operator_defaults_to_and exampleCheckOverflow
      { Last := some 10, CreatedIn := some (Hour * 168), Operator := none }
      { Last := some 2, PublishedIn := some (Hour * 168), Operator := some "Or" } rfl rfl).1.1
      rfl rfl rfl,
    (limit_operator_defaults_to_and exampleCheckOverflow
      { Last := some 10, CreatedIn := some (Hour * 168), Operator := none }
      { Last := some 2, PublishedIn := some (Hour * 168), Operator := some "Or" } rfl rfl).2.2.1
      "Or" rfl (Or.inr rfl)⟩


/-! ## When the run returns a list -/

theorem applyReferencesLimit_isSome (sortSlice : (Ptr → Ptr → Bool) → List Ptr → List Ptr)
    (now : Time) (h : Heap) (refs : List Ptr) (limit : Option MetaCleanupKeepPolicyLimit)
    (hlast : ∀ l n, limit = some l → l.Last = some n → -1 ≤ n) :
    ∃ res, applyReferencesLimit sortSlice now h refs limit = some res := by
  unfold applyReferencesLimit
  cases limit with
  | none => exact ⟨refs, rfl⟩
  | some l =>
    cases hl : l.Last with
    | none =>
      simp only [hl]
      by_cases hin : l.In.isNone = true
      · simp [hin]
      · simp [hin]
    | some n =>
      have hn := hlast l n rfl hl
      have hsome := (filterReferencesByLast_isSome_iff sortSlice h refs n).2 hn
      cases hcount : filterReferencesByLast sortSlice h refs n with
      | none => rw [hcount] at hsome; exact Bool.noConfusion hsome
      | some byCount =>
        simp only [hl, hcount]
        by_cases hin : l.In.isNone = true
        · simp [hin]
        · by_cases hop : l.Operator = some Operator.Or
          · simp [hin, hop]
          · simp [hin, hop]

theorem policyReferences_isSome (sortSlice : (Ptr → Ptr → Bool) → List Ptr → List Ptr)
    (now : Time) (b t : List Ptr) (h : Heap) (policy : MetaCleanupKeepPolicy)
    (hslash : ∀ r ∈ b, ((stringsSplitN2 (h r).Reference.Short)[1]?).isSome = true)
    (hlast : ∀ l n, policy.References.Limit = some l → l.Last = some n → -1 ≤ n) :
    ∃ res, policyReferences sortSlice now b t h policy = some res := by
  unfold policyReferences
  cases policy.References.BranchRegexp with
  | some re =>
    simp only [selectBranchReferencesByRegexp_eq_filter h re b hslash, applyCleanupKeepPolicy]
    obtain ⟨res, hres⟩ := applyReferencesLimit_isSome sortSlice now h
      (b.filter (fun r =>
        match (stringsSplitN2 (h r).Reference.Short)[1]? with
        | none => false
        | some name => re.MatchString name)) policy.References.Limit hlast
    rw [hres]
    exact ⟨_, rfl⟩
  | none =>
    cases policy.References.TagRegexp with
    | some re =>
      simp only [applyCleanupKeepPolicy]
      obtain ⟨res, hres⟩ := applyReferencesLimit_isSome sortSlice now h
        (selectTagReferencesByRegexp h t re) policy.References.Limit hlast
      rw [hres]
      exact ⟨_, rfl⟩
    | none => exact ⟨_, rfl⟩

theorem policyStep_isSome (sortSlice : (Ptr → Ptr → Bool) → List Ptr → List Ptr)
    (now : Time) (b t : List Ptr) (st : PolicyLoopState) (policy : MetaCleanupKeepPolicy)
    (hslash : ∀ r ∈ b, ((stringsSplitN2 (st.heap r).Reference.Short)[1]?).isSome = true)
    (hlast : ∀ l n, policy.References.Limit = some l → l.Last = some n → -1 ≤ n) :
    ∃ st1, policyStep sortSlice now b t st policy = some st1 := by
  obtain ⟨res, hres⟩ := policyReferences_isSome sortSlice now b t st.heap policy hslash hlast
  unfold policyStep
  rw [hres]
  obtain ⟨heap, policyRefs⟩ := res
  by_cases hb : policy.References.BranchRegexp.isSome = true
  · simp [hb]
  · by_cases ht : policy.References.TagRegexp.isSome = true
    · simp [hb, ht]
    · simp [hb, ht]

theorem policyLoop_isSome (sortSlice : (Ptr → Ptr → Bool) → List Ptr → List Ptr)
    (hs : SortSliceSpec sortSlice) (now : Time) (b t : List Ptr) (h0 : Heap)
    (hslash : ∀ r ∈ b, ((stringsSplitN2 (h0 r).Reference.Short)[1]?).isSome = true)
    (policies : List MetaCleanupKeepPolicy)
    (hlast : ∀ p ∈ policies, ∀ l n, p.References.Limit = some l → l.Last = some n → -1 ≤ n)
    (st : PolicyLoopState) (hbase : sameReferences h0 st.heap) :
    ∃ st', policyLoop sortSlice now b t st policies = some st' := by
  induction policies generalizing st with
  | nil => exact ⟨st, rfl⟩
  | cons p ps ih =>
    have hslash' : ∀ r ∈ b, ((stringsSplitN2 (st.heap r).Reference.Short)[1]?).isSome = true := by
      intro r hr
      rw [(hbase r).1]
      exact hslash r hr
    obtain ⟨st1, hstep⟩ := policyStep_isSome sortSlice now b t st p hslash'
      (hlast p (List.mem_cons_self _ _))
    have hspec := policyLoop_spec sortSlice hs now b t h0 [p] st st1 hbase (by
      unfold policyLoop
      simp only [List.foldlM_cons, List.foldlM_nil, hstep]
      rfl)
    obtain ⟨st', hloop⟩ := ih (fun q hq => hlast q (List.mem_cons_of_mem _ hq)) st1 hspec.1
    refine ⟨st', ?_⟩
    unfold policyLoop at hloop ⊢
    simp only [List.foldlM_cons, hstep]
    exact hloop


theorem forall₂_right_mem {α β : Type} (R : α → β → Prop) (l1 : List α) (l2 : List β)
    (hall : List.Forall₂ R l1 l2) (b : β) (hb : b ∈ l2) : ∃ a ∈ l1, R a b := by
  induction hall with
  | nil => exact absurd hb (List.not_mem_nil b)
  | cons hab _ ih =>
    rcases List.mem_cons.1 hb with h1 | h1
    · subst h1
      exact ⟨_, List.mem_cons_self _ _, hab⟩
    · obtain ⟨a, ha, hr⟩ := ih h1
      exact ⟨a, List.mem_cons_of_mem _ ha, hr⟩

theorem classifyReferences_mem_not_skipped (gitRepository : Repository) (rs : List Reference)
    (refs : List referenceToScan) (hcl : classifyReferences gitRepository rs = .ok refs)
    (r : referenceToScan) (hr : r ∈ refs) :
    isSkipped r.Reference = false ∧
      r.referenceScanOptions.imagesCleanupKeepPolicy
        = MetaCleanupKeepPolicyImagesPerReference.zero := by
  obtain ⟨l, hl, hall⟩ := classifyReferences_foldlM gitRepository rs [] refs hcl
  simp only [List.nil_append] at hl
  subst hl
  obtain ⟨x, _, hx⟩ := forall₂_right_mem _ _ _ hall r hr
  obtain ⟨hskip, href, hzero, _⟩ := classifyReference_some_facts gitRepository x r hx
  rw [href]
  exact ⟨hskip, hzero⟩

theorem isSkipped_branch_starts_with_origin (reference : Reference)
    (hskip : isSkipped reference = false) (htag : reference.IsTag = false) :
    stringsHasPrefix reference.Short "origin/" = true := by
  obtain ⟨isRemote, isTag, short, hash⟩ := reference
  simp only at htag
  subst htag
  unfold isSkipped at hskip
  cases isRemote <;> simp at hskip ⊢
  exact hskip.1

theorem slash_mem_of_origin_start (s : String) (hp : stringsHasPrefix s "origin/" = true) :
    '/' ∈ s.toList := by
  unfold stringsHasPrefix at hp
  rw [List.isPrefixOf_iff_prefix] at hp
  obtain ⟨t, ht⟩ := hp
  rw [← ht]
  exact List.mem_append.2 (Or.inl (by decide))

theorem allocate_mem (refs : List referenceToScan) (r : Ptr) (hlt : r < refs.length) :
    allocate refs r ∈ refs := by
  unfold allocate
  rw [List.getD_eq_getElem _ _ hlt]
  exact List.getElem_mem _

theorem classified_branches_have_slash (gitRepository : Repository) (rs : List Reference)
    (refs : List referenceToScan) (hcl : classifyReferences gitRepository rs = .ok refs) :
    ∀ r ∈ (splitReferences (allocate refs) (List.range refs.length)).1,
      ((stringsSplitN2 (allocate refs r).Reference.Short)[1]?).isSome = true := by
  intro r hr
  rw [splitReferences_eq] at hr
  obtain ⟨hrange, htag⟩ := List.mem_filter.1 hr
  have hlt : r < refs.length := List.mem_range.1 hrange
  have htag' : (allocate refs r).Reference.IsTag = false := by simpa using htag
  have hskip := (classifyReferences_mem_not_skipped gitRepository rs refs hcl _
    (allocate_mem refs r hlt)).1
  exact stringsSplitN2_second_of_slash _
    (slash_mem_of_origin_start _ (isSkipped_branch_starts_with_origin _ hskip htag'))

theorem getReferencesToScan_returns (sortSlice : (Ptr → Ptr → Bool) → List Ptr → List Ptr)
    (hs : SortSliceSpec sortSlice) (now : Time) (gitRepository : Repository)
    (keepPolicies : List MetaCleanupKeepPolicy) (rs : List Reference)
    (refs : List referenceToScan) (hrs : gitRepository.References = .ok rs)
    (hcl : classifyReferences gitRepository rs = .ok refs)
    (hlast : ∀ p ∈ effectiveKeepPolicies keepPolicies, ∀ l n,
      p.References.Limit = some l → l.Last = some n → -1 ≤ n) :
    ∃ res, getReferencesToScan sortSlice now gitRepository keepPolicies = .ok res := by
  obtain ⟨st, hloop⟩ := policyLoop_isSome sortSlice hs now _
    (splitReferences (allocate refs) (List.range refs.length)).2 (allocate refs)
    (classified_branches_have_slash gitRepository rs refs hcl)
    (effectiveKeepPolicies keepPolicies) hlast
    { heap := allocate refs, resultTagsRefs := [], resultBranchesRefs := [] }
    (sameReferences_refl _)
  unfold getReferencesToScan
  simp only [hrs, hcl]
  unfold scanClassified
  simp only [hloop]
  exact ⟨_, rfl⟩

theorem defaultKeepPolicies_last (p : MetaCleanupKeepPolicy) (hp : p ∈ effectiveKeepPolicies [])
    (l : MetaCleanupKeepPolicyLimit) (n : Int) (hl : p.References.Limit = some l)
    (hn : l.Last = some n) : -1 ≤ n := by
  simp only [effectiveKeepPolicies, defaultKeepPolicies, List.length_nil, if_true,
    List.nil_append, List.mem_cons, List.mem_singleton, List.not_mem_nil, or_false] at hp
  rcases hp with rfl | rfl | rfl
  · simp only [Option.some.injEq] at hl
    subst hl
    simp only [Option.some.injEq] at hn
    omega
  · simp only [Option.some.injEq] at hl
    subst hl
    simp only [Option.some.injEq] at hn
    omega
  · simp at hl

theorem policySurvivors_branch_without_limit
    (sortSlice : (Ptr → Ptr → Bool) → List Ptr → List Ptr) (now : Time)
    (refs : List referenceToScan)
    (hslash : ∀ r ∈ (splitReferences (allocate refs) (List.range refs.length)).1,
      ((stringsSplitN2 (allocate refs r).Reference.Short)[1]?).isSome = true)
    (p : MetaCleanupKeepPolicy) (re : Regexp) (hre : p.References.BranchRegexp = some re)
    (hlimit : p.References.Limit = none) :
    policySurvivors sortSlice now refs p
      = (splitReferences (allocate refs) (List.range refs.length)).1.filter (fun r =>
          match (stringsSplitN2 (allocate refs r).Reference.Short)[1]? with
          | none => false
          | some name => re.MatchString name) := by
  unfold policySurvivors survivorsAt policyReferences
  simp only [hre, selectBranchReferencesByRegexp_eq_filter _ re _ hslash, applyCleanupKeepPolicy,
    hlimit, applyReferencesLimit]


theorem eq_last_of_split {α : Type} (P : α → Prop) (l pre post : List α) (p last : α)
    (hsplit : l ++ [last] = pre ++ p :: post) (hlast : P last) (hpost : ∀ q ∈ post, ¬ P q) :
    p = last := by
  rcases List.eq_nil_or_concat post with hnil | ⟨post1, x, hx⟩
  · subst hnil
    have := List.append_inj_right' hsplit rfl
    simpa using this.symm
  · subst hx
    have hsplit' : l ++ [last] = (pre ++ p :: post1) ++ [x] := by simpa using hsplit
    have hxl : [last] = [x] := List.append_inj_right' hsplit' rfl
    have hxl' : last = x := by simpa using hxl
    exact absurd (hxl' ▸ hlast) (hpost x (by simp))

/-- C11: when no policies are supplied and the classification succeeds, the
run returns a list, and every classified branch whose name after the remote
prefix (the second piece of `SplitN(short, "/", 2)`) is exactly `master`,
`staging` or `production` is in that list, whatever its `CreatedAt` and however
many branches there are; the images sub-policy attached to it is `Last = 10`
without time bound and without operator, the one of the third default policy. -/
theorem default_policies_keep_main_branches
    (sortSlice : (Ptr → Ptr → Bool) → List Ptr → List Ptr) (hs : SortSliceSpec sortSlice)
    (now : Time) (gitRepository : Repository) (rs : List Reference)
    (refs : List referenceToScan) (hrs : gitRepository.References = .ok rs)
    (hcl : classifyReferences gitRepository rs = .ok refs) :
    ∃ h' result, getReferencesToScan sortSlice now gitRepository [] = .ok (h', result) ∧
      sameReferences (allocate refs) h' ∧
      ∀ r name, r < refs.length → (h' r).Reference.IsTag = false →
        (stringsSplitN2 (h' r).Reference.Short)[1]? = some name →
        (name = "master" ∨ name = "staging" ∨ name = "production") →
        r ∈ result ∧
          attachedPolicy h' r
            = { MetaCleanupKeepPolicyLimit := { Last := some 10, In := none, Operator := none } } := by
  obtain ⟨⟨h', result⟩, hres⟩ := getReferencesToScan_returns sortSlice hs now gitRepository []
    rs refs hrs hcl defaultKeepPolicies_last
  have hclassified : classifiedReferences gitRepository = refs := by
    unfold classifiedReferences
    simp only [hrs, hcl]
  obtain ⟨hframe, sb, stg, hresult, _, _, _, _, _, _, hmb, _, hatt⟩ :=
    getReferencesToScan_facts sortSlice hs now gitRepository [] h' result hres
  rw [hclassified] at hframe hmb hatt
  refine ⟨h', result, hres, hframe, ?_⟩
  intro r name hlt htag hname hmain
  obtain ⟨p3, hdefaults, hre, hlimit, hsub⟩ : ∃ p3 : MetaCleanupKeepPolicy,
      effectiveKeepPolicies [] = defaultKeepPolicies.take 2 ++ [p3] ∧
      p3.References.BranchRegexp = some regexpMainBranches ∧ p3.References.Limit = none ∧
      p3.ImagesPerReference
        = { MetaCleanupKeepPolicyLimit := { Last := some 10, In := none, Operator := none } } :=
    ⟨{ References := { TagRegexp := none, BranchRegexp := some regexpMainBranches, Limit := none }
       ImagesPerReference :=
        { MetaCleanupKeepPolicyLimit := { Last := some 10, In := none, Operator := none } } },
      rfl, rfl, rfl, rfl⟩
  have hslash := classified_branches_have_slash gitRepository rs refs hcl
  have hsurv : r ∈ policySurvivors sortSlice now refs p3 := by
    rw [policySurvivors_branch_without_limit sortSlice now refs hslash p3 regexpMainBranches hre
      hlimit, List.mem_filter, splitReferences_eq, List.mem_filter]
    rw [(hframe r).1] at htag hname
    refine ⟨⟨List.mem_range.2 hlt, by simp [htag]⟩, ?_⟩
    simp only [hname]
    exact (regexpMainBranches_matches_iff name).2 hmain
  have hp3 : p3 ∈ effectiveKeepPolicies [] := by
    rw [hdefaults]
    simp
  refine ⟨?_, ?_⟩
  · rw [hresult]
    exact List.mem_append.2 (Or.inl ((hmb r).2 ⟨p3, hp3, by simp [hre], hsurv⟩))
  · rcases hatt r with ⟨hnone, _⟩ | ⟨pre, p, post, hsplit, _, hpost, hattached⟩
    · exact absurd hsurv (hnone p3 hp3)
    · rw [hdefaults] at hsplit
      have hp := eq_last_of_split (fun q => r ∈ policySurvivors sortSlice now refs q) _ pre post
        p p3 hsplit hsurv hpost
      rw [hattached, hp, hsub]

/-- Witness of C11: the branch `origin/master` of the example repository. -/
theorem default_policies_keep_main_branches_witness :
    exampleRepository.References
        = .ok [ { IsRemote := true, IsTag := false, Short := "origin/master", Hash := 1 },
                { IsRemote := true, IsTag := false, Short := "origin/feature-x", Hash := 2 },
                { IsRemote := false, IsTag := true, Short := "v1.0", Hash := 3 },
                { IsRemote := false, IsTag := true, Short := "v2.0", Hash := 4 } ] ∧
      (stringsSplitN2 (allocate (classifiedReferences exampleRepository) 0).Reference.Short)[1]?
        = some "master" ∧
      ∃ h' result, getReferencesToScan insertionSortSlice 0 exampleRepository [] = .ok (h', result) ∧
        sameReferences (allocate (classifiedReferences exampleRepository)) h' ∧
        ∀ r name, r < (classifiedReferences exampleRepository).length →
          (h' r).Reference.IsTag = false →
          (stringsSplitN2 (h' r).Reference.Short)[1]? = some name →
          (name = "master" ∨ name = "staging" ∨ name = "production") →
          r ∈ result ∧
            attachedPolicy h' r
              = { MetaCleanupKeepPolicyLimit :=
                    { Last := some 10, In := none, Operator := none } } :=
  ⟨rfl, by decide,
    default_policies_keep_main_branches insertionSortSlice insertionSortSlice_spec 0
      exampleRepository _ (classifiedReferences exampleRepository) rfl rfl⟩


/-! ## The default policies on four references -/

theorem filterReferencesByLast_of_short (sortSlice : (Ptr → Ptr → Bool) → List Ptr → List Ptr)
    (hs : SortSliceSpec sortSlice) (h : Heap) (refs : List Ptr) (n : Int)
    (hn : (refs.length : Int) < n) :
    filterReferencesByLast sortSlice h refs n = some (sortSlice (createdAtAfter h) refs) := by
  unfold filterReferencesByLast
  have h1 : ¬ n = -1 := by omega
  have hlen : (sortSlice (createdAtAfter h) refs).length = refs.length := (hs h refs).1.length_eq
  simp only [h1, if_false, hlen, hn, if_true]

theorem eq_singleton_of_nodup_mem (l : List Ptr) (a : Ptr) (hn : l.Nodup)
    (hm : ∀ r, r ∈ l ↔ r = a) : l = [a] := by
  have hperm : l.Perm [a] :=
    (List.perm_ext_iff_of_nodup hn (List.nodup_singleton a)).2 (fun r => by simpa using hm r)
  exact List.perm_singleton.1 hperm

theorem eq_pair_of_nodup_mem (R : Ptr → Ptr → Prop) (l : List Ptr) (a b : Ptr) (hab : a ≠ b)
    (hn : l.Nodup) (hm : ∀ r, r ∈ l ↔ r = a ∨ r = b) (hp : l.Pairwise R) (hR : ¬ R b a) :
    l = [a, b] := by
  have hnab : [a, b].Nodup := by simp [hab]
  have hperm : l.Perm [a, b] :=
    (List.perm_ext_iff_of_nodup hn hnab).2 (fun r => by simpa using hm r)
  have hlen := hperm.length_eq
  match l, hn, hm, hp, hlen with
  | [x, y], hn, hm, hp, _ =>
    have hx := (hm x).1 (by simp)
    have hy := (hm y).1 (by simp)
    have hxy : x ≠ y := by
      intro hxy
      simp [hxy] at hn
    have hRxy : R x y := by simpa using hp
    rcases hx with rfl | rfl <;> rcases hy with rfl | rfl
    · exact absurd rfl hxy
    · rfl
    · exact absurd hRxy hR
    · exact absurd rfl hxy

theorem policySurvivors_branch
    (sortSlice : (Ptr → Ptr → Bool) → List Ptr → List Ptr) (now : Time)
    (refs : List referenceToScan)
    (hslash : ∀ r ∈ (splitReferences (allocate refs) (List.range refs.length)).1,
      ((stringsSplitN2 (allocate refs r).Reference.Short)[1]?).isSome = true)
    (p : MetaCleanupKeepPolicy) (re : Regexp) (hre : p.References.BranchRegexp = some re) :
    policySurvivors sortSlice now refs p
      = (applyReferencesLimit sortSlice now (allocate refs)
          ((splitReferences (allocate refs) (List.range refs.length)).1.filter (fun r =>
            match (stringsSplitN2 (allocate refs r).Reference.Short)[1]? with
            | none => false
            | some name => re.MatchString name)) p.References.Limit).getD [] := by
  unfold policySurvivors survivorsAt policyReferences
  simp only [hre, selectBranchReferencesByRegexp_eq_filter _ re _ hslash, applyCleanupKeepPolicy]
  generalize applyReferencesLimit sortSlice now (allocate refs) _ p.References.Limit = x
  cases x <;> rfl

theorem policySurvivors_tag
    (sortSlice : (Ptr → Ptr → Bool) → List Ptr → List Ptr) (now : Time)
    (refs : List referenceToScan) (p : MetaCleanupKeepPolicy) (re : Regexp)
    (hbranch : p.References.BranchRegexp = none) (hre : p.References.TagRegexp = some re) :
    policySurvivors sortSlice now refs p
      = (applyReferencesLimit sortSlice now (allocate refs)
          ((splitReferences (allocate refs) (List.range refs.length)).2.filter (fun r =>
            re.MatchString (allocate refs r).Reference.Short)) p.References.Limit).getD [] := by
  unfold policySurvivors survivorsAt policyReferences
  simp only [hbranch, hre, selectTagReferencesByRegexp_eq_filter, applyCleanupKeepPolicy]
  generalize applyReferencesLimit sortSlice now (allocate refs) _ p.References.Limit = x
  cases x <;> rfl

theorem map_eq_four {α β : Type} (f : α → β) (l : List α) (t0 t1 t2 t3 : β)
    (h : l.map f = [t0, t1, t2, t3]) :
    ∃ a b c d, l = [a, b, c, d] ∧ f a = t0 ∧ f b = t1 ∧ f c = t2 ∧ f d = t3 := by
  rcases l with _ | ⟨a, _ | ⟨b, _ | ⟨c, _ | ⟨d, _ | ⟨e, rest⟩⟩⟩⟩⟩ <;> simp at h
  obtain ⟨h0, h1, h2, h3⟩ := h
  exact ⟨a, b, c, d, rfl, h0, h1, h2, h3⟩

/-- C12: with no policies declared, when the classification returns, in this
order, the records of `origin/master` (`CreatedAt` one day before `now`),
`origin/feature-x` (ten days before), the tag `v1.0` (thirty days before) and
the tag `v2.0` (two days before), `getReferencesToScan` returns exactly the
list of the records of `origin/master`, `v2.0` and `v1.0`, in this order, for
every instant `now` and every sort that meets what `sort.Slice` guarantees:
`origin/feature-x` is dropped and both tags are kept, the newest first. -/
theorem default_policies_on_four_references (sortSlice : (Ptr → Ptr → Bool) → List Ptr → List Ptr)
    (hs : SortSliceSpec sortSlice) (now : Time) (gitRepository : Repository)
    (rs : List Reference) (refs : List referenceToScan)
    (hrs : gitRepository.References = .ok rs)
    (hcl : classifyReferences gitRepository rs = .ok refs)
    (hrefs : refs.map (fun r => (r.Reference.Short, r.Reference.IsTag, r.CreatedAt))
      = [("origin/master", false, now - Hour * 24),
         ("origin/feature-x", false, now - Hour * 24 * 10),
         ("v1.0", true, now - Hour * 24 * 30), ("v2.0", true, now - Hour * 24 * 2)]) :
    ∃ h', getReferencesToScan sortSlice now gitRepository [] = .ok (h', [0, 3, 2]) ∧
      [0, 3, 2].map (fun r => (h' r).Reference.Short) = ["origin/master", "v2.0", "v1.0"] := by
  obtain ⟨⟨h', result⟩, hres⟩ := getReferencesToScan_returns sortSlice hs now gitRepository []
    rs refs hrs hcl defaultKeepPolicies_last
  have hclassified : classifiedReferences gitRepository = refs := by
    unfold classifiedReferences
    simp only [hrs, hcl]
  obtain ⟨hframe, sb, stg, hresult, _, hsortT, hnb, hnt, _, _, hmb, hmt, _⟩ :=
    getReferencesToScan_facts sortSlice hs now gitRepository [] h' result hres
  rw [hclassified] at hframe hmb hmt
  have hslash := classified_branches_have_slash gitRepository rs refs hcl
  obtain ⟨a, b, c, d, hrefs4, ha, hb, hc, hd⟩ := map_eq_four _ _ _ _ _ _ hrefs
  subst hrefs4
  simp only [Prod.mk.injEq] at ha hb hc hd
  obtain ⟨ha1, ha2, ha3⟩ := ha
  obtain ⟨hb1, hb2, hb3⟩ := hb
  obtain ⟨hc1, hc2, hc3⟩ := hc
  obtain ⟨hd1, hd2, hd3⟩ := hd
  have h0 : allocate [a, b, c, d] 0 = a := rfl
  have h1 : allocate [a, b, c, d] 1 = b := rfl
  have h2 : allocate [a, b, c, d] 2 = c := rfl
  have h3 : allocate [a, b, c, d] 3 = d := rfl
  have hpool : splitReferences (allocate [a, b, c, d]) (List.range [a, b, c, d].length)
      = ([0, 1], [2, 3]) := by
    rw [splitReferences_eq]
    have hrange : List.range [a, b, c, d].length = [0, 1, 2, 3] := rfl
    rw [hrange]
    simp [List.filter_cons, h0, h1, h2, h3, ha2, hb2, hc2, hd2]
  have hname0 : (stringsSplitN2 (allocate [a, b, c, d] 0).Reference.Short)[1]? = some "master" := by
    rw [h0, ha1]
    decide
  have hname1 : (stringsSplitN2 (allocate [a, b, c, d] 1).Reference.Short)[1]?
      = some "feature-x" := by
    rw [h1, hb1]
    decide
  have hlen : ([a, b, c, d] : List referenceToScan).length = 4 := rfl
  have hS3 : ∀ p : MetaCleanupKeepPolicy, p.References.BranchRegexp = some regexpMainBranches →
      p.References.Limit = none → policySurvivors sortSlice now [a, b, c, d] p = [0] := by
    intro p hre hlimit
    rw [policySurvivors_branch sortSlice now _ hslash p _ hre, hlimit, hpool]
    have hm0 : regexpMainBranches.MatchString "master" = true :=
      (regexpMainBranches_matches_iff _).2 (Or.inl rfl)
    have hm1 : regexpMainBranches.MatchString "feature-x" = false := by
      rw [Bool.eq_false_iff, Ne, regexpMainBranches_matches_iff]
      decide
    simp [applyReferencesLimit, List.filter_cons, hname0, hname1, hm0, hm1]
  have hS2 : ∀ p : MetaCleanupKeepPolicy, p.References.BranchRegexp = some regexpDotStar →
      p.References.Limit
        = some { Last := some 10, In := some (Hour * 24 * 7), Operator := some Operator.And } →
      ∀ r, r ∈ policySurvivors sortSlice now [a, b, c, d] p ↔ r = 0 := by
    intro p hre hlimit r
    rw [policySurvivors_branch sortSlice now _ hslash p _ hre, hlimit, hpool]
    have hin : filterReferencesByIn now (allocate [a, b, c, d]) [0, 1] (Hour * 24 * 7) = [0] := by
      rw [filterReferencesByIn_strictly_after _ _ _ _ (by decide) (by decide)]
      have k0 : ∀ n : Int, n - 3600000000000 * 24 * 7 < n - 3600000000000 * 24 := by
        intro n
        omega
      have k1 : ∀ n : Int, ¬ n - 3600000000000 * 24 * 7 < n - 3600000000000 * 24 * 10 := by
        intro n
        omega
      have t0 : now - Hour * 24 * 7 < now - Hour * 24 := k0 now
      have t1 : ¬ now - Hour * 24 * 7 < now - Hour * 24 * 10 := k1 now
      simp [List.filter_cons, h0, h1, ha3, hb3, t0, t1]
    have hlast : filterReferencesByLast sortSlice (allocate [a, b, c, d]) [0, 1] 10
        = some (sortSlice (createdAtAfter (allocate [a, b, c, d])) [0, 1]) :=
      filterReferencesByLast_of_short sortSlice hs _ _ 10 (by decide)
    simp only [List.filter_cons, hname0, hname1, regexpDotStar_matches_all, if_true,
      List.filter_nil, applyReferencesLimit, hin, hlast]
    simp [mem_referencesAnd, (hs (allocate [a, b, c, d]) [0, 1]).1.mem_iff]
    exact fun hr => Or.inl hr
  have hS1 : ∀ p : MetaCleanupKeepPolicy, p.References.BranchRegexp = none →
      p.References.TagRegexp = some regexpDotStar →
      p.References.Limit = some { Last := some 10, In := none, Operator := none } →
      ∀ r, r ∈ policySurvivors sortSlice now [a, b, c, d] p ↔ r = 2 ∨ r = 3 := by
    intro p hbranch hre hlimit r
    rw [policySurvivors_tag sortSlice now _ p _ hbranch hre, hlimit, hpool]
    have hlast : filterReferencesByLast sortSlice (allocate [a, b, c, d]) [2, 3] 10
        = some (sortSlice (createdAtAfter (allocate [a, b, c, d])) [2, 3]) :=
      filterReferencesByLast_of_short sortSlice hs _ _ 10 (by decide)
    simp only [List.filter_cons, regexpDotStar_matches_all, if_true,
      List.filter_nil, applyReferencesLimit, hlast]
    simp [(hs (allocate [a, b, c, d]) [2, 3]).1.mem_iff]
  have hsb : sb = [0] := by
    refine eq_singleton_of_nodup_mem sb 0 hnb (fun r => ?_)
    rw [hmb r]
    constructor
    · rintro ⟨p, hp, hbranch, hr⟩
      simp only [effectiveKeepPolicies, defaultKeepPolicies, List.length_nil, if_true,
        List.nil_append, List.mem_cons, List.mem_singleton, List.not_mem_nil, or_false] at hp
      rcases hp with rfl | rfl | rfl
      · simp at hbranch
      · exact (hS2 _ rfl rfl r).1 hr
      · rw [hS3 _ rfl rfl] at hr
        simpa using hr
    · intro hr
      refine ⟨_, List.mem_cons_of_mem _ (List.mem_cons_of_mem _ (List.mem_cons_self _ _)), rfl, ?_⟩
      rw [hS3 _ rfl rfl, hr]
      simp
  have hstg : stg = [3, 2] := by
    refine eq_pair_of_nodup_mem (fun x y => (h' y).CreatedAt ≤ (h' x).CreatedAt) stg 3 2
      (by decide) hnt (fun r => ?_) hsortT ?_
    · rw [hmt r]
      constructor
      · rintro ⟨p, hp, hbranch, htag, hr⟩
        simp only [effectiveKeepPolicies, defaultKeepPolicies, List.length_nil, if_true,
          List.nil_append, List.mem_cons, List.mem_singleton, List.not_mem_nil, or_false] at hp
        rcases hp with rfl | rfl | rfl
        · exact ((hS1 _ rfl rfl rfl r).1 hr).symm
        · simp at hbranch
        · simp at hbranch
      · intro hr
        exact ⟨_, List.mem_cons_self _ _, rfl, rfl, (hS1 _ rfl rfl rfl r).2 hr.symm⟩
    · show ¬ (h' 3).CreatedAt ≤ (h' 2).CreatedAt
      rw [(hframe 3).2.1, (hframe 2).2.1, h2, h3, hc3, hd3]
      have k : ∀ n : Int, ¬ n - 3600000000000 * 24 * 2 ≤ n - 3600000000000 * 24 * 30 := by
        intro n
        omega
      exact k now
  refine ⟨h', ?_, ?_⟩
  · rw [hres, hresult, hsb, hstg]
    rfl
  · simp only [List.map_cons, List.map_nil, (hframe 0).1, (hframe 2).1, (hframe 3).1, h0, h2, h3,
      ha1, hc1, hd1]

/-- Witness of C12: the example repository at the instant 0, with the insertion sort. -/
theorem default_policies_on_four_references_witness :
    (classifiedReferences exampleRepository).map
        (fun r => (r.Reference.Short, r.Reference.IsTag, r.CreatedAt))
      = [("origin/master", false, 0 - Hour * 24), ("origin/feature-x", false, 0 - Hour * 24 * 10),
         ("v1.0", true, 0 - Hour * 24 * 30), ("v2.0", true, 0 - Hour * 24 * 2)] ∧
      ∃ h', getReferencesToScan insertionSortSlice 0 exampleRepository [] = .ok (h', [0, 3, 2]) ∧
        [0, 3, 2].map (fun r => (h' r).Reference.Short) = ["origin/master", "v2.0", "v1.0"] :=
  ⟨by decide,
    default_policies_on_four_references insertionSortSlice insertionSortSlice_spec 0
      exampleRepository _ (classifiedReferences exampleRepository) rfl rfl (by decide)⟩


/-! ## The limit and the assignments of one policy -/

/-- C24: for every reference list, `applyReferencesLimit` with a nil limit
returns the input list itself: the same references in the same order. -/
theorem applyReferencesLimit_nil_limit_returns_input
    (sortSlice : (Ptr → Ptr → Bool) → List Ptr → List Ptr) (now : Time) (h : Heap)
    (refs : List Ptr) : applyReferencesLimit sortSlice now h refs none = some refs := rfl

/-- C23: when `applyCleanupKeepPolicy` returns, the returned references are
the survivors of the limit; the images sub-policy of each of them is the one of
the policy, the sub-policy of every other reference is what it was, and the
reference, `CreatedAt`, `HeadCommit` and scan depth limit of every record are
what they were. -/
theorem applyCleanupKeepPolicy_sets_sub_policy_of_survivors
    (sortSlice : (Ptr → Ptr → Bool) → List Ptr → List Ptr) (now : Time) (h : Heap)
    (refs : List Ptr) (policy : MetaCleanupKeepPolicy) (h' : Heap) (res : List Ptr)
    (hres : applyCleanupKeepPolicy sortSlice now h refs policy = some (h', res)) :
    applyReferencesLimit sortSlice now h refs policy.References.Limit = some res ∧
      (∀ r ∈ res, attachedPolicy h' r = policy.ImagesPerReference) ∧
      (∀ r, r ∉ res → attachedPolicy h' r = attachedPolicy h r) ∧
      (∀ r, (h' r).Reference = (h r).Reference ∧ (h' r).CreatedAt = (h r).CreatedAt ∧
        (h' r).HeadCommit = (h r).HeadCommit ∧
        (h' r).referenceScanOptions.scanDepthLimit = (h r).referenceScanOptions.scanDepthLimit) := by
  unfold applyCleanupKeepPolicy at hres
  cases hlim : applyReferencesLimit sortSlice now h refs policy.References.Limit with
  | none => simp [hlim] at hres
  | some l =>
    simp only [hlim, Option.some.injEq, Prod.mk.injEq] at hres
    obtain ⟨hh, hl⟩ := hres
    subst hh
    subst hl
    refine ⟨rfl, ?_, ?_, sameReferences_applyImagesPerReference h l policy.ImagesPerReference⟩
    · intro r hr
      rw [attachedPolicy_applyImagesPerReference, if_pos hr]
    · intro r hr
      rw [attachedPolicy_applyImagesPerReference, if_neg hr]

/-- Witness of C23: of the branches 2, 0 and 1 of the example heap, the limit
`Last = 2` keeps 0 and 1, and these two get the sub-policy. -/
theorem applyCleanupKeepPolicy_sets_sub_policy_of_survivors_witness :
    applyCleanupKeepPolicy insertionSortSlice 0 exampleHeap5 [2, 0, 1] examplePolicyLastTwo
        = some (applyImagesPerReference exampleHeap5 [0, 1]
            examplePolicyLastTwo.ImagesPerReference, [0, 1]) ∧
      (∀ r ∈ [0, 1],
        attachedPolicy
            (applyImagesPerReference exampleHeap5 [0, 1] examplePolicyLastTwo.ImagesPerReference) r
          = examplePolicyLastTwo.ImagesPerReference) ∧
      (∀ r, r ∉ [0, 1] →
        attachedPolicy
            (applyImagesPerReference exampleHeap5 [0, 1] examplePolicyLastTwo.ImagesPerReference) r
          = attachedPolicy exampleHeap5 r) :=
  ⟨rfl,
    (applyCleanupKeepPolicy_sets_sub_policy_of_survivors insertionSortSlice 0 exampleHeap5
      [2, 0, 1] examplePolicyLastTwo _ [0, 1] rfl).2.1,
    (applyCleanupKeepPolicy_sets_sub_policy_of_survivors insertionSortSlice 0 exampleHeap5
      [2, 0, 1] examplePolicyLastTwo _ [0, 1] rfl).2.2.1⟩


/-! ## What classification lets through -/

theorem getReferencesToScan_ok_classified
    (sortSlice : (Ptr → Ptr → Bool) → List Ptr → List Ptr) (now : Time)
    (gitRepository : Repository) (keepPolicies : List MetaCleanupKeepPolicy)
    (res : Heap × List Ptr)
    (hres : getReferencesToScan sortSlice now gitRepository keepPolicies = .ok res) :
    ∃ rs, gitRepository.References = .ok rs ∧
      classifyReferences gitRepository rs = .ok (classifiedReferences gitRepository) := by
  unfold getReferencesToScan at hres
  unfold classifiedReferences
  cases hrs : gitRepository.References with
  | error err => simp [hrs] at hres
  | ok rs =>
    simp only [hrs] at hres ⊢
    cases hcl : classifyReferences gitRepository rs with
    | error err => simp [hcl] at hres
    | ok refs => exact ⟨rs, rfl, hcl⟩

theorem mem_result_lt_length (sortSlice : (Ptr → Ptr → Bool) → List Ptr → List Ptr)
    (hs : SortSliceSpec sortSlice) (now : Time) (gitRepository : Repository)
    (keepPolicies : List MetaCleanupKeepPolicy) (h' : Heap) (result : List Ptr)
    (hres : getReferencesToScan sortSlice now gitRepository keepPolicies = .ok (h', result))
    (r : Ptr) (hr : r ∈ result) : r < (classifiedReferences gitRepository).length := by
  obtain ⟨_, sb, stg, hresult, _, _, _, _, _, _, hmb, hmt, _⟩ :=
    getReferencesToScan_facts sortSlice hs now gitRepository keepPolicies h' result hres
  rw [hresult, List.mem_append] at hr
  have hpool : ∀ p, r ∈ policySurvivors sortSlice now (classifiedReferences gitRepository) p →
      r < (classifiedReferences gitRepository).length := by
    intro p hp
    unfold policySurvivors at hp
    rcases survivorsAt_pool sortSlice hs now _ _ _ p r hp with ⟨_, hrb⟩ | ⟨_, _, hrt⟩
    · rw [splitReferences_eq] at hrb
      exact List.mem_range.1 (List.mem_filter.1 hrb).1
    · rw [splitReferences_eq] at hrt
      exact List.mem_range.1 (List.mem_filter.1 hrt).1
  rcases hr with hr | hr
  · obtain ⟨p, _, _, hp⟩ := (hmb r).1 hr
    exact hpool p hp
  · obtain ⟨p, _, _, _, hp⟩ := (hmt r).1 hr
    exact hpool p hp

/-- C28: the short name of every branch record that the classification of
`getReferencesToScan` produces begins with `origin/` and so contains a `/`;
the split of the name on `/` has a second element, and
`selectBranchReferencesByRegexp` returns for the classified branches,
whatever the pattern. -/
theorem classified_branch_names_have_second_segment (gitRepository : Repository)
    (rs : List Reference) (refs : List referenceToScan)
    (hcl : classifyReferences gitRepository rs = .ok refs) :
    (∀ r ∈ refs, r.Reference.IsTag = false →
        '/' ∈ r.Reference.Short.toList ∧
          ((stringsSplitN2 r.Reference.Short)[1]?).isSome = true) ∧
      ∀ re : Regexp, ∃ selected,
        selectBranchReferencesByRegexp (allocate refs)
          (splitReferences (allocate refs) (List.range refs.length)).1 re = some selected := by
  refine ⟨?_, ?_⟩
  · intro r hr htag
    have hskip := (classifyReferences_mem_not_skipped gitRepository rs refs hcl r hr).1
    have hslash := slash_mem_of_origin_start _
      (isSkipped_branch_starts_with_origin _ hskip htag)
    exact ⟨hslash, stringsSplitN2_second_of_slash _ hslash⟩
  · intro re
    exact ⟨_, selectBranchReferencesByRegexp_eq_filter _ re _
      (classified_branches_have_slash gitRepository rs refs hcl)⟩

/-- Witness of C28: the references of the example repository with a local
branch, `origin/HEAD` and a branch of another remote. -/
theorem classified_branch_names_have_second_segment_witness :
    classifyReferences exampleAnnotatedRepository
        [ { IsRemote := true, IsTag := false, Short := "origin/master", Hash := 1 },
          { IsRemote := true, IsTag := false, Short := "origin/HEAD", Hash := ZeroHash },
          { IsRemote := false, IsTag := false, Short := "topic", Hash := 1 },
          { IsRemote := true, IsTag := false, Short := "upstream/master", Hash := 1 },
          { IsRemote := false, IsTag := true, Short := "v1", Hash := 2 },
          { IsRemote := false, IsTag := true, Short := "v2", Hash := 4 } ]
      = .ok (classifiedReferences exampleAnnotatedRepository) ∧
    ((classifiedReferences exampleAnnotatedRepository).filter
        (fun r => !r.Reference.IsTag)).map (fun r => r.Reference.Short) = ["origin/master"] ∧
    ((∀ r ∈ classifiedReferences exampleAnnotatedRepository, r.Reference.IsTag = false →
        '/' ∈ r.Reference.Short.toList ∧
          ((stringsSplitN2 r.Reference.Short)[1]?).isSome = true) ∧
      ∀ re : Regexp, ∃ selected,
        selectBranchReferencesByRegexp (allocate (classifiedReferences exampleAnnotatedRepository))
          (splitReferences (allocate (classifiedReferences exampleAnnotatedRepository))
            (List.range (classifiedReferences exampleAnnotatedRepository).length)).1 re
          = some selected) :=
  ⟨rfl, by decide,
    classified_branch_names_have_second_segment exampleAnnotatedRepository
      [ { IsRemote := true, IsTag := false, Short := "origin/master", Hash := 1 },
        { IsRemote := true, IsTag := false, Short := "origin/HEAD", Hash := ZeroHash },
        { IsRemote := false, IsTag := false, Short := "topic", Hash := 1 },
        { IsRemote := true, IsTag := false, Short := "upstream/master", Hash := 1 },
        { IsRemote := false, IsTag := true, Short := "v1", Hash := 2 },
        { IsRemote := false, IsTag := true, Short := "v2", Hash := 4 } ] _ rfl⟩

/-- C21: every reference of the final list of `getReferencesToScan`, for
every policy list, is the record of a reference that the repository lists and
that is a tag or a remote-tracking branch whose short name begins with
`origin/`: it is neither a local branch (not remote and not a tag) nor a
remote-tracking reference of another remote (remote and without the prefix
`origin/`). -/
theorem final_list_holds_only_tags_and_origin_branches
    (sortSlice : (Ptr → Ptr → Bool) → List Ptr → List Ptr) (hs : SortSliceSpec sortSlice)
    (now : Time) (gitRepository : Repository) (keepPolicies : List MetaCleanupKeepPolicy)
    (h' : Heap) (result : List Ptr)
    (hres : getReferencesToScan sortSlice now gitRepository keepPolicies = .ok (h', result)) :
    ∀ r ∈ result,
      ((h' r).Reference.IsTag = true ∨
        ((h' r).Reference.IsRemote = true ∧
          stringsHasPrefix (h' r).Reference.Short "origin/" = true)) ∧
      ¬ ((h' r).Reference.IsRemote = false ∧ (h' r).Reference.IsTag = false) ∧
      ¬ ((h' r).Reference.IsRemote = true ∧
          stringsHasPrefix (h' r).Reference.Short "origin/" = false) ∧
      (∃ rs, gitRepository.References = .ok rs ∧ (h' r).Reference ∈ rs) := by
  intro r hr
  have hlt := mem_result_lt_length sortSlice hs now gitRepository keepPolicies h' result hres r hr
  obtain ⟨rs, hrs, hcl⟩ := getReferencesToScan_ok_classified sortSlice now gitRepository
    keepPolicies _ hres
  have hframe := (getReferencesToScan_facts sortSlice hs now gitRepository keepPolicies h' result
    hres).1
  have hmem := allocate_mem (classifiedReferences gitRepository) r hlt
  have hskip := (classifyReferences_mem_not_skipped gitRepository rs _ hcl _ hmem).1
  rw [← (hframe r).1] at hskip
  have hlisted : (h' r).Reference ∈ rs := by
    obtain ⟨l, hl, hall⟩ := classifyReferences_foldlM gitRepository rs [] _ hcl
    simp only [List.nil_append] at hl
    rw [hl] at hmem
    obtain ⟨x, hx, hxr⟩ := forall₂_right_mem _ _ _ hall _ hmem
    have href := (classifyReference_some_facts gitRepository x _ hxr).2.1
    rw [(hframe r).1, hl, href]
    exact (List.mem_filter.1 hx).1
  generalize (h' r).Reference = reference at hskip hlisted
  obtain ⟨isRemote, isTag, short, hash⟩ := reference
  unfold isSkipped at hskip
  refine ⟨?_, ?_, ?_, rs, hrs, hlisted⟩
  · cases isRemote <;> cases isTag <;> simp_all
  · cases isRemote <;> cases isTag <;> simp_all
  · cases isRemote <;> cases isTag <;> simp_all


/-- Witness of C21: of the six references of the example repository, the
local branch `topic`, `upstream/master` and `origin/HEAD` are not in the final
list of a run with the default policies. -/
theorem final_list_holds_only_tags_and_origin_branches_witness :
    getReferencesToScan insertionSortSlice 0 exampleAnnotatedRepository []
        = .ok ((exampleRun exampleAnnotatedRepository []).1,
            (exampleRun exampleAnnotatedRepository []).2) ∧
      (exampleRun exampleAnnotatedRepository []).2.map
          (fun r => ((exampleRun exampleAnnotatedRepository []).1 r).Reference.Short)
        = ["origin/master", "v1", "v2"] ∧
      ∀ r ∈ (exampleRun exampleAnnotatedRepository []).2,
        (((exampleRun exampleAnnotatedRepository []).1 r).Reference.IsTag = true ∨
          (((exampleRun exampleAnnotatedRepository []).1 r).Reference.IsRemote = true ∧
            stringsHasPrefix ((exampleRun exampleAnnotatedRepository []).1 r).Reference.Short
              "origin/" = true)) ∧
        ¬ (((exampleRun exampleAnnotatedRepository []).1 r).Reference.IsRemote = false ∧
            ((exampleRun exampleAnnotatedRepository []).1 r).Reference.IsTag = false) ∧
        ¬ (((exampleRun exampleAnnotatedRepository []).1 r).Reference.IsRemote = true ∧
            stringsHasPrefix ((exampleRun exampleAnnotatedRepository []).1 r).Reference.Short
              "origin/" = false) ∧
        (∃ rs, exampleAnnotatedRepository.References = .ok rs ∧
          ((exampleRun exampleAnnotatedRepository []).1 r).Reference ∈ rs) :=
  ⟨exampleRun_ok _ _ (by decide), by decide,
    final_list_holds_only_tags_and_origin_branches insertionSortSlice insertionSortSlice_spec 0
      exampleAnnotatedRepository [] _ _ (exampleRun_ok _ _ (by decide))⟩


/-! ## The merge of the round of a policy -/

/-- C26 as stated fails: on the records of the example repository, after the
round of a policy that keeps `origin/feature-x` (address 1) the branch
accumulator is `[1]`; the survivors of the next policy, which keeps
`origin/master` (address 0), are `[0]`; after its round the accumulator is
`[0, 1]`, the new survivor first, and not `[1, 0]`, the previous accumulator
followed by the new survivor. -/
theorem merge_puts_new_survivors_first :
    splitReferences exampleLoopStart.heap
        (List.range (classifiedReferences exampleRepository).length) = ([0, 1], [2, 3]) ∧
      (policyLoop insertionSortSlice 0 [0, 1] [2, 3] exampleLoopStart
          [examplePolicyFeatureX]).map (fun st => st.resultBranchesRefs) = some [1] ∧
      survivorsAt insertionSortSlice 0 [0, 1] [2, 3] exampleLoopStart.heap examplePolicyB = [0] ∧
      (policyLoop insertionSortSlice 0 [0, 1] [2, 3] exampleLoopStart
          [examplePolicyFeatureX, examplePolicyB]).map (fun st => st.resultBranchesRefs)
        = some [0, 1] ∧
      ([0, 1] : List Ptr) ≠ [1] ++ [0] := by
  refine ⟨by decide, by decide, by decide, by decide, by decide⟩

/-- C26 as amended: in the round of a policy the survivors of that policy are
the base list of the merge: after the round of a branch policy the branch
accumulator equals the survivors of the policy, in their order, followed by
those references of the previous accumulator that are not among these
survivors, and the tag accumulator is unchanged; likewise for a tag policy and
the tag accumulator; a policy without pattern changes neither. -/
theorem round_merges_accumulator_into_survivors
    (sortSlice : (Ptr → Ptr → Bool) → List Ptr → List Ptr) (now : Time)
    (branchesRefs tagsRefs : List Ptr) (st st1 : PolicyLoopState) (policy : MetaCleanupKeepPolicy)
    (hstep : policyStep sortSlice now branchesRefs tagsRefs st policy = some st1) :
    (policy.References.BranchRegexp.isSome = true →
        st1.resultBranchesRefs
            = survivorsAt sortSlice now branchesRefs tagsRefs st.heap policy ++
              st.resultBranchesRefs.filter (fun r =>
                decide (r ∉ survivorsAt sortSlice now branchesRefs tagsRefs st.heap policy)) ∧
          st1.resultTagsRefs = st.resultTagsRefs) ∧
      (policy.References.BranchRegexp = none → policy.References.TagRegexp.isSome = true →
        st1.resultTagsRefs
            = survivorsAt sortSlice now branchesRefs tagsRefs st.heap policy ++
              st.resultTagsRefs.filter (fun r =>
                decide (r ∉ survivorsAt sortSlice now branchesRefs tagsRefs st.heap policy)) ∧
          st1.resultBranchesRefs = st.resultBranchesRefs) ∧
      (policy.References.BranchRegexp = none → policy.References.TagRegexp = none →
        st1.resultBranchesRefs = st.resultBranchesRefs ∧
          st1.resultTagsRefs = st.resultTagsRefs) := by
  obtain ⟨_, _, hb, ht⟩ := policyStep_spec sortSlice now branchesRefs tagsRefs st st1 policy hstep
  refine ⟨?_, ?_, ?_⟩
  · intro hbranch
    rw [hb, ht, if_pos hbranch, if_pos hbranch, mergeReferences_eq_append]
    exact ⟨rfl, rfl⟩
  · intro hbranch htag
    have hbranch' : ¬ policy.References.BranchRegexp.isSome = true := by simp [hbranch]
    rw [hb, ht, if_neg hbranch', if_neg hbranch', if_pos htag, mergeReferences_eq_append]
    exact ⟨rfl, rfl⟩
  · intro hbranch htag
    have hbranch' : ¬ policy.References.BranchRegexp.isSome = true := by simp [hbranch]
    have htag' : ¬ policy.References.TagRegexp.isSome = true := by simp [htag]
    rw [hb, ht, if_neg hbranch', if_neg hbranch', if_neg htag']
    exact ⟨rfl, rfl⟩

/-- Witness of C26 as amended: the round of policy B after a round that kept `origin/feature-x`. -/
theorem round_merges_accumulator_into_survivors_witness :
    policyStep insertionSortSlice 0 [0, 1] [2, 3]
        { exampleLoopStart with resultBranchesRefs := [1] } examplePolicyB
      = some { heap := applyImagesPerReference exampleLoopStart.heap [0]
                 examplePolicyB.ImagesPerReference
               resultTagsRefs := []
               resultBranchesRefs := [0, 1] } ∧
      ([0, 1] : List Ptr)
        = survivorsAt insertionSortSlice 0 [0, 1] [2, 3] exampleLoopStart.heap examplePolicyB ++
          [1].filter (fun r =>
            decide (r ∉ survivorsAt insertionSortSlice 0 [0, 1] [2, 3] exampleLoopStart.heap
              examplePolicyB)) :=
  ⟨rfl,
    ((round_merges_accumulator_into_survivors insertionSortSlice 0 [0, 1] [2, 3]
      { exampleLoopStart with resultBranchesRefs := [1] }
      { heap := applyImagesPerReference exampleLoopStart.heap [0]
          examplePolicyB.ImagesPerReference
        resultTagsRefs := []
        resultBranchesRefs := [0, 1] } examplePolicyB rfl).1 rfl).1⟩


/-! ## A negative count bound -/

/-- C27 (the claim fails on the code): the loader accepts the limit section
`last: -2` and converts it to a limit with `Last = -2`; for every reference
list `filterReferencesByLast` with that value reaches the slice expression
`refs[:last]` with a negative bound and panics, and so does a run of
`getReferencesToScan` with a policy that carries this limit. -/
theorem filterReferencesByLast_negative_last_panics
    (sortSlice : (Ptr → Ptr → Bool) → List Ptr → List Ptr) (h : Heap) (refs : List Ptr) :
    rawMetaCleanupKeepPolicyReferencesLimit.UnmarshalYAML exampleCheckOverflow
        (.ok exampleNegativeLast) = .ok exampleNegativeLast ∧
      exampleNegativeLast.toMetaCleanupKeepPolicyLimit.Last = some (-2) ∧
      filterReferencesByLast sortSlice h refs (-2) = none ∧
      getReferencesToScan insertionSortSlice 0 exampleRepository [examplePolicyNegativeLast]
        = .error Error.panic := by
  refine ⟨rfl, rfl, ?_, rfl⟩
  unfold filterReferencesByLast
  have hlen : ¬ ((sortSlice (createdAtAfter h) refs).length : Int) < -2 := by omega
  simp [hlen]


/-! ## The selector of one character -/

/-- C25 (the claim fails on the code): for the selector `/` the test of
`processRegexpString` for the two delimiters succeeds, on the same character;
the text that is compiled is the empty text, for every package `regexp`, and
not `^/$`. With the instance of the package the pattern is the empty
expression, which matches every name: the selector `/` selects all four
branches of the example heap, none of which is named `/`. -/
theorem single_slash_selector_matches_every_name (lib : RegexpPackage) (n : String) :
    (stringsHasPrefix "/" "/" && stringsHasSuffix "/" "/") = true ∧
      processRegexpStringValue lib "/" = "" ∧
      processRegexpStringValue lib "/" ≠ "^" ++ lib.QuoteMeta "/" ++ "$" ∧
      processRegexpString exampleRegexpPackage "branch" "/" = .ok Regexp.emptyMatch ∧
      Regexp.emptyMatch.MatchString n = true ∧
      selectBranchReferencesByRegexp exampleHeapNames [0, 1, 2, 3] Regexp.emptyMatch
        = some [0, 1, 2, 3] := by
  have hvalue : processRegexpStringValue lib "/" = "" := by
    unfold processRegexpStringValue
    have hdelim : (stringsHasPrefix "/" "/" && stringsHasSuffix "/" "/") = true := by decide
    rw [if_pos hdelim]
    decide
  refine ⟨by decide, hvalue, ?_, rfl, ?_, by decide⟩
  · rw [hvalue]
    intro hcontra
    have hlen := congrArg String.length hcontra
    simp only [String.length_append] at hlen
    have h1 : "^".length = 1 := by decide
    have h2 : "$".length = 1 := by decide
    have h0 : "".length = 0 := by decide
    omega
  · unfold Regexp.MatchString
    cases n.toList <;> simp [Regexp.searchFrom, Regexp.ends]


/-! ## The sub-policies are not evaluated -/

theorem sameReferences_symm {h h' : Heap} (hf : sameReferences h h') : sameReferences h' h :=
  fun p => ⟨(hf p).1.symm, (hf p).2.1.symm, (hf p).2.2.1.symm, (hf p).2.2.2.symm⟩

theorem policyReferences_snd_of_references
    (sortSlice : (Ptr → Ptr → Bool) → List Ptr → List Ptr) (now : Time)
    (branchesRefs tagsRefs : List Ptr) (h : Heap) (p q : MetaCleanupKeepPolicy)
    (hpq : p.References = q.References) :
    (policyReferences sortSlice now branchesRefs tagsRefs h q).map Prod.snd
      = (policyReferences sortSlice now branchesRefs tagsRefs h p).map Prod.snd := by
  have hcleanup : ∀ refs, (applyCleanupKeepPolicy sortSlice now h refs q).map Prod.snd
      = (applyCleanupKeepPolicy sortSlice now h refs p).map Prod.snd := by
    intro refs
    unfold applyCleanupKeepPolicy
    rw [← hpq]
    cases applyReferencesLimit sortSlice now h refs p.References.Limit <;> rfl
  unfold policyReferences
  rw [← hpq]
  cases hb : p.References.BranchRegexp with
  | some re =>
    simp only
    cases hsel : selectBranchReferencesByRegexp h branchesRefs re with
    | none => rfl
    | some sel => exact hcleanup sel
  | none =>
    simp only
    cases ht : p.References.TagRegexp with
    | some re => exact hcleanup _
    | none => rfl

theorem survivorsAt_of_references {h h' : Heap} (hf : sameReferences h h')
    (sortSlice : (Ptr → Ptr → Bool) → List Ptr → List Ptr) (now : Time)
    (branchesRefs tagsRefs : List Ptr) (p q : MetaCleanupKeepPolicy)
    (hpq : p.References = q.References) :
    (policyReferences sortSlice now branchesRefs tagsRefs h' q).map Prod.snd
      = (policyReferences sortSlice now branchesRefs tagsRefs h p).map Prod.snd := by
  rw [policyReferences_snd_of_references sortSlice now branchesRefs tagsRefs h' p q hpq,
    policyReferences_congr hf]


theorem policyStep_of_references (sortSlice : (Ptr → Ptr → Bool) → List Ptr → List Ptr)
    (now : Time) (branchesRefs tagsRefs : List Ptr) (st st' : PolicyLoopState)
    (p q : MetaCleanupKeepPolicy) (hf : sameReferences st.heap st'.heap)
    (hB : st'.resultBranchesRefs = st.resultBranchesRefs)
    (hT : st'.resultTagsRefs = st.resultTagsRefs) (hpq : p.References = q.References) :
    (∀ st1, policyStep sortSlice now branchesRefs tagsRefs st p = some st1 →
        ∃ st1', policyStep sortSlice now branchesRefs tagsRefs st' q = some st1' ∧
          sameReferences st1.heap st1'.heap ∧
          st1'.resultBranchesRefs = st1.resultBranchesRefs ∧
          st1'.resultTagsRefs = st1.resultTagsRefs) ∧
      (policyStep sortSlice now branchesRefs tagsRefs st p = none →
        policyStep sortSlice now branchesRefs tagsRefs st' q = none) := by
  have hsnd := survivorsAt_of_references hf sortSlice now branchesRefs tagsRefs p q hpq
  cases hp : policyReferences sortSlice now branchesRefs tagsRefs st.heap p with
  | none =>
    cases hq : policyReferences sortSlice now branchesRefs tagsRefs st'.heap q with
    | none =>
      refine ⟨fun st1 hst1 => ?_, fun _ => ?_⟩
      · simp [policyStep, hp] at hst1
      · simp [policyStep, hq]
    | some resq =>
      rw [hp, hq] at hsnd
      simp at hsnd
  | some resp =>
    cases hq : policyReferences sortSlice now branchesRefs tagsRefs st'.heap q with
    | none =>
      rw [hp, hq] at hsnd
      simp at hsnd
    | some resq =>
      rw [hp, hq] at hsnd
      simp only [Option.map_some', Option.some.injEq] at hsnd
      have hheapp := policyReferences_heap sortSlice now branchesRefs tagsRefs st.heap p resp hp
      have hheapq := policyReferences_heap sortSlice now branchesRefs tagsRefs st'.heap q resq hq
      have hsame : sameReferences resp.1 resq.1 := by
        rw [hheapp, hheapq]
        exact sameReferences_trans
          (sameReferences_symm (sameReferences_applyImagesPerReference st.heap _ _))
          (sameReferences_trans hf (sameReferences_applyImagesPerReference st'.heap _ _))
      obtain ⟨heapp, lp⟩ := resp
      obtain ⟨heapq, lq⟩ := resq
      simp only at hsnd hsame
      subst hsnd
      refine ⟨fun st1 hst1 => ?_, fun hnone => ?_⟩
      · unfold policyStep at hst1 ⊢
        simp only [hp] at hst1
        simp only [hq, ← hpq, hB, hT]
        by_cases hb : p.References.BranchRegexp.isSome = true
        · simp only [hb, if_true, Option.some.injEq] at hst1 ⊢
          subst hst1
          exact ⟨_, rfl, hsame, rfl, rfl⟩
        · by_cases ht : p.References.TagRegexp.isSome = true
          · simp only [hb, ht, if_true, if_false, Bool.false_eq_true, Option.some.injEq] at hst1 ⊢
            subst hst1
            exact ⟨_, rfl, hsame, rfl, rfl⟩
          · simp only [hb, ht, if_false, Bool.false_eq_true, Option.some.injEq] at hst1 ⊢
            subst hst1
            exact ⟨_, rfl, hsame, rfl, rfl⟩
      · unfold policyStep at hnone
        simp only [hp] at hnone
        by_cases hb : p.References.BranchRegexp.isSome = true
        · simp [hb] at hnone
        · by_cases ht : p.References.TagRegexp.isSome = true
          · simp [hb, ht] at hnone
          · simp [hb, ht] at hnone


theorem policyLoop_of_references (sortSlice : (Ptr → Ptr → Bool) → List Ptr → List Ptr)
    (now : Time) (branchesRefs tagsRefs : List Ptr) (ps qs : List MetaCleanupKeepPolicy)
    (hpq : List.Forall₂ (fun p q => p.References = q.References) ps qs)
    (st st' : PolicyLoopState) (hf : sameReferences st.heap st'.heap)
    (hB : st'.resultBranchesRefs = st.resultBranchesRefs)
    (hT : st'.resultTagsRefs = st.resultTagsRefs) :
    (∀ st1, policyLoop sortSlice now branchesRefs tagsRefs st ps = some st1 →
        ∃ st1', policyLoop sortSlice now branchesRefs tagsRefs st' qs = some st1' ∧
          sameReferences st1.heap st1'.heap ∧
          st1'.resultBranchesRefs = st1.resultBranchesRefs ∧
          st1'.resultTagsRefs = st1.resultTagsRefs) ∧
      (policyLoop sortSlice now branchesRefs tagsRefs st ps = none →
        policyLoop sortSlice now branchesRefs tagsRefs st' qs = none) := by
  induction hpq generalizing st st' with
  | nil =>
    refine ⟨fun st1 hst1 => ?_, fun hnone => ?_⟩
    · rw [policyLoop_nil] at hst1
      cases hst1
      exact ⟨st', rfl, hf, hB, hT⟩
    · rw [policyLoop_nil] at hnone
      cases hnone
  | @cons p q ps qs hhead _ ih =>
    obtain ⟨hsome, hnone⟩ := policyStep_of_references sortSlice now branchesRefs tagsRefs st st'
      p q hf hB hT hhead
    unfold policyLoop at ih ⊢
    simp only [List.foldlM_cons]
    cases hstep : policyStep sortSlice now branchesRefs tagsRefs st p with
    | none =>
      rw [hnone hstep]
      exact ⟨fun st1 hst1 => by simp at hst1, fun _ => rfl⟩
    | some s1 =>
      obtain ⟨s1', hstep', hf1, hB1, hT1⟩ := hsome s1 hstep
      rw [hstep']
      exact ih s1 s1' hf1 hB1 hT1

theorem effectiveKeepPolicies_of_references (ps qs : List MetaCleanupKeepPolicy)
    (hpq : List.Forall₂ (fun p q => p.References = q.References) ps qs) :
    List.Forall₂ (fun p q => p.References = q.References) (effectiveKeepPolicies ps)
      (effectiveKeepPolicies qs) := by
  cases hpq with
  | nil => exact List.forall₂_same.2 (fun _ _ => rfl)
  | cons hhead htail =>
    unfold effectiveKeepPolicies
    simp only [List.length_cons, Nat.succ_ne_zero, if_false]
    exact List.Forall₂.cons hhead htail

/-- C22: for any two policy lists that differ at most in the
`ImagesPerReference` of their policies, the same repository, the same clock
and the same sort, a run of `getReferencesToScan` with the second list returns
the same references in the same order as a run with the first, on a heap whose
records differ at most in the attached sub-policy; and it fails whenever the
run with the first list fails, in the same way. -/
theorem sub_policies_do_not_change_the_final_list
    (sortSlice : (Ptr → Ptr → Bool) → List Ptr → List Ptr) (now : Time)
    (gitRepository : Repository) (ps qs : List MetaCleanupKeepPolicy)
    (hpq : List.Forall₂ (fun p q => p.References = q.References) ps qs) :
    (∀ h1 result, getReferencesToScan sortSlice now gitRepository ps = .ok (h1, result) →
        ∃ h2, getReferencesToScan sortSlice now gitRepository qs = .ok (h2, result) ∧
          sameReferences h1 h2) ∧
      (∀ err, getReferencesToScan sortSlice now gitRepository ps = .error err →
        getReferencesToScan sortSlice now gitRepository qs = .error err) := by
  unfold getReferencesToScan
  cases hrs : gitRepository.References with
  | error err =>
    exact ⟨fun h1 result hres => by simp at hres, fun err hres => hres⟩
  | ok rs =>
    simp only
    cases hcl : classifyReferences gitRepository rs with
    | error err =>
      exact ⟨fun h1 result hres => by simp at hres, fun err hres => hres⟩
    | ok refs =>
      simp only
      obtain ⟨hsome, hnone⟩ := policyLoop_of_references sortSlice now
        (splitReferences (allocate refs) (List.range refs.length)).1
        (splitReferences (allocate refs) (List.range refs.length)).2
        (effectiveKeepPolicies ps) (effectiveKeepPolicies qs)
        (effectiveKeepPolicies_of_references ps qs hpq)
        { heap := allocate refs, resultTagsRefs := [], resultBranchesRefs := [] }
        { heap := allocate refs, resultTagsRefs := [], resultBranchesRefs := [] }
        (sameReferences_refl _) rfl rfl
      unfold scanClassified
      simp only
      cases hloop : policyLoop sortSlice now
          (splitReferences (allocate refs) (List.range refs.length)).1
          (splitReferences (allocate refs) (List.range refs.length)).2
          { heap := allocate refs, resultTagsRefs := [], resultBranchesRefs := [] }
          (effectiveKeepPolicies ps) with
      | none =>
        rw [hnone hloop]
        exact ⟨fun h1 result hres => by simp at hres, fun err hres => hres⟩
      | some st1 =>
        obtain ⟨st1', hloop', hf, hB, hT⟩ := hsome st1 hloop
        rw [hloop']
        refine ⟨fun h1 result hres => ?_, fun err hres => by simp at hres⟩
        simp only [Except.ok.injEq, Prod.mk.injEq] at hres
        obtain ⟨hh, hresult⟩ := hres
        subst hh
        refine ⟨st1'.heap, ?_, hf⟩
        simp only [Except.ok.injEq, Prod.mk.injEq, true_and]
        rw [← hresult, hB, hT, createdAtAfter_congr hf]


/-- Witness of C22: policy A, and policy A with the sub-policy of policy B, on
the example repository: both runs return the two branches, the newest first,
with different sub-policies attached. -/
theorem sub_policies_do_not_change_the_final_list_witness :
    List.Forall₂ (fun p q => p.References = q.References) [examplePolicyA] [examplePolicyAOther] ∧
      (exampleRun exampleRepository [examplePolicyA]).2 = [0, 1] ∧
      (exampleRun exampleRepository [examplePolicyAOther]).2 = [0, 1] ∧
      attachedPolicy (exampleRun exampleRepository [examplePolicyA]).1 0
        ≠ attachedPolicy (exampleRun exampleRepository [examplePolicyAOther]).1 0 ∧
      (∀ h1 result,
        getReferencesToScan insertionSortSlice 0 exampleRepository [examplePolicyA]
            = .ok (h1, result) →
          ∃ h2, getReferencesToScan insertionSortSlice 0 exampleRepository [examplePolicyAOther]
              = .ok (h2, result) ∧ sameReferences h1 h2) ∧
      (∀ err,
        getReferencesToScan insertionSortSlice 0 exampleRepository [examplePolicyA]
            = .error err →
          getReferencesToScan insertionSortSlice 0 exampleRepository [examplePolicyAOther]
            = .error err) :=
  ⟨List.Forall₂.cons rfl List.Forall₂.nil, by decide, by decide, by decide,
    sub_policies_do_not_change_the_final_list insertionSortSlice 0 exampleRepository
      [examplePolicyA] [examplePolicyAOther] (List.Forall₂.cons rfl List.Forall₂.nil)⟩


/-! ## The documents of a configuration -/

theorem sliceBytes_in_range (content : List Byte) (lo hi : Int) (h0 : 0 ≤ lo) (h1 : lo ≤ hi)
    (h2 : hi ≤ (content.length : Int)) :
    ∃ d, sliceBytes content lo hi = some d ∧ d <:+: content := by
  unfold sliceBytes
  rw [if_pos ⟨h0, h1, h2⟩]
  exact ⟨_, rfl, (List.take_prefix _ _).isInfix.trans (List.drop_suffix _ _).isInfix⟩

theorem cutDocument_in_range (content : List Byte) (lo hi : Int) (h0 : 0 ≤ lo) (h1 : lo ≤ hi)
    (h2 : hi ≤ (content.length : Int)) :
    ∃ d, cutDocument content lo hi = some d ∧ d <:+: content := by
  unfold cutDocument
  by_cases heq : lo = hi
  · rw [if_pos heq]
    exact ⟨[], rfl, List.nil_infix⟩
  · rw [if_neg heq]
    exact sliceBytes_in_range content lo hi h0 h1 h2

theorem splitContentStep_in_range (content : List Byte) (index : Int) (ch : Byte) (v : SplitVars)
    (hindex : 0 ≤ index) (hlen : index < (content.length : Int))
    (hv : v.InRange content index) :
    ∃ v1, splitContentStep content index ch v = some v1 ∧ v1.InRange content (index + 1) := by
  obtain ⟨state, docStartIndex, separatorLength, docsContents⟩ := v
  obtain ⟨h0, h1, hsep, hdocs⟩ := hv
  simp only at h0 h1 hsep hdocs
  unfold splitContentStep
  simp only
  by_cases c1 : ch = 45
  · rw [if_pos c1]
    cases state <;> simp [SplitVars.InRange] at hsep ⊢ <;>
      first
        | (refine ⟨h0, by omega, by omega, hdocs⟩)
        | (refine ⟨h0, by omega, hdocs⟩)
  · rw [if_neg c1]
    by_cases c2 : ch = 10
    · rw [if_pos c2]
      have hcut : (state = .stateDocDash3 ∨ state = .stateDocSpaces ∨ state = .stateDocComment) →
          ∃ d, cutDocument content docStartIndex (index - separatorLength) = some d ∧
            d <:+: content := by
        intro hstate
        have hs := hsep (by rcases hstate with h | h | h <;> simp [h])
        exact cutDocument_in_range content docStartIndex (index - separatorLength) h0 hs.2
          (by omega)
      have hnew : ∀ d, d <:+: content →
          SplitVars.InRange content (index + 1)
            { state := .stateLineBegin, docStartIndex := index + 1, separatorLength := 0
              docsContents := docsContents ++ [d] } := by
        intro d hd
        refine ⟨by simp only; omega, by simp, by simp, ?_⟩
        intro e he
        rcases List.mem_append.1 he with he | he
        · exact hdocs e he
        · rw [List.mem_singleton.1 he]
          exact hd
      cases state with
      | stateDocDash3 =>
        obtain ⟨d, hd, hinf⟩ := hcut (Or.inl rfl)
        simp only [hd]
        exact ⟨_, rfl, hnew d hinf⟩
      | stateDocSpaces =>
        obtain ⟨d, hd, hinf⟩ := hcut (Or.inr (Or.inl rfl))
        simp only [hd]
        exact ⟨_, rfl, hnew d hinf⟩
      | stateDocComment =>
        obtain ⟨d, hd, hinf⟩ := hcut (Or.inr (Or.inr rfl))
        simp only [hd]
        exact ⟨_, rfl, hnew d hinf⟩
      | _ =>
        simp [SplitVars.InRange]
        exact ⟨h0, by omega, hdocs⟩
    · rw [if_neg c2]
      by_cases c3 : ch = 32 ∨ ch = 13 ∨ ch = 9
      · rw [if_pos c3]
        cases state <;> simp [SplitVars.InRange] at hsep ⊢ <;>
          first
            | (refine ⟨h0, by omega, by omega, hdocs⟩)
            | (refine ⟨h0, by omega, hdocs⟩)
      · rw [if_neg c3]
        by_cases c4 : ch = 35
        · rw [if_pos c4]
          cases state <;> simp [SplitVars.InRange] at hsep ⊢ <;>
            first
              | (refine ⟨h0, by omega, by omega, hdocs⟩)
              | (refine ⟨h0, by omega, hdocs⟩)
        · rw [if_neg c4]
          cases state <;> simp [SplitVars.InRange] at hsep ⊢ <;>
            first
              | (refine ⟨h0, by omega, by omega, hdocs⟩)
              | (refine ⟨h0, by omega, hdocs⟩)

theorem splitContentLoop_in_range (content rest : List Byte) (index : Int) (v : SplitVars)
    (hindex : 0 ≤ index) (hlen : index + (rest.length : Int) = (content.length : Int))
    (hv : v.InRange content index) :
    ∃ v1, splitContentLoop content rest index v = some v1 ∧
      v1.InRange content (content.length : Int) := by
  induction rest generalizing index v with
  | nil =>
    have hlast : index = (content.length : Int) := by simpa using hlen
    rw [← hlast]
    exact ⟨v, rfl, hv⟩
  | cons ch rest ih =>
    have hlt : index < (content.length : Int) := by
      simp only [List.length_cons, Nat.cast_add, Nat.cast_one] at hlen
      omega
    obtain ⟨v1, hstep, hv1⟩ := splitContentStep_in_range content index ch v hindex hlt hv
    have hlen1 : index + 1 + (rest.length : Int) = (content.length : Int) := by
      simp only [List.length_cons, Nat.cast_add, Nat.cast_one] at hlen
      omega
    obtain ⟨v2, hloop, hv2⟩ := ih (index + 1) v1 (by omega) hlen1 hv1
    refine ⟨v2, ?_, hv2⟩
    simp only [splitContentLoop, hstep]
    exact hloop

/-- C29: for every byte string `splitContent` returns, so none of its slice
expressions is out of range (a slice expression `content[lo:hi]` panics unless
`0 ≤ lo ≤ hi ≤ len(content)`, the bounds being the start of the document and
the index where the separator line begins); and every returned document is a
contiguous piece of the content. -/
theorem splitContent_never_slices_out_of_range (content : List Byte) :
    (∀ lo hi : Int, (sliceBytes content lo hi).isSome = true ↔
        (0 ≤ lo ∧ lo ≤ hi ∧ hi ≤ (content.length : Int))) ∧
    ∃ docsContents, splitContent content = some docsContents ∧
      ∀ docContent ∈ docsContents, docContent <:+: content := by
  refine ⟨fun lo hi => ?_, ?_⟩
  · unfold sliceBytes
    by_cases hb : 0 ≤ lo ∧ lo ≤ hi ∧ hi ≤ (content.length : Int)
    · simp [hb]
    · simp only [if_neg hb, Option.isSome_none, Bool.false_eq_true, false_iff]
      exact hb
  have hinitial : SplitVars.initial.InRange content 0 := by
    refine ⟨le_refl _, le_refl _, ?_, ?_⟩
    · intro hstate
      simp [SplitVars.initial] at hstate
    · intro d hd
      simp [SplitVars.initial] at hd
  obtain ⟨v, hloop, h0, h1, hsep, hdocs⟩ := splitContentLoop_in_range content content 0
    SplitVars.initial (le_refl _) (by simp) hinitial
  have happend : ∀ d, d <:+: content → ∀ e ∈ v.docsContents ++ [d], e <:+: content := by
    intro d hd e he
    rcases List.mem_append.1 he with he | he
    · exact hdocs e he
    · rw [List.mem_singleton.1 he]
      exact hd
  unfold splitContent
  rw [hloop]
  simp only
  cases content with
  | nil =>
    simp only [splitContentLoop, Option.some.injEq] at hloop
    subst hloop
    refine ⟨[[]], by decide, ?_⟩
    intro d hd
    rw [List.mem_singleton.1 hd]
  | cons c cs =>
    have hindex : (if (c :: cs).isEmpty = true then (0 : Int) else ((c :: cs).length : Int) - 1)
        = ((c :: cs).length : Int) - 1 := by simp
    rw [hindex]
    by_cases hend : v.docStartIndex ≠ ((c :: cs).length : Int) - 1 + 1
    · rw [if_pos hend]
      have hlast : ∃ d, sliceBytes (c :: cs) v.docStartIndex ((c :: cs).length : Int) = some d ∧
          d <:+: c :: cs := sliceBytes_in_range _ _ _ h0 h1 (le_refl _)
      have hcut : (v.state = .stateDocDash3 ∨ v.state = .stateDocSpaces ∨
            v.state = .stateDocComment) →
          ∃ d, cutDocument (c :: cs) v.docStartIndex
              (((c :: cs).length : Int) - 1 - (v.separatorLength - 1)) = some d ∧
            d <:+: c :: cs := by
        intro hstate
        have hs := hsep (by rcases hstate with h | h | h <;> simp [h])
        exact cutDocument_in_range _ _ _ h0 (by omega) (by omega)
      cases hstate : v.state with
      | stateDocDash3 =>
        obtain ⟨d, hd, hinf⟩ := hcut (Or.inl hstate)
        simp only [hd]
        exact ⟨_, rfl, happend d hinf⟩
      | stateDocSpaces =>
        obtain ⟨d, hd, hinf⟩ := hcut (Or.inr (Or.inl hstate))
        simp only [hd]
        exact ⟨_, rfl, happend d hinf⟩
      | stateDocComment =>
        obtain ⟨d, hd, hinf⟩ := hcut (Or.inr (Or.inr hstate))
        simp only [hd]
        exact ⟨_, rfl, happend d hinf⟩
      | _ =>
        obtain ⟨d, hd, hinf⟩ := hlast
        simp only [hd]
        exact ⟨_, rfl, happend d hinf⟩
    · rw [if_neg hend]
      exact ⟨_, rfl, hdocs⟩

/-- C30 (the claim fails on the code): in the content `a`, line feed,
`--- #-`, line feed, `b` the second line starts with three dashes, a space and
a `#` comment whose text `-` has no line feed, and neither `a` nor `b` has a
separator line; `splitContent` returns the whole content as one document and
not the two documents `a`, line feed, and `b`. With the comment text `x` it
returns the two documents. -/
theorem dash_in_separator_comment_unmakes_the_separator :
    asciiBytes "a\n--- #-\nb"
        = asciiBytes "a" ++ asciiBytes "\n--- #" ++ asciiBytes "-" ++ asciiBytes "\n"
          ++ asciiBytes "b" ∧
      10 ∉ asciiBytes "-" ∧
      splitContent (asciiBytes "a") = some [asciiBytes "a"] ∧
      splitContent (asciiBytes "b") = some [asciiBytes "b"] ∧
      splitContent (asciiBytes "a\n--- #-\nb") = some [asciiBytes "a\n--- #-\nb"] ∧
      splitContent (asciiBytes "a\n--- #-\nb") ≠ some [asciiBytes "a\n", asciiBytes "b"] ∧
      splitContent (asciiBytes "a\n--- #x\nb") = some [asciiBytes "a\n", asciiBytes "b"] := by
  refine ⟨by decide, by decide, by decide, by decide, by decide, by decide, by decide⟩


/-! ## The time bound, with the clock read for each reference -/

/-- C5 as stated fails: two references have the same `CreatedAt` 10 and the
duration is 5; the clock reads 14 when the first reference is tested and 15
when the second is tested, and `filterReferencesByIn` keeps the first and drops
the second, which is for no instant `now` the list of the references whose
`CreatedAt` is strictly after `now - In`. And with one reading 0 of the clock
and the smallest `int64` as duration, whose negation wraps, it keeps a
reference whose `CreatedAt` is not after `now - In`. -/
theorem filterReferencesByIn_reads_the_clock_for_each_reference :
    (exampleHeapSameTime 0).CreatedAt = 10 ∧ (exampleHeapSameTime 1).CreatedAt = 10 ∧
      filterReferencesByInClock (fun k => 14 + (k : Int)) exampleHeapSameTime [0, 1] 5 = [0] ∧
      (∀ now : Time, ([0] : List Ptr)
        ≠ [0, 1].filter (fun r => decide (now - 5 < (exampleHeapSameTime r).CreatedAt))) ∧
      filterReferencesByInClock (fun _ => 0) exampleHeap1 [0] minInt64 = [0] ∧
      ¬ ((0 : Time) - minInt64 < (exampleHeap1 0).CreatedAt) := by
  refine ⟨by decide, by decide, by decide, ?_, by decide, by decide⟩
  intro now
  have h0 : (exampleHeapSameTime 0).CreatedAt = 10 := by decide
  have h1 : (exampleHeapSameTime 1).CreatedAt = 10 := by decide
  by_cases hnow : now - 5 < (10 : Int)
  · simp [List.filter_cons, h0, h1, hnow]
  · simp [List.filter_cons, h0, h1, hnow]

/-- C5 as amended: for every reference list, every sequence of readings of
the clock and every duration `In` but the smallest `int64`,
`filterReferencesByIn` keeps, in their input order, exactly the references
whose `CreatedAt` is strictly after `t - In`, where `t` is the reading of
`time.Now()` in the round in which the reference is tested; a reference whose
`CreatedAt` equals `t - In` is dropped; and when every reading is the same
instant `now`, the result is the list of the references whose `CreatedAt` is
strictly after `now - In`. -/
theorem filterReferencesByIn_strictly_after_own_reading (clock : Nat → Time) (h : Heap)
    (refs : List Ptr) (d : Duration) (hlo : minInt64 < d) (hhi : d ≤ maxInt64) :
    filterReferencesByInClock clock h refs d
        = ((refs.enumFrom 0).filter
            (fun q => decide (clock q.1 - d < (h q.2).CreatedAt))).map Prod.snd ∧
      (filterReferencesByInClock clock h refs d).Sublist refs ∧
      (∀ r, (h r).CreatedAt = clock 0 - d → filterReferencesByInClock clock h [r] d = []) ∧
      (∀ now, (∀ k, clock k = now) →
        filterReferencesByInClock clock h refs d
          = refs.filter (fun r => decide (now - d < (h r).CreatedAt))) := by
  have heq : ∀ l : List Ptr, filterReferencesByInClock clock h l d
      = ((l.enumFrom 0).filter
          (fun q => decide (clock q.1 - d < (h q.2).CreatedAt))).map Prod.snd := by
    intro l
    rw [filterReferencesByInClock_eq_filter, duration_neg_eq d hlo hhi]
    rfl
  refine ⟨heq refs, ?_, ?_, ?_⟩
  · rw [heq refs]
    have hsub := ((List.filter_sublist (refs.enumFrom 0)
      (p := fun q => decide (clock q.1 - d < (h q.2).CreatedAt))).map Prod.snd)
    rwa [List.enumFrom_map_snd] at hsub
  · intro r hr
    rw [heq [r]]
    simp [List.enumFrom_cons, List.filter_cons, hr]
  · intro now hclock
    rw [heq refs]
    have hpred : (fun q : Nat × Ptr => decide (clock q.1 - d < (h q.2).CreatedAt))
        = (fun q : Nat × Ptr => (fun r => decide (now - d < (h r).CreatedAt)) q.2) := by
      funext q
      rw [hclock q.1]
    rw [hpred]
    exact enumFrom_filter_snd (fun r => decide (now - d < (h r).CreatedAt)) refs 0

/-- Witness of C5 as amended: the two references with the same `CreatedAt`,
the readings 14 and 15 and the duration 5. -/
theorem filterReferencesByIn_strictly_after_own_reading_witness :
    minInt64 < (5 : Duration) ∧ (5 : Duration) ≤ maxInt64 ∧
      filterReferencesByInClock (fun k => 14 + (k : Int)) exampleHeapSameTime [0, 1] 5
        = (([0, 1].enumFrom 0).filter
            (fun q => decide ((fun k => 14 + (k : Int)) q.1 - 5
              < (exampleHeapSameTime q.2).CreatedAt))).map Prod.snd ∧
      filterReferencesByInClock (fun k => 14 + (k : Int)) exampleHeapSameTime [0, 1] 5 = [0] :=
  ⟨by decide, by decide,
    (filterReferencesByIn_strictly_after_own_reading (fun k => 14 + (k : Int))
      exampleHeapSameTime [0, 1] 5 (by decide) (by decide)).1,
    by decide⟩

end Werf
